import Mathlib

set_option autoImplicit false

/-!
Verification of the cian-parse-page repository against its specification.

The development shallowly embeds the parts of the code the claims are about:

* `src/utils/merge_data.py` (`merge_data` and its inner `deep_merge`):
  JSON-like data is modelled by the inductive type `Cian.Value`; Python
  dictionaries (which here always carry string keys, since all data flows
  through JSON) are association lists `Cian.Obj` in insertion order, with
  `getK` / `setK` / `delK` mirroring Python's `d[k]` / `d[k] = v` / `d.pop(k)`
  (insertion order preserved, in-place update on an existing key).
  Python exceptions are modelled by `Option`: `none` means the call raised.

* `src/scraper/scraper_core.py` (`BaseScraper.scrape_all` batching),
  `src/scraper/run.py` (`run_scrapper` retry loop) and
  `src/scraper/thread_scraper.py` (`_scrape_worker` consecutive-network-error
  handling) further below.
-/

namespace Cian

/-- JSON-like Python values (floats do not occur in the merge path we model). -/
inductive Value where
  | null
  | bool (b : Bool)
  | int (n : Int)
  | str (s : String)
  | list (xs : List Value)
  | dict (fields : List (String × Value))
  deriving Repr

/-- A Python dict with string keys, in insertion order. -/
abbrev Obj := List (String × Value)

/-- `d.get(k)` / `k in d`: first (and in a real dict, only) binding of `k`. -/
def getK : Obj → String → Option Value
  | [], _ => none
  | (k2, v) :: rest, k => if k2 = k then some v else getK rest k

/-- `d[k] = v`: update in place if the key exists, else append at the end. -/
def setK : Obj → String → Value → Obj
  | [], k, v => [(k, v)]
  | (k2, v2) :: rest, k, v =>
      if k2 = k then (k2, v) :: rest else (k2, v2) :: setK rest k v

/-- `d.pop(k, None)`: drop the binding of `k` if present. -/
def delK : Obj → String → Obj
  | [], _ => []
  | (k2, v2) :: rest, k => if k2 = k then rest else (k2, v2) :: delK rest k

namespace Value

/-- Python truthiness (`if updated_date:`). -/
def truthy : Value → Bool
  | .null => false
  | .bool b => b
  | .int n => n != 0
  | .str s => s != ""
  | .list xs => !xs.isEmpty
  | .dict fs => !fs.isEmpty

/-- `isinstance(v, (int, float))`; `bool` is a subclass of `int` in Python.
    Floats do not occur in the modelled data. -/
def isNumeric : Value → Bool
  | .int _ => true
  | .bool _ => true
  | _ => false

/-- `int(v)` on a numeric value. -/
def toInt : Value → Int
  | .int n => n
  | .bool b => if b then 1 else 0
  | _ => 0

/-- `str(v)`. Exact on the scalar values; the merge code only applies it to
    values that passed the `isinstance(..., (int, float))` guard. -/
def pyStr : Value → String
  | .null => "None"
  | .bool b => if b then "True" else "False"
  | .int n => toString n
  | .str s => s
  | .list _ => ""
  | .dict _ => ""

def isNull : Value → Bool
  | .null => true
  | _ => false

def isDict : Value → Bool
  | .dict _ => true
  | _ => false

end Value

/-- `v is True` (identity with the `True` object). -/
def isTrueV : Option Value → Bool
  | some (.bool true) => true
  | _ => false

/-- `v is False`. -/
def isFalseV : Option Value → Bool
  | some (.bool false) => true
  | _ => false

/-- `updated_date = new["metadata"].get("updated_date") if "metadata" in new
    and isinstance(new["metadata"], dict) else None` (merge_data.py lines 7-9). -/
def updDate (nf : Obj) : Option Value :=
  match getK nf "metadata" with
  | some (.dict mf) => getK mf "updated_date"
  | _ => none

/-- Case 3 of deep_merge (merge_data.py lines 29-50): record a price change when
    both sides carry a numeric `offer_price` and the values differ; Python `!=`
    on int/bool compares the numeric values. `none` models the `AttributeError`
    raised by `.append` when `existing["price_changes"]` is not a list. -/
def priceCase (ef nf : Obj) (ud : Value) : Option Obj :=
  match getK nf "offer_price", getK ef "offer_price" with
  | some np, some ep =>
      if np.isNumeric && ep.isNumeric && np.toInt != ep.toInt then
        let entry := Value.dict
          [("change", .str (toString (np.toInt - ep.toInt))),
           ("current_price", .str np.pyStr),
           ("previous_price", .str ep.pyStr),
           ("date", ud)]
        match getK ef "price_changes" with
        | none => some (setK ef "price_changes" (.list [entry]))
        | some (.list pcs) => some (setK ef "price_changes" (.list (pcs ++ [entry])))
        | some _ => none
      else some ef
  | _, _ => some ef

/-- `if "metadata" not in existing: existing["metadata"] = {}`
    (merge_data.py lines 13-15). -/
def ensureMeta (ef : Obj) : Obj :=
  if (getK ef "metadata").isSome then ef else setK ef "metadata" (.dict [])

/-- `existing["metadata"][k] = ud`: `none` models the TypeError raised when
    `existing["metadata"]` holds a non-dict (or the KeyError when it is
    absent). -/
def setMeta (ef : Obj) (k : String) (ud : Value) : Option Obj :=
  match getK ef "metadata" with
  | some (.dict mf) => some (setK ef "metadata" (.dict (setK mf k ud)))
  | _ => none

/-- The three mutually exclusive special cases of deep_merge
    (merge_data.py lines 17-50): new offer → `publication_date`;
    publish→unpublish transition → `unpublished_date`; differing numeric
    `offer_price` → append a price change. The case-2 conjunction reads
    `existing["metadata"].get(...)` only after `new` marks the offer
    unpublished, so a non-dict existing metadata raises only on that path. -/
def specialCases (ef nf : Obj) (ud : Value) (isNewOffer : Bool) : Option Obj :=
  if isNewOffer then setMeta ef "publication_date" ud
  else
    match getK nf "metadata" with
    | some (.dict nmf) =>
        if isTrueV (getK nmf "is_unpublished") then
          match getK ef "metadata" with
          | some (.dict mf) =>
              if isFalseV (getK mf "is_unpublished") then
                setMeta ef "unpublished_date" ud
              else priceCase ef nf ud
          | _ => none
        else priceCase ef nf ud
    | _ => priceCase ef nf ud

/-- The `if updated_date:` block of deep_merge (merge_data.py lines 11-53):
    ensure `existing["metadata"]` exists, run exactly one of the three special
    cases, then always update `last_active`. -/
def specialPhase (ef nf : Obj) (isNewOffer : Bool) : Option Obj :=
  match updDate nf with
  | some ud =>
      if ud.truthy then do
        let ef1 ← specialCases (ensureMeta ef) nf ud isNewOffer
        setMeta ef1 "last_active" ud
      else some ef
  | none => some ef

/-- The implicit flag of the description rule (merge_data.py lines 88-93):
    `"metadata" in new and new["metadata"].get("is_unpublished") is True`.
    `none` models the `AttributeError` raised by `.get` when the new record's
    `metadata` is present but not a dict; the flag is only consulted (and in
    Python only evaluated) when a `description` key reaches the final branch. -/
def descUnpubFlag (nf : Obj) : Option Bool :=
  match getK nf "metadata" with
  | none => some false
  | some (.dict mf) => some (isTrueV (getK mf "is_unpublished"))
  | some _ => none

/-- The final `else` of the merge loop (merge_data.py lines 73-95): skip
    `timestamp`, skip `None` values, skip `description` while the incoming
    record is being unpublished, otherwise overwrite. -/
def plainStep (ef : Obj) (k : String) (v : Value) (df : Option Bool) : Option Obj :=
  if k = "timestamp" then some ef
  else if v.isNull then some ef
  else if k = "description" then
    match df with
    | none => none
    | some true => some ef
    | some false => some (setK ef k v)
  else some (setK ef k v)

mutual

/-- `deep_merge(existing, new, is_new_offer)` (merge_data.py lines 4-95).
    Every call site passes two dicts (each is guarded by `isinstance(..., dict)`
    checks or builds the value itself), so the embedding takes the field lists
    directly. The function mutates `existing` and returns it; `none` models a
    raised exception. -/
def deepMerge (ef nf : Obj) (isNewOffer : Bool) : Option Obj := do
  let ef1 ← specialPhase ef nf isNewOffer
  mergeLoop ef1 nf (descUnpubFlag nf)
termination_by (sizeOf nf, 1)

/-- `for key, value in new.items(): ...` — `fs` is the remaining items, `df`
    the description-rule flag of the whole new record. -/
def mergeLoop (ef : Obj) (fs : Obj) (df : Option Bool) : Option Obj :=
  match fs with
  | [] => some ef
  | (k, v) :: rest => do
      let ef1 ← mergeStep ef k v df
      mergeLoop ef1 rest df
termination_by (sizeOf fs, 0)

/-- One iteration of the merge loop (merge_data.py lines 55-95). -/
def mergeStep (ef : Obj) (k : String) (v : Value) (df : Option Bool) : Option Obj :=
  match v with
  | .dict mf =>
      if k = "metadata" then metaLoop (ensureMeta ef) mf
      else plainFallback ef k (.dict mf) df
  | v2 => plainFallback ef k v2 df
termination_by (sizeOf v, 3)

/-- The `elif`/`else` part of one loop iteration: recursive merge when both
    sides hold dicts under the key, otherwise the plain-overwrite rules. -/
def plainFallback (ef : Obj) (k : String) (v : Value) (df : Option Bool) : Option Obj :=
  match getK ef k, v with
  | some (.dict ekf), .dict vf => do
      let m ← deepMerge ekf vf false
      some (setK ef k (.dict m))
  | _, _ => plainStep ef k v df
termination_by (sizeOf v, 2)

/-- One non-skipped iteration of the metadata loop (merge_data.py lines 64-72):
    when both `existing["metadata"][meta_key]` and the incoming value are
    dicts, the stored sub-dict is deep-merged in place, otherwise the incoming
    value overwrites it. `none` models the TypeError raised by subscripting or
    assigning into a non-dict `existing["metadata"]` (and the KeyError were it
    absent, though the loop only runs after it was ensured). -/
def metaStep (ef : Obj) (mk : String) (mv : Value) : Option Obj :=
  match getK ef "metadata" with
  | some (.dict emf) => do
      let newSub ←
        (match getK emf mk, mv with
         | some (.dict sub), .dict mvf => (deepMerge sub mvf false).map Value.dict
         | _, _ => some mv)
      some (setK ef "metadata" (.dict (setK emf mk newSub)))
  | _ => none
termination_by (sizeOf mv, 1)

/-- `for meta_key, meta_value in value.items(): ...` (merge_data.py lines 62-72):
    merge the new record's metadata, skipping `updated_date`. -/
def metaLoop (ef : Obj) (mfs : Obj) : Option Obj :=
  match mfs with
  | [] => some ef
  | (mk, mv) :: rest =>
      if mk = "updated_date" then metaLoop ef rest
      else do
        let ef1 ← metaStep ef mk mv
        metaLoop ef1 rest
termination_by (sizeOf mfs, 2)

end

/-- Python `==` between dict keys: `True == 1`, strings by value, `None == None`. -/
def pyKeyEq : Value → Value → Bool
  | .null, .null => true
  | .str a, .str b => a = b
  | a, b => a.isNumeric && b.isNumeric && a.toInt == b.toInt

/-- Hashability: lists and dicts are unhashable dict keys. -/
def hashable : Value → Bool
  | .list _ => false
  | .dict _ => false
  | _ => true

/-- `target_by_id`: offer ids mapped to listings, in insertion order. -/
abbrev IdMap := List (Value × Obj)

/-- Lookup by Python key equality. -/
def findId : IdMap → Value → Option Obj
  | [], _ => none
  | (k, l) :: rest, id => if pyKeyEq k id then some l else findId rest id

/-- `target_by_id[id] = l`: replace the value under an equal key (the stored
    key object and its position are kept), else append. -/
def setId : IdMap → Value → Obj → IdMap
  | [], id, l => [(id, l)]
  | (k, l2) :: rest, id, l =>
      if pyKeyEq k id then (k, l) :: rest else (k, l2) :: setId rest id l

/-- One step of `{listing["offer_id"]: listing for listing in target_data}`:
    `none` when the listing is not a dict, lacks `offer_id` (KeyError) or its
    id is unhashable (TypeError). -/
def buildStep (m : IdMap) : Value → Option IdMap
  | .dict tf =>
      match getK tf "offer_id" with
      | some id => if hashable id then some (setId m id tf) else none
      | none => none
  | .null => none
  | .bool _ => none
  | .int _ => none
  | .str _ => none
  | .list _ => none

/-- `target_by_id = {listing["offer_id"]: listing for listing in target_data}`
    (merge_data.py line 98), built in iteration order. -/
def buildById : List Value → IdMap → Option IdMap
  | [], m => some m
  | t :: rest, m => do
      let m1 ← buildStep m t
      buildById rest m1

/-- Does a character list contain the pattern as a contiguous run? -/
def startsWithL : List Char → List Char → Bool
  | [], _ => true
  | _ :: _, [] => false
  | c :: cs, d :: ds => c == d && startsWithL cs ds

def containsSubL (hay pat : List Char) : Bool :=
  startsWithL pat hay ||
    match hay with
    | [] => false
    | _ :: rest => containsSubL rest pat

/-- Python's substring test `pat in s`. -/
def strHas (s pat : String) : Bool := containsSubL s.toList pat.toList

/-- Is some element of the list the given string (Python `==` against each
    element: only an equal string matches)? -/
def listHasStr (xs : List Value) (s : String) : Bool :=
  xs.any fun x =>
    match x with
    | .str s2 => s2 = s
    | _ => false

/-- The new-offer path of merge_data (lines 107-127): deep-copy the item, and
    when its metadata is a dict holding `updated_date`, set `publication_date`
    and `last_active` to it and pop `updated_date`. -/
def newOffer (itf : Obj) : Obj :=
  match getK itf "metadata" with
  | some (.dict mf) =>
      match getK mf "updated_date" with
      | some ud =>
          setK itf "metadata"
            (.dict (delK (setK (setK mf "publication_date" ud) "last_active" ud)
                      "updated_date"))
      | none => itf
  | _ => itf

/-- One iteration of `for item in source_data:` (merge_data.py lines 101-127).
    `"offer_id" in item` is a key test on a dict, a substring test on a string
    and a membership test on a list (and a TypeError on other values); where
    it succeeds on a non-dict, the subsequent `item["offer_id"]` raises. -/
def sourceStep (m : IdMap) : Value → Option IdMap
  | .dict itf =>
      match getK itf "offer_id" with
      | some id =>
          if hashable id then
            match findId m id with
            | some ef => do
                let r ← deepMerge ef itf false
                some (setId m id r)
            | none => some (m ++ [(id, newOffer itf)])
          else none
      | none => some m
  | .str s => if strHas s "offer_id" then none else some m
  | .list xs => if listHasStr xs "offer_id" then none else some m
  | .null => none
  | .bool _ => none
  | .int _ => none

def sourceFold (m : IdMap) : List Value → Option IdMap
  | [] => some m
  | item :: rest => do
      let m1 ← sourceStep m item
      sourceFold m1 rest

/-- `merge_data(target_data, source_data)` (merge_data.py lines 1-130). -/
def mergeData (target source : List Value) : Option (List Value) := do
  let m ← buildById target []
  let m1 ← sourceFold m source
  some (m1.map fun p => Value.dict p.2)

/-! ### Scraper embeddings -/

/-- Python `//` on naturals; `none` is a ZeroDivisionError. -/
def pyDiv (a b : Nat) : Option Nat := if b = 0 then none else some (a / b)

/-- `urls[a:b]` for `0 <= a, b`. -/
def pySlice (urls : List String) (a b : Nat) : List String :=
  (urls.drop a).take (b - a)

/-- `indices = [len(urls) * i // n for i in range(n + 1)]`
    (scraper_core.py line 201). -/
def batchIndices (L n : Nat) : Option (List Nat) :=
  (List.range (n + 1)).mapM fun i => pyDiv (L * i) n

/-- The URL partition computed by `BaseScraper.scrape_all`
    (scraper_core.py lines 200-202): `n = min(num_processes, len(urls))`, then
    `url_chunks = [urls[indices[i]: indices[i+1]] for i in range(n)]`. With
    `n = 0` the very first index `len(urls)*0 // 0` raises ZeroDivisionError
    (`none`); otherwise every `pyDiv` succeeds and the chunks are the slices at
    the computed boundaries. -/
def urlChunks (urls : List String) (numProcesses : Nat) : Option (List (List String)) :=
  let n := min numProcesses urls.length
  match batchIndices urls.length n with
  | none => none
  | some _ => some ((List.range n).map fun i =>
      pySlice urls (urls.length * i / n) (urls.length * (i + 1) / n))

/-- How one `scrape_single_url` outcome is classified by the worker
    (thread_scraper.py lines 211-251): a success, an error whose message
    contains one of the `network_error_patterns` substrings, or any other
    error. -/
inductive WorkerEvent where
  | success
  | netError
  | otherError
  deriving Repr, DecidableEq

/-- The worker-level state read and written by the error handler of
    `_scrape_worker`. `refreshes` counts completed proxy refreshes
    (`_run_speed_test_and_sort_servers` followed by `get_proxy(process_id)`),
    `proxyGen` how many times `task.proxy_config` has been replaced, and
    `poolGen` how many times the worker's browser contexts and page pool have
    been discarded and re-created. -/
structure WorkerState where
  consecutiveNetworkErrors : Nat
  refreshes : Nat
  proxyGen : Nat
  poolGen : Nat
  deriving Repr, DecidableEq

/-- `network_error_threshold = 3` (thread_scraper.py line 145). -/
def networkErrorThreshold : Nat := 3

/-- The effect of one classified outcome on the worker state
    (thread_scraper.py lines 204-251): success resets the counter; a network
    error increments it and, once the threshold is reached with a VPN manager
    present, the worker re-ranks the VPN servers, takes a new proxy for its
    worker index and resets the counter — nothing in this path touches the
    worker's contexts or `page_pool`, so `poolGen` never changes; any other
    error resets the counter. -/
def workerStep (hasVpn : Bool) (s : WorkerState) (e : WorkerEvent) : WorkerState :=
  match e with
  | .success => { s with consecutiveNetworkErrors := 0 }
  | .netError =>
      let c := s.consecutiveNetworkErrors + 1
      if networkErrorThreshold ≤ c ∧ hasVpn then
        { s with consecutiveNetworkErrors := 0,
                 refreshes := s.refreshes + 1,
                 proxyGen := s.proxyGen + 1 }
      else { s with consecutiveNetworkErrors := c }
  | .otherError => { s with consecutiveNetworkErrors := 0 }

/-- A worker consuming a sequence of outcomes. -/
def workerRun (hasVpn : Bool) (s : WorkerState) (es : List WorkerEvent) : WorkerState :=
  es.foldl (workerStep hasVpn) s

/-! ### The retry loop of `run_scrapper` (run.py lines 72-134)

The scraper behind `scrape_all` is an external collaborator here and is taken
as an oracle `scrape : Nat → List Value → List Obj` giving the result records
of round `i` for the round's remaining URLs. -/

mutual

/-- `"404" in str(x)`: exact on scalars (`str` of None/bool cannot contain
    "404", ints and strings are searched directly); for containers the
    components are searched — the quoting and `", "` separators of a Python
    repr can neither create nor split an occurrence of `"404"`. -/
def has404 : Value → Bool
  | .null => false
  | .bool _ => false
  | .int n => strHas (toString n) "404"
  | .str s => strHas s "404"
  | .list xs => has404L xs
  | .dict fs => has404F fs
termination_by v => sizeOf v

def has404L : List Value → Bool
  | [] => false
  | x :: rest => has404 x || has404L rest
termination_by xs => sizeOf xs

def has404F : List (String × Value) → Bool
  | [] => false
  | (k, v) :: rest => strHas k "404" || has404 v || has404F rest
termination_by fs => sizeOf fs

end

/-- `"404" in str(r.get("error", ""))` (run.py lines 93, 100-102). -/
def errHas404 (rf : Obj) : Bool :=
  match getK rf "error" with
  | some v => has404 v
  | none => false

/-- Is the record counted as failed (run.py lines 92-98): it has an `error`
    key whose rendering does not contain "404"? -/
def isFailedRec (rf : Obj) : Bool := (getK rf "error").isSome && !errHas404 rf

/-- `is_published = r.get("metadata", {}).get("is_unpublished") is False`
    (run.py line 85). `none` models the `AttributeError` when `metadata` holds
    a non-dict. -/
def isPubFlag (rf : Obj) : Option Bool :=
  match getK rf "metadata" with
  | none => some (isFalseV none)
  | some (.dict mf) => some (isFalseV (getK mf "is_unpublished"))
  | some _ => none

/-- `missing_estimation = "estimation_price" not in r or not
    r.get("estimation_price")` (run.py lines 86-88). -/
def missingEst (rf : Obj) : Bool :=
  match getK rf "estimation_price" with
  | none => true
  | some v => !v.truthy

/-- The round-1-only flagging (run.py lines 83-91): a record that is published
    but has no truthy `estimation_price` gets
    `r["error"] = "Missing estimation_price for published offer"`. -/
def flagRound1 (rf : Obj) : Option Obj :=
  match isPubFlag rf with
  | none => none
  | some p =>
      if p && missingEst rf then
        some (setK rf "error" (.str "Missing estimation_price for published offer"))
      else some rf

/-- The records a round classifies: the scraped results, run through the
    flagging on round one (the for-loop of run.py lines 83-98 mutates each
    record before classifying it; flagging first and classifying second is the
    same record-wise computation). -/
def roundResults (scrape : Nat → List Value → List Obj) (i : Nat)
    (remaining : List Value) : Option (List Obj) :=
  if i = 0 then (scrape i remaining).mapM flagRound1
  else some (scrape i remaining)

/-- The loop state of `run_scrapper`: `successful` accumulates across rounds,
    `failed` is rebuilt each round, `rounds` counts executed loop iterations. -/
structure RoundState where
  remaining : List Value
  successful : List Obj
  failed : List Obj
  rounds : Nat

/-- One iteration of `for i in range(max_retry_attempts)` (run.py lines 77-113):
    scrape the remaining URLs, flag on round one, split the records into
    `successful` (no error, or a "404" error) and `failed` (any other error),
    and collect `r["url"]` of the failed non-404 records for the next round. -/
def runRound (scrape : Nat → List Value → List Obj) (i : Nat)
    (st : RoundState) : Option RoundState := do
  let results1 ← roundResults scrape i st.remaining
  let succ2 := st.successful ++ results1.filter fun r => !isFailedRec r
  let failed2 := results1.filter fun r => isFailedRec r
  let remaining2 ← (failed2.filter fun r => !errHas404 r).mapM fun r => getK r "url"
  some ⟨remaining2, succ2, failed2, st.rounds + 1⟩

/-- The retry loop from round `i` on: stop after `max_retry_attempts` rounds or
    as soon as no URLs remain. -/
def retryLoop (scrape : Nat → List Value → List Obj) (maxA : Nat) :
    Nat → RoundState → Option RoundState
  | i, st =>
      if maxA ≤ i then some st
      else if st.remaining.isEmpty then some st
      else do
        let st1 ← runRound scrape i st
        retryLoop scrape maxA (i + 1) st1
termination_by i _ => maxA - i
decreasing_by omega

/-- `run_scrapper` as far as the retry loop determines its return value
    (run.py lines 72-134): the returned list is `successful + failed` of the
    final state; the number of executed rounds is reported alongside. -/
def runScrapper (scrape : Nat → List Value → List Obj) (urls : List Value)
    (maxA : Nat) : Option (List Obj × Nat) :=
  match retryLoop scrape maxA 0 ⟨urls, [], [], 0⟩ with
  | some st => some (st.successful ++ st.failed, st.rounds)
  | none => none

/-! ### Well-formedness

A value is an image of Python data only if every dict in it has pairwise
distinct keys; `wfV` states that, recursively. -/

mutual

def wfV : Value → Bool
  | .list xs => wfL xs
  | .dict fs => wfF fs
  | _ => true
termination_by v => sizeOf v

def wfL : List Value → Bool
  | [] => true
  | x :: rest => wfV x && wfL rest
termination_by xs => sizeOf xs

def wfF : List (String × Value) → Bool
  | [] => true
  | (k, v) :: rest => !(getK rest k).isSome && wfV v && wfF rest
termination_by fs => sizeOf fs

end

/-! ### Observations used to state the merge claims -/

/-- The `offer_id` field of a listing. -/
def offerId (l : Value) : Option Value :=
  match l with
  | .dict lf => getK lf "offer_id"
  | _ => none

/-- The value under key `k` of a listing's `metadata` dict, if any. -/
def metaKey (l : Value) (k : String) : Option Value :=
  match l with
  | .dict lf =>
      match getK lf "metadata" with
      | some (.dict mf) => getK mf k
      | _ => none
  | _ => none

/-- The listing's metadata (when it is a dict) holds no `updated_date` key. -/
def noUpdMetaB (l : Value) : Bool :=
  match l with
  | .dict lf =>
      match getK lf "metadata" with
      | some (.dict mf) => !(getK mf "updated_date").isSome
      | _ => true
  | _ => true

/-- Length of the `price_changes` sequence of a record. -/
def pcLen (ef : Obj) : Nat :=
  match getK ef "price_changes" with
  | some (.list xs) => xs.length
  | _ => 0

/-- Length of the `price_changes` sequence of a listing. -/
def pcLenV (l : Value) : Nat :=
  match l with
  | .dict lf => pcLen lf
  | _ => 0

/-- The first listing of the merged output whose `offer_id` field equals (in
    Python's sense) the given id. -/
def lookupListing (ls : List Value) (id : Value) : Option Value :=
  match ls with
  | [] => none
  | l :: rest =>
      match offerId l with
      | some id2 => if pyKeyEq id2 id then some l else lookupListing rest id
      | none => lookupListing rest id

/-- The id-map entry the new-offer path of `merge_data` creates for a source
    item (meaningful for dict items carrying an `offer_id`). -/
def itemEntry (item : Value) : Value × Obj :=
  match item with
  | .dict itf => ((getK itf "offer_id").getD .null, newOffer itf)
  | _ => (.null, [])

/-- The listing the new-offer path of `merge_data` stores for a source item. -/
def insertedListing (item : Value) : Value :=
  match item with
  | .dict itf => .dict (newOffer itf)
  | _ => item

/-- Verification invariant: the id-map keys are pairwise distinct under
    Python key equality. -/
def KeysOk (m : IdMap) : Prop :=
  List.Pairwise (fun a b => pyKeyEq a b = false) (m.map Prod.fst)

/-- Verification invariant: every stored listing carries an `offer_id` field
    equal (in Python's sense) to its hashable map key. -/
def FieldsOk (m : IdMap) : Prop :=
  ∀ p ∈ m, ∃ fid, getK p.2 "offer_id" = some fid ∧
    pyKeyEq fid p.1 = true ∧ hashable p.1 = true

/-- Verification relation: two target items carry (Python-)distinct
    offer ids. -/
def TDist (a b : Value) : Prop :=
  ∀ fa fb ia ib, a = Value.dict fa → b = Value.dict fb →
    getK fa "offer_id" = some ia → getK fb "offer_id" = some ib →
    pyKeyEq ia ib = false

mutual

/-- Self-merge-stable value: sub-dicts have pairwise-distinct keys, never a
    `metadata` key, and recursively stable values (lists are never merged
    into, only assigned). -/
def selfV : Value → Bool
  | .dict fs => selfF fs
  | _ => true
termination_by v => sizeOf v

/-- Self-merge-stable field list. -/
def selfF : Obj → Bool
  | [] => true
  | (k, v) :: rest => !(k == "metadata") && !(getK rest k).isSome &&
      selfV v && selfF rest
termination_by fs => sizeOf fs

end

/-- A source item's `metadata` value is benign for re-merging: a dict without
    the keys the special phase writes, with self-merge-stable values. -/
def metaOkV : Value → Bool
  | .dict mf => !(getK mf "last_active").isSome &&
      !(getK mf "publication_date").isSome &&
      !(getK mf "unpublished_date").isSome && selfF mf
  | _ => false

/-- Benign top level of a source item: pairwise-distinct keys,
    self-merge-stable values, and a benign `metadata` entry if any. -/
def topF : Obj → Bool
  | [] => true
  | (k, v) :: rest => !(getK rest k).isSome &&
      (if k = "metadata" then metaOkV v else selfV v) && topF rest

/-- Source items for which a second merge of the same record is the
    identity: well-formed and benign at every level. -/
def itemB (itf : Obj) : Bool := wfF itf && topF itf

/-- The id-map entry the rebuild of the merged output produces: the stored
    listing keyed by its own `offer_id` field. -/
def reKey (p : Value × Obj) : Value × Obj :=
  ((getK p.2 "offer_id").getD Value.null, p.2)

/-- The stored metadata object has absorbed one incoming metadata entry:
    re-merging that entry changes nothing. -/
def MAbs (xm : Obj) (mk : String) (mv : Value) : Prop :=
  match mv with
  | .dict mvf => ∃ sub, getK xm mk = some (.dict sub) ∧
      deepMerge sub mvf false = some sub
  | _ => getK xm mk = some mv

/-! ### Dictionary lemmas -/

@[simp] theorem getK_nil (k : String) : getK [] k = none := rfl

theorem getK_setK_self : ∀ (fs : Obj) (k : String) (v : Value),
    getK (setK fs k v) k = some v
  | [], k, v => by simp [setK, getK]
  | (k2, v2) :: rest, k, v => by
      by_cases h : k2 = k
      · subst h
        simp [setK, getK]
      · rw [setK, if_neg h, getK, if_neg h]
        exact getK_setK_self rest k v

theorem getK_setK_ne : ∀ (fs : Obj) (k k2 : String) (v : Value), k2 ≠ k →
    getK (setK fs k v) k2 = getK fs k2
  | [], k, k2, v, h => by simp [setK, getK, Ne.symm h]
  | (k3, v3) :: rest, k, k2, v, h => by
      by_cases h3 : k3 = k
      · subst h3
        simp [setK, getK, Ne.symm h]
      · rw [setK, if_neg h3, getK, getK]
        by_cases h2 : k3 = k2 <;> simp [h2, getK_setK_ne rest k k2 v h]

theorem getK_delK_ne : ∀ (fs : Obj) (k k2 : String), k2 ≠ k →
    getK (delK fs k) k2 = getK fs k2
  | [], k, k2, h => by simp [delK]
  | (k3, v3) :: rest, k, k2, h => by
      by_cases h3 : k3 = k
      · subst h3
        simp [delK, getK, Ne.symm h]
      · rw [delK, if_neg h3, getK, getK]
        by_cases h2 : k3 = k2 <;> simp [h2, getK_delK_ne rest k k2 h]

theorem getK_delK_self_of_nodup : ∀ (fs : Obj) (k : String), wfF fs = true →
    getK (delK fs k) k = none
  | [], k, _ => by simp [delK]
  | (k2, v2) :: rest, k, h => by
      rw [wfF] at h
      simp only [Bool.and_eq_true, Bool.not_eq_true'] at h
      by_cases h2 : k2 = k
      · subst h2
        rw [delK, if_pos rfl]
        rcases hg : getK rest k2 with _ | w
        · rfl
        · rw [hg] at h
          simp at h
      · rw [delK, if_neg h2, getK, if_neg h2]
        exact getK_delK_self_of_nodup rest k h.2

theorem setK_self_of_getK : ∀ (fs : Obj) (k : String) (v : Value),
    getK fs k = some v → setK fs k v = fs
  | [], k, v, h => by simp [getK] at h
  | (k2, v2) :: rest, k, v, h => by
      by_cases h2 : k2 = k
      · subst h2
        rw [getK, if_pos rfl, Option.some.injEq] at h
        rw [setK, if_pos rfl, h]
      · rw [getK, if_neg h2] at h
        rw [setK, if_neg h2, setK_self_of_getK rest k v h]

theorem wfF_setK : ∀ (fs : Obj) (k : String) (v : Value), wfF fs = true →
    wfV v = true → wfF (setK fs k v) = true
  | [], k, v, _, hv => by simp [setK, wfF, getK, hv]
  | (k2, v2) :: rest, k, v, h, hv => by
      rw [wfF] at h
      simp only [Bool.and_eq_true, Bool.not_eq_true'] at h
      by_cases h2 : k2 = k
      · subst h2
        rw [setK, if_pos rfl, wfF]
        simp [h.1.1, h.2, hv]
      · rw [setK, if_neg h2, wfF, getK_setK_ne rest k k2 v (fun hh => h2 hh)]
        simp [h.1.1, h.1.2, wfF_setK rest k v h.2 hv]

/-! ### Well-formedness extraction lemmas -/

theorem wfV_dict (fs : Obj) : wfV (.dict fs) = wfF fs := by
  rw [wfV]

theorem wfF_getK : ∀ (fs : Obj) (k : String) (v : Value), wfF fs = true →
    getK fs k = some v → wfV v = true
  | [], _, _, _, h => by simp [getK] at h
  | (k2, v2) :: rest, k, v, hw, h => by
      rw [wfF] at hw
      simp only [Bool.and_eq_true] at hw
      by_cases h2 : k2 = k
      · rw [getK, if_pos h2, Option.some.injEq] at h
        exact h ▸ hw.1.2
      · rw [getK, if_neg h2] at h
        exact wfF_getK rest k v hw.2 h

/-! ### Metadata preservation: no `updated_date` is ever (re)introduced -/

theorem priceCase_metadata (ef nf : Obj) (ud : Value) (ef1 : Obj)
    (h : priceCase ef nf ud = some ef1) :
    getK ef1 "metadata" = getK ef "metadata" := by
  rw [priceCase] at h
  split at h
  · split at h
    · split at h
      · cases h
        rw [getK_setK_ne _ _ _ _ (by decide)]
      · cases h
        rw [getK_setK_ne _ _ _ _ (by decide)]
      · exact absurd h (by simp)
    · cases h
      rfl
  · cases h
    rfl

/-- Whatever its branch, `priceCase` leaves every key other than
    `price_changes` unchanged. -/
theorem priceCase_frame (ef nf : Obj) (ud : Value) (ef1 : Obj)
    (h : priceCase ef nf ud = some ef1) (k : String)
    (hk : k ≠ "price_changes") :
    getK ef1 k = getK ef k := by
  rw [priceCase] at h
  split at h
  · split at h
    · split at h
      · cases h
        rw [getK_setK_ne _ _ _ _ hk]
      · cases h
        rw [getK_setK_ne _ _ _ _ hk]
      · exact absurd h (by simp)
    · cases h
      rfl
  · cases h
    rfl

theorem noUpdMetaB_dict (lf : Obj) : noUpdMetaB (.dict lf)
    = (match getK lf "metadata" with
       | some (.dict mf) => !(getK mf "updated_date").isSome
       | _ => true) := rfl

theorem noUpdMetaB_dict_iff (lf : Obj) : noUpdMetaB (.dict lf) = true ↔
    ∀ mf, getK lf "metadata" = some (.dict mf) → getK mf "updated_date" = none := by
  rw [noUpdMetaB_dict]
  constructor
  · intro h mf hmf
    rw [hmf] at h
    simp only [Bool.not_eq_true'] at h
    rcases hg : getK mf "updated_date" with _ | w
    · rfl
    · rw [hg] at h
      simp at h
  · intro h
    rcases hmf : getK lf "metadata" with _ | v
    · rfl
    · rcases v with _ | _ | _ | _ | _ | mf
      · rfl
      · rfl
      · rfl
      · rfl
      · rfl
      · simp [h mf hmf]

theorem setMeta_noUpd (ef : Obj) (k : String) (ud : Value) (ef1 : Obj)
    (h : setMeta ef k ud = some ef1) (hk : k ≠ "updated_date")
    (hnu : ∀ mf, getK ef "metadata" = some (.dict mf) →
      getK mf "updated_date" = none) :
    ∀ mf, getK ef1 "metadata" = some (.dict mf) →
      getK mf "updated_date" = none := by
  rw [setMeta] at h
  split at h
  case _ mf hmf =>
    cases h
    intro mf2 hmf2
    rw [getK_setK_self, Option.some.injEq, Value.dict.injEq] at hmf2
    rw [← hmf2, getK_setK_ne _ _ _ _ (fun hh => hk hh.symm)]
    exact hnu mf hmf
  case _ => exact absurd h (by simp)

theorem ensureMeta_noUpd (ef : Obj)
    (hnu : ∀ mf, getK ef "metadata" = some (.dict mf) →
      getK mf "updated_date" = none) :
    ∀ mf, getK (ensureMeta ef) "metadata" = some (.dict mf) →
      getK mf "updated_date" = none := by
  rw [ensureMeta]
  split
  · exact hnu
  · intro mf hmf
    rw [getK_setK_self, Option.some.injEq, Value.dict.injEq] at hmf
    rw [← hmf]
    rfl

theorem priceCase_noUpd (ef nf : Obj) (ud : Value) (ef1 : Obj)
    (h : priceCase ef nf ud = some ef1)
    (hnu : ∀ mf, getK ef "metadata" = some (.dict mf) →
      getK mf "updated_date" = none) :
    ∀ mf, getK ef1 "metadata" = some (.dict mf) →
      getK mf "updated_date" = none := by
  intro mf hmf
  rw [priceCase_metadata _ _ _ _ h] at hmf
  exact hnu mf hmf

theorem specialCases_noUpd (ef nf : Obj) (ud : Value) (b : Bool) (ef1 : Obj)
    (h : specialCases ef nf ud b = some ef1)
    (hnu : ∀ mf, getK ef "metadata" = some (.dict mf) →
      getK mf "updated_date" = none) :
    ∀ mf, getK ef1 "metadata" = some (.dict mf) →
      getK mf "updated_date" = none := by
  rw [specialCases] at h
  split at h
  · exact setMeta_noUpd _ _ _ _ h (by decide) hnu
  · split at h
    case _ nmf hnmf =>
      split at h
      · split at h
        case _ mf hmf =>
          split at h
          · exact setMeta_noUpd _ _ _ _ h (by decide) hnu
          · exact priceCase_noUpd _ _ _ _ h hnu
        case _ => exact absurd h (by simp)
      · exact priceCase_noUpd _ _ _ _ h hnu
    case _ => exact priceCase_noUpd _ _ _ _ h hnu

theorem specialPhase_noUpd (ef nf : Obj) (b : Bool) (ef1 : Obj)
    (h : specialPhase ef nf b = some ef1)
    (hnu : ∀ mf, getK ef "metadata" = some (.dict mf) →
      getK mf "updated_date" = none) :
    ∀ mf, getK ef1 "metadata" = some (.dict mf) →
      getK mf "updated_date" = none := by
  rw [specialPhase] at h
  split at h
  case _ ud hud =>
    split at h
    · simp only [Option.bind_eq_bind] at h
      rcases h2 : specialCases (ensureMeta ef) nf ud b with _ | ef2
      · rw [h2] at h
        simp at h
      · rw [h2] at h
        simp only [Option.some_bind] at h
        exact setMeta_noUpd _ _ _ _ h (by decide)
          (specialCases_noUpd _ _ _ _ _ h2 (ensureMeta_noUpd _ hnu))
    · cases h
      exact hnu
  case _ =>
    cases h
    exact hnu

theorem metaStep_noUpd (ef : Obj) (mk : String) (mv : Value) (ef1 : Obj)
    (h : metaStep ef mk mv = some ef1) (hmk : mk ≠ "updated_date")
    (hnu : ∀ mf, getK ef "metadata" = some (.dict mf) →
      getK mf "updated_date" = none) :
    ∀ mf, getK ef1 "metadata" = some (.dict mf) →
      getK mf "updated_date" = none := by
  rw [metaStep] at h
  split at h
  case _ emf hemf =>
    simp only [Option.bind_eq_bind] at h
    rcases hq : (match getK emf mk, mv with
         | some (.dict sub), .dict mvf => (deepMerge sub mvf false).map Value.dict
         | _, _ => some mv) with _ | newSub
    · rw [hq] at h
      simp at h
    · rw [hq] at h
      simp only [Option.some_bind, Option.some.injEq] at h
      intro mf hmf
      rw [← h, getK_setK_self, Option.some.injEq, Value.dict.injEq] at hmf
      rw [← hmf, getK_setK_ne _ _ _ _ (fun hh => hmk hh.symm)]
      exact hnu emf hemf
  case _ => exact absurd h (by simp)

theorem metaLoop_noUpd : ∀ (mfs : Obj) (ef ef1 : Obj),
    metaLoop ef mfs = some ef1 →
    (∀ mf, getK ef "metadata" = some (.dict mf) → getK mf "updated_date" = none) →
    ∀ mf, getK ef1 "metadata" = some (.dict mf) → getK mf "updated_date" = none
  | [], ef, ef1, h, hnu => by
      rw [metaLoop] at h
      cases h
      exact hnu
  | (mk, mv) :: rest, ef, ef1, h, hnu => by
      rw [metaLoop] at h
      split at h
      · exact metaLoop_noUpd rest ef ef1 h hnu
      case _ hmk =>
        simp only [Option.bind_eq_bind] at h
        rcases hs : metaStep ef mk mv with _ | ef2
        · rw [hs] at h
          simp at h
        · rw [hs] at h
          simp only [Option.some_bind] at h
          exact metaLoop_noUpd rest ef2 ef1 h
            (metaStep_noUpd _ _ _ _ hs hmk hnu)

theorem plainStep_noUpd (ef : Obj) (k : String) (v : Value) (df : Option Bool)
    (ef1 : Obj) (h : plainStep ef k v df = some ef1)
    (hv : k = "metadata" → v.isDict = false)
    (hnu : ∀ mf, getK ef "metadata" = some (.dict mf) →
      getK mf "updated_date" = none) :
    ∀ mf, getK ef1 "metadata" = some (.dict mf) →
      getK mf "updated_date" = none := by
  have hset : ∀ mf, getK (setK ef k v) "metadata" = some (.dict mf) →
      getK mf "updated_date" = none := by
    intro mf hmf
    by_cases hk : k = "metadata"
    · subst hk
      rw [getK_setK_self, Option.some.injEq] at hmf
      have h2 := hv rfl
      rw [hmf] at h2
      simp [Value.isDict] at h2
    · rw [getK_setK_ne _ _ _ _ (fun hh => hk hh.symm)] at hmf
      exact hnu mf hmf
  rw [plainStep.eq_def] at h
  split at h
  · cases h
    exact hnu
  · split at h
    · cases h
      exact hnu
    · split at h
      · split at h
        · exact absurd h (by simp)
        · cases h
          exact hnu
        · cases h
          exact hset
      · cases h
        exact hset

theorem plainFallback_noUpd (ef : Obj) (k : String) (v : Value)
    (df : Option Bool) (ef1 : Obj) (h : plainFallback ef k v df = some ef1)
    (hv : k = "metadata" → v.isDict = false)
    (hnu : ∀ mf, getK ef "metadata" = some (.dict mf) →
      getK mf "updated_date" = none) :
    ∀ mf, getK ef1 "metadata" = some (.dict mf) →
      getK mf "updated_date" = none := by
  rw [plainFallback.eq_def] at h
  split at h
  case _ a ekf vf hekf =>
    by_cases hk : k = "metadata"
    · subst hk
      have h3 := hv rfl
      simp [Value.isDict] at h3
    · simp only [Option.bind_eq_bind] at h
      rcases hdm : deepMerge ekf vf false with _ | m
      · rw [hdm] at h
        simp at h
      · rw [hdm] at h
        simp only [Option.some_bind, Option.some.injEq] at h
        intro mf hmf
        rw [← h, getK_setK_ne _ _ _ _ (fun hh => hk hh.symm)] at hmf
        exact hnu mf hmf
  case _ => exact plainStep_noUpd _ _ _ _ _ h hv hnu

theorem mergeStep_noUpd (ef : Obj) (k : String) (v : Value) (df : Option Bool)
    (ef1 : Obj) (h : mergeStep ef k v df = some ef1)
    (hnu : ∀ mf, getK ef "metadata" = some (.dict mf) →
      getK mf "updated_date" = none) :
    ∀ mf, getK ef1 "metadata" = some (.dict mf) →
      getK mf "updated_date" = none := by
  rw [mergeStep.eq_def] at h
  split at h
  case _ mf =>
    split at h
    · exact metaLoop_noUpd _ _ _ h (ensureMeta_noUpd _ hnu)
    case _ hk =>
      exact plainFallback_noUpd _ _ _ _ _ h (fun hh => absurd hh hk) hnu
  case _ hv2 =>
    refine plainFallback_noUpd _ _ _ _ _ h (fun _ => ?_) hnu
    rcases v with _ | _ | _ | _ | _ | mf
    · rfl
    · rfl
    · rfl
    · rfl
    · rfl
    · exact absurd rfl (hv2 mf)

theorem mergeLoop_noUpd : ∀ (fs : Obj) (ef : Obj) (df : Option Bool)
    (ef1 : Obj), mergeLoop ef fs df = some ef1 →
    (∀ mf, getK ef "metadata" = some (.dict mf) → getK mf "updated_date" = none) →
    ∀ mf, getK ef1 "metadata" = some (.dict mf) → getK mf "updated_date" = none
  | [], ef, df, ef1, h, hnu => by
      rw [mergeLoop] at h
      cases h
      exact hnu
  | (k, v) :: rest, ef, df, ef1, h, hnu => by
      rw [mergeLoop] at h
      simp only [Option.bind_eq_bind] at h
      rcases hs : mergeStep ef k v df with _ | ef2
      · rw [hs] at h
        simp at h
      · rw [hs] at h
        simp only [Option.some_bind] at h
        exact mergeLoop_noUpd rest ef2 df ef1 h
          (mergeStep_noUpd _ _ _ _ _ hs hnu)

theorem deepMerge_noUpd (ef nf : Obj) (b : Bool) (ef1 : Obj)
    (h : deepMerge ef nf b = some ef1)
    (hnu : ∀ mf, getK ef "metadata" = some (.dict mf) →
      getK mf "updated_date" = none) :
    ∀ mf, getK ef1 "metadata" = some (.dict mf) →
      getK mf "updated_date" = none := by
  rw [deepMerge] at h
  simp only [Option.bind_eq_bind] at h
  rcases hp : specialPhase ef nf b with _ | ef2
  · rw [hp] at h
    simp at h
  · rw [hp] at h
    simp only [Option.some_bind] at h
    exact mergeLoop_noUpd _ _ _ _ h (specialPhase_noUpd _ _ _ _ hp hnu)

theorem newOffer_noUpd (itf : Obj) (hwf : wfF itf = true) :
    ∀ mf, getK (newOffer itf) "metadata" = some (.dict mf) →
      getK mf "updated_date" = none := by
  rw [newOffer]
  split
  case _ mf0 hmf0 =>
    split
    case _ ud hud =>
      intro mf hmf
      rw [getK_setK_self, Option.some.injEq, Value.dict.injEq] at hmf
      subst hmf
      have hwmf : wfF mf0 = true := by
        have := wfF_getK itf "metadata" _ hwf hmf0
        rwa [wfV_dict] at this
      have hudwf : wfV ud = true := wfF_getK mf0 "updated_date" ud hwmf hud
      refine getK_delK_self_of_nodup _ _ ?_
      exact wfF_setK _ _ _ (wfF_setK _ _ _ hwmf hudwf) hudwf
    case _ hud =>
      intro mf hmf
      rw [hmf0, Option.some.injEq, Value.dict.injEq] at hmf
      subst hmf
      rcases hg : getK mf0 "updated_date" with _ | w
      · rfl
      · rw [hud] at hg
        cases hg
  case _ hmf0 =>
    intro mf hmf
    rw [hmf] at hmf0
    exact absurd rfl (hmf0 mf)

/-! ### Frame lemmas: which keys each merge piece can touch -/

theorem getK_cons_none (k2 k : String) (v : Value) (rest : Obj)
    (h : getK ((k, v) :: rest) k2 = none) :
    k ≠ k2 ∧ getK rest k2 = none := by
  rw [getK] at h
  by_cases hk : k = k2
  · rw [if_pos hk] at h
    cases h
  · rw [if_neg hk] at h
    exact ⟨hk, h⟩

theorem setMeta_frame (ef : Obj) (k : String) (ud : Value) (ef1 : Obj)
    (h : setMeta ef k ud = some ef1) (k2 : String) (hk2 : k2 ≠ "metadata") :
    getK ef1 k2 = getK ef k2 := by
  rw [setMeta] at h
  split at h
  case _ mf hmf =>
    cases h
    exact getK_setK_ne _ _ _ _ hk2
  case _ => exact absurd h (by simp)

theorem ensureMeta_frame (ef : Obj) (k2 : String) (hk2 : k2 ≠ "metadata") :
    getK (ensureMeta ef) k2 = getK ef k2 := by
  rw [ensureMeta]
  split
  · rfl
  · exact getK_setK_ne _ _ _ _ hk2

theorem specialCases_frame (ef nf : Obj) (ud : Value) (b : Bool) (ef1 : Obj)
    (h : specialCases ef nf ud b = some ef1) (k2 : String)
    (hk2 : k2 ≠ "metadata") (hpc : k2 ≠ "price_changes") :
    getK ef1 k2 = getK ef k2 := by
  rw [specialCases] at h
  split at h
  · exact setMeta_frame _ _ _ _ h k2 hk2
  · split at h
    case _ nmf hnmf =>
      split at h
      · split at h
        case _ mf hmf =>
          split at h
          · exact setMeta_frame _ _ _ _ h k2 hk2
          · exact priceCase_frame _ _ _ _ h k2 hpc
        case _ => exact absurd h (by simp)
      · exact priceCase_frame _ _ _ _ h k2 hpc
    case _ => exact priceCase_frame _ _ _ _ h k2 hpc

theorem specialPhase_frame (ef nf : Obj) (b : Bool) (ef1 : Obj)
    (h : specialPhase ef nf b = some ef1) (k2 : String)
    (hk2 : k2 ≠ "metadata") (hpc : k2 ≠ "price_changes") :
    getK ef1 k2 = getK ef k2 := by
  rw [specialPhase] at h
  split at h
  case _ ud hud =>
    split at h
    · simp only [Option.bind_eq_bind] at h
      rcases h2 : specialCases (ensureMeta ef) nf ud b with _ | ef2
      · rw [h2] at h
        simp at h
      · rw [h2] at h
        simp only [Option.some_bind] at h
        rw [setMeta_frame _ _ _ _ h k2 hk2,
          specialCases_frame _ _ _ _ _ h2 k2 hk2 hpc,
          ensureMeta_frame _ k2 hk2]
    · cases h
      rfl
  case _ =>
    cases h
    rfl

theorem metaStep_frame (ef : Obj) (mk : String) (mv : Value) (ef1 : Obj)
    (h : metaStep ef mk mv = some ef1) (k2 : String) (hk2 : k2 ≠ "metadata") :
    getK ef1 k2 = getK ef k2 := by
  rw [metaStep] at h
  split at h
  case _ emf hemf =>
    simp only [Option.bind_eq_bind] at h
    rcases hq : (match getK emf mk, mv with
         | some (.dict sub), .dict mvf => (deepMerge sub mvf false).map Value.dict
         | _, _ => some mv) with _ | newSub
    · rw [hq] at h
      simp at h
    · rw [hq] at h
      simp only [Option.some_bind, Option.some.injEq] at h
      rw [← h]
      exact getK_setK_ne _ _ _ _ hk2
  case _ => exact absurd h (by simp)

theorem metaLoop_frame : ∀ (mfs : Obj) (ef ef1 : Obj),
    metaLoop ef mfs = some ef1 → ∀ k2, k2 ≠ "metadata" →
    getK ef1 k2 = getK ef k2
  | [], ef, ef1, h, k2, hk2 => by
      rw [metaLoop] at h
      cases h
      rfl
  | (mk, mv) :: rest, ef, ef1, h, k2, hk2 => by
      rw [metaLoop] at h
      split at h
      · exact metaLoop_frame rest ef ef1 h k2 hk2
      · simp only [Option.bind_eq_bind] at h
        rcases hs : metaStep ef mk mv with _ | ef2
        · rw [hs] at h
          simp at h
        · rw [hs] at h
          simp only [Option.some_bind] at h
          rw [metaLoop_frame rest ef2 ef1 h k2 hk2,
            metaStep_frame _ _ _ _ hs k2 hk2]

theorem plainStep_frame (ef : Obj) (k : String) (v : Value) (df : Option Bool)
    (ef1 : Obj) (h : plainStep ef k v df = some ef1) (k2 : String)
    (hk2 : k2 ≠ k) :
    getK ef1 k2 = getK ef k2 := by
  rw [plainStep.eq_def] at h
  split at h
  · cases h
    rfl
  · split at h
    · cases h
      rfl
    · split at h
      · split at h
        · exact absurd h (by simp)
        · cases h
          rfl
        · cases h
          exact getK_setK_ne _ _ _ _ hk2
      · cases h
        exact getK_setK_ne _ _ _ _ hk2

theorem plainFallback_frame (ef : Obj) (k : String) (v : Value)
    (df : Option Bool) (ef1 : Obj) (h : plainFallback ef k v df = some ef1)
    (k2 : String) (hk2 : k2 ≠ k) :
    getK ef1 k2 = getK ef k2 := by
  rw [plainFallback.eq_def] at h
  split at h
  case _ a ekf vf hekf =>
    simp only [Option.bind_eq_bind] at h
    rcases hdm : deepMerge ekf vf false with _ | m
    · rw [hdm] at h
      simp at h
    · rw [hdm] at h
      simp only [Option.some_bind, Option.some.injEq] at h
      rw [← h]
      exact getK_setK_ne _ _ _ _ hk2
  case _ => exact plainStep_frame _ _ _ _ _ h k2 hk2

theorem mergeStep_frame (ef : Obj) (k : String) (v : Value) (df : Option Bool)
    (ef1 : Obj) (h : mergeStep ef k v df = some ef1) (k2 : String)
    (hk2 : k2 ≠ k) (hmd : k2 ≠ "metadata") :
    getK ef1 k2 = getK ef k2 := by
  rw [mergeStep.eq_def] at h
  split at h
  case _ mf =>
    split at h
    · rw [metaLoop_frame _ _ _ h k2 hmd, ensureMeta_frame _ k2 hmd]
    · exact plainFallback_frame _ _ _ _ _ h k2 hk2
  case _ => exact plainFallback_frame _ _ _ _ _ h k2 hk2

theorem mergeLoop_frame : ∀ (fs : Obj) (ef : Obj) (df : Option Bool)
    (ef1 : Obj), mergeLoop ef fs df = some ef1 → ∀ k2, getK fs k2 = none →
    k2 ≠ "metadata" → getK ef1 k2 = getK ef k2
  | [], ef, df, ef1, h, k2, _, _ => by
      rw [mergeLoop] at h
      cases h
      rfl
  | (k, v) :: rest, ef, df, ef1, h, k2, hfs, hmd => by
      obtain ⟨hk, hrest⟩ := getK_cons_none k2 k v rest hfs
      rw [mergeLoop] at h
      simp only [Option.bind_eq_bind] at h
      rcases hs : mergeStep ef k v df with _ | ef2
      · rw [hs] at h
        simp at h
      · rw [hs] at h
        simp only [Option.some_bind] at h
        rw [mergeLoop_frame rest ef2 df ef1 h k2 hrest hmd,
          mergeStep_frame _ _ _ _ _ hs k2 (fun hh => hk hh.symm) hmd]

theorem deepMerge_frame (ef nf : Obj) (b : Bool) (ef1 : Obj)
    (h : deepMerge ef nf b = some ef1) (k2 : String) (hfs : getK nf k2 = none)
    (hmd : k2 ≠ "metadata") (hpc : k2 ≠ "price_changes") :
    getK ef1 k2 = getK ef k2 := by
  rw [deepMerge] at h
  simp only [Option.bind_eq_bind] at h
  rcases hp : specialPhase ef nf b with _ | ef2
  · rw [hp] at h
    simp at h
  · rw [hp] at h
    simp only [Option.some_bind] at h
    rw [mergeLoop_frame _ _ _ _ h k2 hfs hmd,
      specialPhase_frame _ _ _ _ hp k2 hmd hpc]

/-! ### price_changes length lemmas -/

theorem pcLen_eq_of_getK (ef1 ef : Obj)
    (h : getK ef1 "price_changes" = getK ef "price_changes") :
    pcLen ef1 = pcLen ef := by
  rw [pcLen, pcLen, h]

theorem priceCase_pcLen (ef nf : Obj) (ud : Value) (ef1 : Obj)
    (h : priceCase ef nf ud = some ef1) : pcLen ef ≤ pcLen ef1 := by
  rw [priceCase] at h
  split at h
  · split at h
    · split at h
      case _ hpc =>
        cases h
        rw [pcLen, pcLen, hpc, getK_setK_self]
        simp
      case _ pcs hpc =>
        cases h
        rw [pcLen, pcLen, hpc, getK_setK_self]
        simp
      case _ => exact absurd h (by simp)
    · cases h
      exact le_refl _
  · cases h
    exact le_refl _

theorem setMeta_pcLen (ef : Obj) (k : String) (ud : Value) (ef1 : Obj)
    (h : setMeta ef k ud = some ef1) : pcLen ef1 = pcLen ef :=
  pcLen_eq_of_getK _ _ (setMeta_frame _ _ _ _ h _ (by decide))

theorem ensureMeta_pcLen (ef : Obj) : pcLen (ensureMeta ef) = pcLen ef :=
  pcLen_eq_of_getK _ _ (ensureMeta_frame _ _ (by decide))

theorem specialCases_pcLen (ef nf : Obj) (ud : Value) (b : Bool) (ef1 : Obj)
    (h : specialCases ef nf ud b = some ef1) : pcLen ef ≤ pcLen ef1 := by
  rw [specialCases] at h
  split at h
  · rw [setMeta_pcLen _ _ _ _ h]
  · split at h
    case _ nmf hnmf =>
      split at h
      · split at h
        case _ mf hmf =>
          split at h
          · rw [setMeta_pcLen _ _ _ _ h]
          · exact priceCase_pcLen _ _ _ _ h
        case _ => exact absurd h (by simp)
      · exact priceCase_pcLen _ _ _ _ h
    case _ => exact priceCase_pcLen _ _ _ _ h

theorem specialPhase_pcLen (ef nf : Obj) (b : Bool) (ef1 : Obj)
    (h : specialPhase ef nf b = some ef1) : pcLen ef ≤ pcLen ef1 := by
  rw [specialPhase] at h
  split at h
  case _ ud hud =>
    split at h
    · simp only [Option.bind_eq_bind] at h
      rcases h2 : specialCases (ensureMeta ef) nf ud b with _ | ef2
      · rw [h2] at h
        simp at h
      · rw [h2] at h
        simp only [Option.some_bind] at h
        rw [setMeta_pcLen _ _ _ _ h]
        calc pcLen ef = pcLen (ensureMeta ef) := (ensureMeta_pcLen ef).symm
        _ ≤ pcLen ef2 := specialCases_pcLen _ _ _ _ _ h2
    · cases h
      exact le_refl _
  case _ =>
    cases h
    exact le_refl _

/-- When the incoming record carries no top-level `price_changes` key, a deep
    merge can only extend the stored price history. -/
theorem deepMerge_pcLen (ef nf : Obj) (b : Bool) (ef1 : Obj)
    (h : deepMerge ef nf b = some ef1) (hpc : getK nf "price_changes" = none) :
    pcLen ef ≤ pcLen ef1 := by
  rw [deepMerge] at h
  simp only [Option.bind_eq_bind] at h
  rcases hp : specialPhase ef nf b with _ | ef2
  · rw [hp] at h
    simp at h
  · rw [hp] at h
    simp only [Option.some_bind] at h
    rw [pcLen_eq_of_getK ef1 ef2
      (mergeLoop_frame _ _ _ _ h "price_changes" hpc (by decide))]
    exact specialPhase_pcLen _ _ _ _ hp

/-! ### Python key equality is a partial equivalence -/

theorem pyKeyEq_refl (a : Value) (ha : hashable a = true) :
    pyKeyEq a a = true := by
  rcases a with _ | b | n | s2 | xs | fs
  · rfl
  · simp [pyKeyEq, Value.isNumeric]
  · simp [pyKeyEq, Value.isNumeric]
  · simp [pyKeyEq]
  · simp [hashable] at ha
  · simp [hashable] at ha

theorem pyKeyEq_symm (a b : Value) (h : pyKeyEq a b = true) :
    pyKeyEq b a = true := by
  rcases a with _ | b2 | n2 | s2 | xs2 | fs2 <;>
    rcases b with _ | b3 | n3 | s3 | xs3 | fs3 <;>
    simp_all [pyKeyEq, Value.isNumeric, Value.toInt]

theorem pyKeyEq_trans (a b c : Value) (h1 : pyKeyEq a b = true)
    (h2 : pyKeyEq b c = true) : pyKeyEq a c = true := by
  rcases a with _ | b2 | n2 | s2 | xs2 | fs2 <;>
    rcases b with _ | b3 | n3 | s3 | xs3 | fs3 <;>
    rcases c with _ | b4 | n4 | s4 | xs4 | fs4 <;>
    simp_all [pyKeyEq, Value.isNumeric, Value.toInt]

/-! ### findId / setId structure -/

theorem findId_none : ∀ (m : IdMap) (id : Value), findId m id = none ↔
    ∀ p ∈ m, pyKeyEq p.1 id = false
  | [], id => by simp [findId]
  | (k, l) :: rest, id => by
      rw [findId]
      constructor
      · intro h p hp
        split at h
        · cases h
        case _ hk =>
          rcases List.mem_cons.mp hp with hp2 | hp2
          · rw [hp2]
            simpa using hk
          · exact (findId_none rest id).mp h p hp2
      · intro h
        rw [if_neg]
        · exact (findId_none rest id).mpr
            (fun p hp => h p (List.mem_cons_of_mem _ hp))
        · simpa using h (k, l) (List.mem_cons_self _ _)

theorem setId_of_findId_none : ∀ (m : IdMap) (id : Value) (l : Obj),
    findId m id = none → setId m id l = m ++ [(id, l)]
  | [], id, l, _ => by simp [setId]
  | (k, l2) :: rest, id, l, h => by
      rw [findId] at h
      rw [setId]
      split at h
      · cases h
      case _ hk =>
        rw [if_neg (by simpa using hk), setId_of_findId_none rest id l h]
        rfl

theorem setId_mem2 : ∀ (m : IdMap) (id : Value) (l : Obj) (p : Value × Obj),
    p ∈ setId m id l →
    p ∈ m ∨ (p.2 = l ∧ (p.1 = id ∨ pyKeyEq p.1 id = true))
  | [], id, l, p, hp => by
      rw [setId] at hp
      simp only [List.mem_singleton] at hp
      exact Or.inr (by rw [hp]; exact ⟨rfl, Or.inl rfl⟩)
  | (k, l2) :: rest, id, l, p, hp => by
      rw [setId] at hp
      split at hp
      case _ hk =>
        rcases List.mem_cons.mp hp with hp2 | hp2
        · exact Or.inr (by rw [hp2]; exact ⟨rfl, Or.inr hk⟩)
        · exact Or.inl (List.mem_cons_of_mem _ hp2)
      · rcases List.mem_cons.mp hp with hp2 | hp2
        · exact Or.inl (hp2 ▸ List.mem_cons_self _ _)
        · rcases setId_mem2 rest id l p hp2 with h2 | h2
          · exact Or.inl (List.mem_cons_of_mem _ h2)
          · exact Or.inr h2

theorem setId_keys_of_found : ∀ (m : IdMap) (id : Value) (l ef : Obj),
    findId m id = some ef →
    (setId m id l).map Prod.fst = m.map Prod.fst
  | [], id, l, ef, h => by simp [findId] at h
  | (k, l2) :: rest, id, l, ef, h => by
      rw [findId] at h
      rw [setId]
      split at h
      case _ hk =>
        rw [if_pos hk]
        rfl
      case _ hk =>
        rw [if_neg hk, List.map_cons, List.map_cons,
          setId_keys_of_found rest id l ef h]

theorem setId_mem_preserved : ∀ (m : IdMap) (id : Value) (l : Obj)
    (p : Value × Obj), p ∈ m → pyKeyEq p.1 id = false → p ∈ setId m id l
  | [], id, l, p, hp, _ => by simp at hp
  | (k, l2) :: rest, id, l, p, hp, hne => by
      rw [setId]
      rcases List.mem_cons.mp hp with hp2 | hp2
      · split
        case _ hk =>
          rw [hp2] at hne
          simp only at hne
          rw [hne] at hk
          cases hk
        · exact hp2 ▸ List.mem_cons_self _ _
      · split
        · exact List.mem_cons_of_mem _ hp2
        · exact List.mem_cons_of_mem _
            (setId_mem_preserved rest id l p hp2 hne)

theorem findId_of_pairwise : ∀ (m : IdMap) (id k0 : Value) (ef0 : Obj),
    List.Pairwise (fun a b => pyKeyEq a b = false) (m.map Prod.fst) →
    (k0, ef0) ∈ m → pyKeyEq k0 id = true → findId m id = some ef0
  | [], id, k0, ef0, _, hp, _ => by simp at hp
  | (k, l2) :: rest, id, k0, ef0, hpw, hp, hk0 => by
      rw [List.map_cons, List.pairwise_cons] at hpw
      rw [findId]
      rcases List.mem_cons.mp hp with hp2 | hp2
      · rw [Prod.mk.injEq] at hp2
        rw [← hp2.1, if_pos hk0, hp2.2]
      · have hkrest : pyKeyEq k k0 = false :=
          hpw.1 k0 (List.mem_map.mpr ⟨(k0, ef0), hp2, rfl⟩)
        rw [if_neg, findId_of_pairwise rest id k0 ef0 hpw.2 hp2 hk0]
        intro hk
        have h3 : pyKeyEq k k0 = true :=
          pyKeyEq_trans k id k0 hk (pyKeyEq_symm _ _ hk0)
        rw [h3] at hkrest
        cases hkrest

theorem setId_mem_found : ∀ (m : IdMap) (id k0 : Value) (ef0 l : Obj),
    List.Pairwise (fun a b => pyKeyEq a b = false) (m.map Prod.fst) →
    (k0, ef0) ∈ m → pyKeyEq k0 id = true → (k0, l) ∈ setId m id l
  | [], id, k0, ef0, l, _, hp, _ => by simp at hp
  | (k, l2) :: rest, id, k0, ef0, l, hpw, hp, hk0 => by
      rw [List.map_cons, List.pairwise_cons] at hpw
      rw [setId]
      rcases List.mem_cons.mp hp with hp2 | hp2
      · rw [Prod.mk.injEq] at hp2
        rw [← hp2.1, if_pos hk0]
        exact List.mem_cons_self _ _
      · have hkrest : pyKeyEq k k0 = false :=
          hpw.1 k0 (List.mem_map.mpr ⟨(k0, ef0), hp2, rfl⟩)
        rw [if_neg]
        · exact List.mem_cons_of_mem _
            (setId_mem_found rest id k0 ef0 l hpw.2 hp2 hk0)
        · intro hk
          have h3 : pyKeyEq k k0 = true :=
            pyKeyEq_trans k id k0 hk (pyKeyEq_symm _ _ hk0)
          rw [h3] at hkrest
          cases hkrest

/-! ### Tracking the offer_id field through a deep merge -/

theorem mergeStep_offerId (ef : Obj) (vid : Value) (df : Option Bool)
    (ef2 : Obj) (h : mergeStep ef "offer_id" vid df = some ef2)
    (hh : hashable vid = true) :
    (vid = .null ∧ ef2 = ef) ∨ getK ef2 "offer_id" = some vid := by
  rcases vid with _ | b2 | n2 | s2 | xs | fs
  · left
    simp only [mergeStep.eq_def, plainFallback.eq_def, plainStep.eq_def,
      Value.isNull, String.reduceEq, reduceIte, Option.some.injEq] at h
    split at h
    case _ a ekf vf hekf hveq => cases hveq
    case _ =>
      cases h
      exact ⟨rfl, rfl⟩
  · right
    simp only [mergeStep.eq_def, plainFallback.eq_def, plainStep.eq_def,
      Value.isNull, String.reduceEq, reduceIte, Option.some.injEq] at h
    split at h
    case _ a ekf vf hekf hveq => cases hveq
    case _ =>
      simp only [Bool.false_eq_true, if_false, Option.some.injEq] at h
      rw [← h, getK_setK_self]
  · right
    simp only [mergeStep.eq_def, plainFallback.eq_def, plainStep.eq_def,
      Value.isNull, String.reduceEq, reduceIte, Option.some.injEq] at h
    split at h
    case _ a ekf vf hekf hveq => cases hveq
    case _ =>
      simp only [Bool.false_eq_true, if_false, Option.some.injEq] at h
      rw [← h, getK_setK_self]
  · right
    simp only [mergeStep.eq_def, plainFallback.eq_def, plainStep.eq_def,
      Value.isNull, String.reduceEq, reduceIte, Option.some.injEq] at h
    split at h
    case _ a ekf vf hekf hveq => cases hveq
    case _ =>
      simp only [Bool.false_eq_true, if_false, Option.some.injEq] at h
      rw [← h, getK_setK_self]
  · simp [hashable] at hh
  · simp [hashable] at hh

theorem mergeLoop_offerId : ∀ (fs : Obj) (ef : Obj) (df : Option Bool)
    (ef1 : Obj), mergeLoop ef fs df = some ef1 →
    ∀ vid, getK fs "offer_id" = some vid → hashable vid = true →
    wfF fs = true →
    getK ef1 "offer_id" = some vid ∨
      (vid = .null ∧ getK ef1 "offer_id" = getK ef "offer_id")
  | [], ef, df, ef1, h, vid, hg, _, _ => by simp [getK] at hg
  | (k, v) :: rest, ef, df, ef1, h, vid, hg, hh, hwf => by
      rw [mergeLoop] at h
      simp only [Option.bind_eq_bind] at h
      rcases hs : mergeStep ef k v df with _ | ef2
      · rw [hs] at h
        simp at h
      · rw [hs] at h
        simp only [Option.some_bind] at h
        rw [wfF] at hwf
        simp only [Bool.and_eq_true, Bool.not_eq_true'] at hwf
        by_cases hk : k = "offer_id"
        · subst hk
          rw [getK, if_pos rfl, Option.some.injEq] at hg
          subst hg
          have hrest : getK rest "offer_id" = none := by
            rcases hg2 : getK rest "offer_id" with _ | w
            · rfl
            · rw [hg2] at hwf
              simp at hwf
          have hframe := mergeLoop_frame rest ef2 df ef1 h "offer_id" hrest
            (by decide)
          rcases mergeStep_offerId ef v df ef2 hs hh with ⟨hnull, hef⟩ | hset
          · right
            refine ⟨hnull, ?_⟩
            rw [hframe, hef]
          · left
            rw [hframe, hset]
        · rw [getK, if_neg hk] at hg
          have hstep := mergeStep_frame ef k v df ef2 hs "offer_id"
            (fun hh2 => hk hh2.symm) (by decide)
          rcases mergeLoop_offerId rest ef2 df ef1 h vid hg hh hwf.2
            with h2 | ⟨h2, h3⟩
          · exact Or.inl h2
          · right
            refine ⟨h2, ?_⟩
            rw [h3, hstep]

/-- A deep merge of a source record carrying a hashable `offer_id` leaves the
    stored record's `offer_id` equal to the incoming one, except that a `None`
    id is skipped by the None-overwrite rule and the stored id survives. -/
theorem deepMerge_offerId (ef nf : Obj) (b : Bool) (ef1 : Obj)
    (h : deepMerge ef nf b = some ef1) (vid : Value)
    (hg : getK nf "offer_id" = some vid) (hh : hashable vid = true)
    (hwf : wfF nf = true) :
    getK ef1 "offer_id" = some vid ∨
      (vid = .null ∧ getK ef1 "offer_id" = getK ef "offer_id") := by
  rw [deepMerge] at h
  simp only [Option.bind_eq_bind] at h
  rcases hp : specialPhase ef nf b with _ | ef2
  · rw [hp] at h
    simp at h
  · rw [hp] at h
    simp only [Option.some_bind] at h
    have hphase := specialPhase_frame ef nf b ef2 hp "offer_id" (by decide)
      (by decide)
    rcases mergeLoop_offerId nf ef2 (descUnpubFlag nf) ef1 h vid hg hh hwf
      with h2 | ⟨h2, h3⟩
    · exact Or.inl h2
    · right
      exact ⟨h2, by rw [h3, hphase]⟩

/-! ### Decomposing an id-map update at a found key -/

theorem setId_after_find : ∀ (m : IdMap) (id : Value) (ef : Obj),
    findId m id = some ef → ∃ m1 k0 m2, m = m1 ++ (k0, ef) :: m2 ∧
      (∀ p ∈ m1, pyKeyEq p.1 id = false) ∧ pyKeyEq k0 id = true ∧
      ∀ l, setId m id l = m1 ++ (k0, l) :: m2
  | [], id, ef, h => by simp [findId] at h
  | (k, l2) :: rest, id, ef, h => by
      rw [findId] at h
      split at h
      case _ hk =>
        cases h
        exact ⟨[], k, rest, rfl, by simp, hk,
          fun l => by rw [setId, if_pos hk]; rfl⟩
      case _ hk =>
        obtain ⟨m1, k0, m2, he, hm1, hk0, hset⟩ := setId_after_find rest id ef h
        refine ⟨(k, l2) :: m1, k0, m2, by rw [he]; rfl, ?_, hk0, fun l => ?_⟩
        · intro p hp
          rcases List.mem_cons.mp hp with hp2 | hp2
          · rw [hp2]
            simpa using hk
          · exact hm1 p hp2
        · rw [setId, if_neg hk, hset l]
          rfl

/-! ### Invariants of the target-map build phase -/

theorem buildById_ok : ∀ (ts : List Value) (m m2 : IdMap),
    buildById ts m = some m2 →
    ∀ t ∈ ts, ∃ tf id, t = .dict tf ∧ getK tf "offer_id" = some id ∧
      hashable id = true
  | [], m, m2, _, t, ht => by simp at ht
  | t0 :: rest, m, m2, h, t, ht => by
      rw [buildById] at h
      simp only [Option.bind_eq_bind] at h
      rcases hb : buildStep m t0 with _ | m1
      · rw [hb] at h
        simp at h
      · rw [hb] at h
        simp only [Option.some_bind] at h
        rcases List.mem_cons.mp ht with ht2 | ht2
        · subst ht2
          rcases t with _ | b2 | n2 | s2 | xs | tf
          · simp [buildStep] at hb
          · simp [buildStep] at hb
          · simp [buildStep] at hb
          · simp [buildStep] at hb
          · simp [buildStep] at hb
          · rw [buildStep] at hb
            split at hb
            case _ id hid =>
              split at hb
              case _ hha => exact ⟨tf, id, rfl, hid, hha⟩
              case _ => simp at hb
            case _ => simp at hb
        · exact buildById_ok rest m1 m2 h t ht2

theorem buildStep_invs (m m1 : IdMap) (t : Value)
    (h : buildStep m t = some m1) (hk : KeysOk m) (hf : FieldsOk m) :
    KeysOk m1 ∧ FieldsOk m1 := by
  rcases t with _ | b2 | n2 | s2 | xs | tf
  · simp [buildStep] at h
  · simp [buildStep] at h
  · simp [buildStep] at h
  · simp [buildStep] at h
  · simp [buildStep] at h
  · rw [buildStep] at h
    split at h
    case _ id hid =>
      split at h
      case _ hha =>
        cases h
        rcases hfi : findId m id with _ | ef
        · rw [setId_of_findId_none m id tf hfi]
          constructor
          · rw [KeysOk, List.map_append]
            rw [List.pairwise_append]
            refine ⟨hk, by simp, ?_⟩
            intro a ha b hb
            simp only [List.map_cons, List.map_nil, List.mem_singleton] at hb
            subst hb
            obtain ⟨p, hp, hpa⟩ := List.mem_map.mp ha
            have hfp := (findId_none m b).mp hfi p hp
            rw [hpa] at hfp
            exact hfp
          · intro p hp
            rcases List.mem_append.mp hp with hp2 | hp2
            · exact hf p hp2
            · simp only [List.mem_singleton] at hp2
              subst hp2
              exact ⟨id, hid, pyKeyEq_refl id hha, hha⟩
        · obtain ⟨ma, kk, mb, hm, hma, hkk, hset⟩ :=
            setId_after_find m id ef hfi
          rw [hset tf]
          obtain ⟨fid0, _, _, hhkk⟩ := hf (kk, ef) (by rw [hm]; simp)
          constructor
          · rw [KeysOk] at hk ⊢
            rw [hm] at hk
            simpa using hk
          · intro p hp
            rw [hm] at hf
            rcases List.mem_append.mp hp with hp2 | hp2
            · exact hf p (List.mem_append.mpr (Or.inl hp2))
            · rcases List.mem_cons.mp hp2 with hp3 | hp3
              · subst hp3
                exact ⟨id, hid, pyKeyEq_symm _ _ hkk, hhkk⟩
              · exact hf p (List.mem_append.mpr (Or.inr
                  (List.mem_cons_of_mem _ hp3)))
      case _ => simp at h
    case _ => simp at h

theorem buildById_invs : ∀ (ts : List Value) (m m2 : IdMap),
    buildById ts m = some m2 → KeysOk m → FieldsOk m →
    KeysOk m2 ∧ FieldsOk m2
  | [], m, m2, h, hk, hf => by
      rw [buildById] at h
      cases h
      exact ⟨hk, hf⟩
  | t :: rest, m, m2, h, hk, hf => by
      rw [buildById] at h
      simp only [Option.bind_eq_bind] at h
      rcases hb : buildStep m t with _ | m1
      · rw [hb] at h
        simp at h
      · rw [hb] at h
        simp only [Option.some_bind] at h
        obtain ⟨hk1, hf1⟩ := buildStep_invs m m1 t hb hk hf
        exact buildById_invs rest m1 m2 h hk1 hf1

theorem buildById_preserves : ∀ (ts : List Value) (m m2 : IdMap)
    (k0 : Value) (ef0 : Obj), buildById ts m = some m2 → (k0, ef0) ∈ m →
    (∀ t ∈ ts, ∀ tf idt, t = .dict tf → getK tf "offer_id" = some idt →
      pyKeyEq k0 idt = false) →
    (k0, ef0) ∈ m2
  | [], m, m2, k0, ef0, h, hp, _ => by
      rw [buildById] at h
      cases h
      exact hp
  | t :: rest, m, m2, k0, ef0, h, hp, hfr => by
      rw [buildById] at h
      simp only [Option.bind_eq_bind] at h
      rcases hb : buildStep m t with _ | m1
      · rw [hb] at h
        simp at h
      · rw [hb] at h
        simp only [Option.some_bind] at h
        refine buildById_preserves rest m1 m2 k0 ef0 h ?_
          (fun t2 ht2 => hfr t2 (List.mem_cons_of_mem _ ht2))
        rcases t with _ | b2 | n2 | s2 | xs | tf
        · simp [buildStep] at hb
        · simp [buildStep] at hb
        · simp [buildStep] at hb
        · simp [buildStep] at hb
        · simp [buildStep] at hb
        · rw [buildStep] at hb
          split at hb
          case _ id hid =>
            split at hb
            case _ hha =>
              cases hb
              exact setId_mem_preserved m id tf (k0, ef0) hp
                (hfr (Value.dict tf) (List.mem_cons_self _ _) tf id rfl hid)
            case _ => simp at hb
          case _ => simp at hb

theorem buildById_fresh_keys : ∀ (ts : List Value) (m m2 : IdMap)
    (id : Value), buildById ts m = some m2 →
    (∀ p ∈ m, pyKeyEq p.1 id = false) →
    (∀ t ∈ ts, ∀ tf idt, t = .dict tf → getK tf "offer_id" = some idt →
      pyKeyEq idt id = false) →
    ∀ p ∈ m2, pyKeyEq p.1 id = false
  | [], m, m2, id, h, hm, _ => by
      rw [buildById] at h
      cases h
      exact hm
  | t :: rest, m, m2, id, h, hm, hts => by
      rw [buildById] at h
      simp only [Option.bind_eq_bind] at h
      rcases hb : buildStep m t with _ | m1
      · rw [hb] at h
        simp at h
      · rw [hb] at h
        simp only [Option.some_bind] at h
        refine buildById_fresh_keys rest m1 m2 id h ?_
          (fun t2 ht2 => hts t2 (List.mem_cons_of_mem _ ht2))
        rcases t with _ | b2 | n2 | s2 | xs | tf
        · simp [buildStep] at hb
        · simp [buildStep] at hb
        · simp [buildStep] at hb
        · simp [buildStep] at hb
        · simp [buildStep] at hb
        · rw [buildStep] at hb
          split at hb
          case _ idt hid =>
            split at hb
            case _ hha =>
              cases hb
              have hidt : pyKeyEq idt id = false :=
                hts (Value.dict tf) (List.mem_cons_self _ _) tf idt rfl hid
              intro p hp
              rcases hfi : findId m idt with _ | ef
              · rw [setId_of_findId_none m idt tf hfi] at hp
                rcases List.mem_append.mp hp with hp2 | hp2
                · exact hm p hp2
                · simp only [List.mem_singleton] at hp2
                  rw [hp2]
                  exact hidt
              · obtain ⟨ma, kk, mb, hmeq, _, _, hset⟩ :=
                  setId_after_find m idt ef hfi
                rw [hset tf] at hp
                rcases List.mem_append.mp hp with hp2 | hp2
                · have hpm : p ∈ m := by
                    rw [hmeq]
                    exact List.mem_append.mpr (Or.inl hp2)
                  exact hm p hpm
                · rcases List.mem_cons.mp hp2 with hp3 | hp3
                  · have hkm : (kk, ef) ∈ m := by
                      rw [hmeq]
                      simp
                    rw [hp3]
                    exact hm (kk, ef) hkm
                  · have hpm : p ∈ m := by
                      rw [hmeq]
                      refine List.mem_append.mpr (Or.inr ?_)
                      exact List.mem_cons_of_mem _ hp3
                    exact hm p hpm
            case _ => simp at hb
          case _ => simp at hb

/-! ### The pure-insertion behaviour of the source fold (claim C6) -/

theorem pyKeyEq_false_symm (a b : Value) (h : pyKeyEq a b = false) :
    pyKeyEq b a = false := by
  rcases hg : pyKeyEq b a with _ | _
  · rfl
  · rw [pyKeyEq_symm b a hg] at h
    cases h

theorem newOffer_frame (itf : Obj) (k : String) (hk : k ≠ "metadata") :
    getK (newOffer itf) k = getK itf k := by
  rw [newOffer]
  split
  case _ mf0 hmf0 =>
    split
    · exact getK_setK_ne _ _ _ _ hk
    · rfl
  case _ => rfl

theorem newOffer_eq (itf mf : Obj) (ud : Value)
    (hmf : getK itf "metadata" = some (.dict mf))
    (hud : getK mf "updated_date" = some ud) :
    newOffer itf = setK itf "metadata"
      (.dict (delK (setK (setK mf "publication_date" ud) "last_active" ud)
        "updated_date")) := by
  simp only [newOffer, hmf, hud]

theorem sourceStep_fresh (m : IdMap) (itf : Obj) (id : Value)
    (hid : getK itf "offer_id" = some id) (hha : hashable id = true)
    (hnone : findId m id = none) :
    sourceStep m (.dict itf) = some (m ++ [(id, newOffer itf)]) := by
  simp [sourceStep, hid, hha, hnone]

/-- When every source item is a dict with a hashable `offer_id` fresh for the
    accumulated map and the source ids are pairwise distinct, the source loop
    only takes the new-offer path, appending one entry per item in order. -/
theorem sourceFold_insert : ∀ (src : List Value) (m : IdMap),
    (∀ item ∈ src, ∃ itf id, item = .dict itf ∧
      getK itf "offer_id" = some id ∧ hashable id = true) →
    (∀ item ∈ src, ∀ itf id, item = .dict itf →
      getK itf "offer_id" = some id → ∀ p ∈ m, pyKeyEq p.1 id = false) →
    List.Pairwise (fun a b => ∀ ia ib, offerId a = some ia →
      offerId b = some ib → pyKeyEq ia ib = false) src →
    sourceFold m src = some (m ++ src.map itemEntry)
  | [], m, _, _, _ => by
      rw [sourceFold]
      simp
  | item :: rest, m, hsh, hfresh, hpw => by
      obtain ⟨itf, id, hitem, hid, hha⟩ := hsh item (List.mem_cons_self _ _)
      subst hitem
      rw [sourceFold]
      simp only [Option.bind_eq_bind]
      have hnone : findId m id = none :=
        (findId_none m id).mpr
          (hfresh _ (List.mem_cons_self _ _) itf id rfl hid)
      rw [sourceStep_fresh m itf id hid hha hnone]
      simp only [Option.some_bind]
      rw [List.pairwise_cons] at hpw
      have hrest := sourceFold_insert rest (m ++ [(id, newOffer itf)])
        (fun it hit => hsh it (List.mem_cons_of_mem _ hit))
        (fun it hit itf2 id2 hit2 hid2 p hp => by
          rcases List.mem_append.mp hp with hp2 | hp2
          · exact hfresh it (List.mem_cons_of_mem _ hit) itf2 id2 hit2 hid2
              p hp2
          · simp only [List.mem_singleton] at hp2
            rw [hp2]
            exact hpw.1 it hit id id2 (by rw [offerId, hid])
              (by rw [hit2, offerId, hid2]))
        hpw.2
      rw [hrest, List.map_cons]
      simp only [itemEntry, hid, Option.getD_some, List.append_assoc,
        List.singleton_append]

/-- The `publication_date`, `last_active` and absent `updated_date` of a
    freshly inserted record. -/
theorem newOffer_meta (itf mf : Obj) (ud : Value)
    (hmf : getK itf "metadata" = some (.dict mf))
    (hud : getK mf "updated_date" = some ud) (hwf : wfF itf = true) :
    metaKey (.dict (newOffer itf)) "publication_date" = some ud ∧
    metaKey (.dict (newOffer itf)) "last_active" = some ud ∧
    metaKey (.dict (newOffer itf)) "updated_date" = none := by
  have hwmf : wfF mf = true := by
    have h2 := wfF_getK itf "metadata" _ hwf hmf
    rwa [wfV_dict] at h2
  have hudwf : wfV ud = true := wfF_getK mf "updated_date" ud hwmf hud
  rw [newOffer_eq itf mf ud hmf hud]
  have hget : getK (setK itf "metadata"
      (.dict (delK (setK (setK mf "publication_date" ud) "last_active" ud)
        "updated_date"))) "metadata"
      = some (.dict (delK (setK (setK mf "publication_date" ud)
          "last_active" ud) "updated_date")) := getK_setK_self _ _ _
  refine ⟨?_, ?_, ?_⟩
  · simp only [metaKey, hget]
    rw [getK_delK_ne _ _ _ (by decide),
      getK_setK_ne _ _ _ _ (by decide), getK_setK_self]
  · simp only [metaKey, hget]
    rw [getK_delK_ne _ _ _ (by decide), getK_setK_self]
  · simp only [metaKey, hget]
    exact getK_delK_self_of_nodup _ _
      (wfF_setK _ _ _ (wfF_setK _ _ _ hwmf hudwf) hudwf)

/-! ### Lifting invariants through the id map -/

theorem setId_mem : ∀ (m : IdMap) (id : Value) (l : Obj) (p : Value × Obj),
    p ∈ setId m id l → p ∈ m ∨ p.2 = l
  | [], id, l, p, hp => by
      rw [setId] at hp
      simp only [List.mem_singleton] at hp
      exact Or.inr (by rw [hp])
  | (k, l2) :: rest, id, l, p, hp => by
      rw [setId] at hp
      split at hp
      · rcases List.mem_cons.mp hp with hp | hp
        · exact Or.inr (by rw [hp])
        · exact Or.inl (List.mem_cons_of_mem _ hp)
      · rcases List.mem_cons.mp hp with hp | hp
        · exact Or.inl (hp ▸ List.mem_cons_self _ _)
        · rcases setId_mem rest id l p hp with h | h
          · exact Or.inl (List.mem_cons_of_mem _ h)
          · exact Or.inr h

theorem findId_mem : ∀ (m : IdMap) (id : Value) (l : Obj),
    findId m id = some l → ∃ k, (k, l) ∈ m
  | [], id, l, h => by simp [findId] at h
  | (k, l2) :: rest, id, l, h => by
      rw [findId] at h
      split at h
      · cases h
        exact ⟨k, List.mem_cons_self _ _⟩
      · obtain ⟨k2, hk2⟩ := findId_mem rest id l h
        exact ⟨k2, List.mem_cons_of_mem _ hk2⟩

theorem buildStep_inv (P : Obj → Prop) (m m1 : IdMap) (t : Value)
    (h : buildStep m t = some m1) (hm : ∀ p ∈ m, P p.2)
    (ht : ∀ tf, t = .dict tf → P tf) : ∀ p ∈ m1, P p.2 := by
  rcases t with _ | b2 | n2 | s2 | xs | tf
  · simp [buildStep] at h
  · simp [buildStep] at h
  · simp [buildStep] at h
  · simp [buildStep] at h
  · simp [buildStep] at h
  · rw [buildStep] at h
    split at h
    case _ id hid =>
      split at h
      · cases h
        intro p hp
        rcases setId_mem m id tf p hp with hp2 | hp2
        · exact hm p hp2
        · rw [hp2]
          exact ht tf rfl
      · simp at h
    case _ => simp at h

theorem buildById_inv (P : Obj → Prop) : ∀ (ts : List Value) (m m2 : IdMap),
    buildById ts m = some m2 → (∀ p ∈ m, P p.2) →
    (∀ t ∈ ts, ∀ tf, t = .dict tf → P tf) → ∀ p ∈ m2, P p.2
  | [], m, m2, h, hm, _ => by
      rw [buildById] at h
      cases h
      exact hm
  | t :: rest, m, m2, h, hm, hts => by
      rw [buildById] at h
      simp only [Option.bind_eq_bind] at h
      rcases hb : buildStep m t with _ | m1
      · rw [hb] at h
        simp at h
      · rw [hb] at h
        simp only [Option.some_bind] at h
        exact buildById_inv P rest m1 m2 h
          (buildStep_inv P m m1 t hb hm (hts t (List.mem_cons_self _ _)))
          (fun t2 ht2 => hts t2 (List.mem_cons_of_mem _ ht2))

theorem sourceStep_noUpd (m m2 : IdMap) (item : Value)
    (h : sourceStep m item = some m2) (hwf : wfV item = true)
    (hm : ∀ p ∈ m, ∀ mf, getK p.2 "metadata" = some (.dict mf) →
      getK mf "updated_date" = none) :
    ∀ p ∈ m2, ∀ mf, getK p.2 "metadata" = some (.dict mf) →
      getK mf "updated_date" = none := by
  rcases item with _ | b2 | n2 | s2 | xs | itf
  · simp [sourceStep] at h
  · simp [sourceStep] at h
  · simp [sourceStep] at h
  · rw [sourceStep] at h
    split at h
    · simp at h
    · cases h
      exact hm
  · rw [sourceStep] at h
    split at h
    · simp at h
    · cases h
      exact hm
  · rw [sourceStep] at h
    split at h
    case _ id hid =>
      split at h
      · split at h
        case _ ef hef =>
          simp only [Option.bind_eq_bind] at h
          rcases hdm : deepMerge ef itf false with _ | r
          · rw [hdm] at h
            simp at h
          · rw [hdm] at h
            simp only [Option.some_bind, Option.some.injEq] at h
            intro p hp
            rw [← h] at hp
            rcases setId_mem m id r p hp with hp2 | hp2
            · exact hm p hp2
            · rw [hp2]
              obtain ⟨k, hk⟩ := findId_mem m id ef hef
              exact deepMerge_noUpd ef itf false r hdm (hm (k, ef) hk)
        case _ hef =>
          cases h
          intro p hp
          rcases List.mem_append.mp hp with hp2 | hp2
          · exact hm p hp2
          · simp only [List.mem_singleton] at hp2
            rw [hp2]
            refine newOffer_noUpd itf ?_
            rw [wfV] at hwf
            exact hwf
      · simp at h
    case _ =>
      cases h
      exact hm

theorem sourceFold_noUpd : ∀ (src : List Value) (m m2 : IdMap),
    sourceFold m src = some m2 → (∀ l ∈ src, wfV l = true) →
    (∀ p ∈ m, ∀ mf, getK p.2 "metadata" = some (.dict mf) →
      getK mf "updated_date" = none) →
    ∀ p ∈ m2, ∀ mf, getK p.2 "metadata" = some (.dict mf) →
      getK mf "updated_date" = none
  | [], m, m2, h, _, hm => by
      rw [sourceFold] at h
      cases h
      exact hm
  | item :: rest, m, m2, h, hwf, hm => by
      rw [sourceFold] at h
      simp only [Option.bind_eq_bind] at h
      rcases hs : sourceStep m item with _ | m1
      · rw [hs] at h
        simp at h
      · rw [hs] at h
        simp only [Option.some_bind] at h
        exact sourceFold_noUpd rest m1 m2 h
          (fun l hl => hwf l (List.mem_cons_of_mem _ hl))
          (sourceStep_noUpd m m1 item hs (hwf item (List.mem_cons_self _ _)) hm)

/-! ### Claim C4: `updated_date` never persists -/

/-- **C4.** For every target list in which no listing's metadata contains an
`updated_date` key and every source list of well-formed (Python-dict shaped,
i.e. duplicate-free) values, no listing in a successful merge result carries
an `updated_date` key in its metadata: the key is popped on the new-offer
insertion path and skipped when metadata of existing offers is merged. -/
theorem claim_C4 (target source r : List Value)
    (hT : ∀ l ∈ target, noUpdMetaB l = true)
    (hS : ∀ l ∈ source, wfV l = true)
    (hr : mergeData target source = some r) :
    ∀ l ∈ r, noUpdMetaB l = true := by
  rw [mergeData] at hr
  simp only [Option.bind_eq_bind] at hr
  rcases hb : buildById target [] with _ | m
  · rw [hb] at hr
    simp at hr
  · rw [hb] at hr
    simp only [Option.some_bind] at hr
    rcases hf : sourceFold m source with _ | m1
    · rw [hf] at hr
      simp at hr
    · rw [hf] at hr
      simp only [Option.some_bind, Option.some.injEq] at hr
      have hminv : ∀ p ∈ m, ∀ mf, getK p.2 "metadata" = some (.dict mf) →
          getK mf "updated_date" = none := by
        refine buildById_inv
          (fun lf => ∀ mf, getK lf "metadata" = some (.dict mf) →
            getK mf "updated_date" = none) target [] m hb (by simp) ?_
        intro t ht tf htf
        have := hT t ht
        rw [htf, noUpdMetaB_dict_iff] at this
        exact this
      have hm1 := sourceFold_noUpd source m m1 hf hS hminv
      intro l hl
      rw [← hr] at hl
      simp only [List.mem_map] at hl
      obtain ⟨p, hp, hpl⟩ := hl
      rw [← hpl, noUpdMetaB_dict_iff]
      exact hm1 p hp

/-! ### Claim C1: the worked merge example -/

/-- **C1.** For the specific input
`merge(target=[{offer_id: "1", offer_price: 1000, metadata: {}}],
source=[{offer_id: "1", offer_price: 1200, metadata: {updated_date: "2024-01-01 00:00:00"}}])`,
the merged result is exactly one listing with offer id "1", offer price 1200,
`price_changes = [{change: "200", current_price: "1200", previous_price: "1000",
date: "2024-01-01 00:00:00"}]`, `metadata.last_active = "2024-01-01 00:00:00"`,
and no `updated_date` key in its metadata (the stated equality shows each of
these directly). -/
theorem claim_C1 :
    mergeData
      [.dict [("offer_id", .str "1"), ("offer_price", .int 1000),
              ("metadata", .dict [])]]
      [.dict [("offer_id", .str "1"), ("offer_price", .int 1200),
              ("metadata", .dict [("updated_date", .str "2024-01-01 00:00:00")])]]
    = some [.dict [("offer_id", .str "1"), ("offer_price", .int 1200),
        ("metadata", .dict [("last_active", .str "2024-01-01 00:00:00")]),
        ("price_changes", .list [.dict [("change", .str "200"),
          ("current_price", .str "1200"), ("previous_price", .str "1000"),
          ("date", .str "2024-01-01 00:00:00")]])]] := by
  simp [mergeData, buildById, buildStep, sourceFold, sourceStep, findId, setId, hashable,
    deepMerge, mergeLoop, mergeStep, plainFallback, plainStep, metaLoop, metaStep, specialPhase,
    ensureMeta, setMeta, specialCases, priceCase, updDate, descUnpubFlag, getK, setK, delK, newOffer, isTrueV, isFalseV,
    Value.truthy, Value.isNumeric, Value.toInt, Value.pyStr, Value.isNull, pyKeyEq]
  decide

/-- Witness for C4 at a concrete single-item merge. -/
theorem claim_C4_witness :
    noUpdMetaB (Value.dict [("offer_id", .str "1"),
        ("metadata", .dict [("publication_date", .str "D"),
                            ("last_active", .str "D")])]) = true := by
  refine claim_C4 []
    [.dict [("offer_id", .str "1"),
            ("metadata", .dict [("updated_date", .str "D")])]]
    [Value.dict [("offer_id", .str "1"),
        ("metadata", .dict [("publication_date", .str "D"),
                            ("last_active", .str "D")])]]
    (by simp) ?_ ?_ _ (List.mem_singleton.mpr rfl)
  · intro l hl
    simp only [List.mem_singleton] at hl
    subst hl
    simp [wfV, wfF, wfL, getK]
  · simp [mergeData, buildById, buildStep, sourceFold, sourceStep, findId,
      setId, hashable, newOffer, getK, setK, delK]

/-! ### Claim C5: the unpublish transition -/

/-- **C5.** Merging a source record with `metadata.is_unpublished == True` and
`metadata.updated_date == D` onto an existing target record with
`metadata.is_unpublished == False` sets the record's
`metadata.unpublished_date` to `D`; merging a further record with
`is_unpublished == True` and any (truthy) updated date `D2` onto the
now-unpublished record leaves `unpublished_date` at `D` (only `last_active`
moves to `D2`). -/
theorem claim_C5 (D D2 : String) (hD : D ≠ "") (hD2 : D2 ≠ "") :
    mergeData
      [.dict [("offer_id", .str "1"),
              ("metadata", .dict [("is_unpublished", .bool false)])]]
      [.dict [("offer_id", .str "1"),
              ("metadata", .dict [("is_unpublished", .bool true),
                                  ("updated_date", .str D)])]]
    = some [.dict [("offer_id", .str "1"),
        ("metadata", .dict [("is_unpublished", .bool true),
                            ("unpublished_date", .str D),
                            ("last_active", .str D)])]]
    ∧
    mergeData
      [.dict [("offer_id", .str "1"),
        ("metadata", .dict [("is_unpublished", .bool true),
                            ("unpublished_date", .str D),
                            ("last_active", .str D)])]]
      [.dict [("offer_id", .str "1"),
              ("metadata", .dict [("is_unpublished", .bool true),
                                  ("updated_date", .str D2)])]]
    = some [.dict [("offer_id", .str "1"),
        ("metadata", .dict [("is_unpublished", .bool true),
                            ("unpublished_date", .str D),
                            ("last_active", .str D2)])]] := by
  constructor <;>
    simp [mergeData, buildById, buildStep, sourceFold, sourceStep, findId, setId, hashable,
      deepMerge, mergeLoop, mergeStep, plainFallback, plainStep, metaLoop, metaStep, specialPhase,
      ensureMeta, setMeta, specialCases, priceCase, updDate, descUnpubFlag, getK, setK, delK, newOffer, isTrueV, isFalseV,
      Value.truthy, Value.isNumeric, Value.toInt, Value.pyStr, Value.isNull, pyKeyEq,
      hD, hD2]

/-- Witness for C5 at concrete dates. -/
theorem claim_C5_witness :
    mergeData
      [.dict [("offer_id", .str "1"),
              ("metadata", .dict [("is_unpublished", .bool false)])]]
      [.dict [("offer_id", .str "1"),
              ("metadata", .dict [("is_unpublished", .bool true),
                                  ("updated_date", .str "2024-01-01 00:00:00")])]]
    = some [.dict [("offer_id", .str "1"),
        ("metadata", .dict [("is_unpublished", .bool true),
                            ("unpublished_date", .str "2024-01-01 00:00:00"),
                            ("last_active", .str "2024-01-01 00:00:00")])]] :=
  (claim_C5 "2024-01-01 00:00:00" "2024-02-02 00:00:00" (by decide) (by decide)).1

/-! ### Claims C9 and C10: URL batching in scrape_all -/

theorem batchIndices_pos (L n : Nat) (hn : n ≠ 0) :
    batchIndices L n = some ((List.range (n + 1)).map fun i => L * i / n) := by
  rw [batchIndices]
  induction (List.range (n + 1)) with
  | nil => rfl
  | cons a rest ih =>
      rw [List.mapM_cons, ih]
      simp [pyDiv, hn]

theorem join_slices_aux (urls : List String) (N : Nat) (hN : N ≠ 0) :
    ∀ (m j : Nat), j + m = N →
      ((List.range' j m).map fun i =>
          pySlice urls (urls.length * i / N) (urls.length * (i + 1) / N)).flatten
        = urls.drop (urls.length * j / N)
  | 0, j, hj => by
      have hj' : j = N := by omega
      subst hj'
      rw [Nat.mul_div_cancel _ (Nat.pos_of_ne_zero hN)]
      simp [List.drop_length]
  | m + 1, j, hj => by
      have hmono : urls.length * j / N ≤ urls.length * (j + 1) / N :=
        Nat.div_le_div_right (Nat.mul_le_mul_left _ (by omega))
      rw [List.range'_succ, List.map_cons, List.flatten_cons,
        join_slices_aux urls N hN m (j + 1) (by omega), pySlice,
        show urls.drop (urls.length * (j + 1) / N)
            = (urls.drop (urls.length * j / N)).drop
                (urls.length * (j + 1) / N - urls.length * j / N) by
          rw [List.drop_drop]
          congr 1
          omega]
      exact List.take_append_drop _ _

theorem urlChunks_spec (urls : List String) (P : Nat) (hne : urls ≠ [])
    (hP : 1 ≤ P) :
    urlChunks urls P
      = some ((List.range (min P urls.length)).map fun i =>
          pySlice urls (urls.length * i / min P urls.length)
                       (urls.length * (i + 1) / min P urls.length)) := by
  have hL : 1 ≤ urls.length := List.length_pos.mpr hne
  have hN : min P urls.length ≠ 0 := by omega
  rw [urlChunks]
  simp only [batchIndices_pos _ _ hN]

/-- **C9.** For every non-empty URL list and configured process count `P ≥ 1`,
`scrape_all` partitions the list into `N = min(P, len(urls))` contiguous
batches at the boundaries `len(urls)*i // N`: the batches concatenated in
order equal the original list (so every URL lands in exactly one batch), and
each batch size differs from `len(urls)/N` by less than one, i.e.
`|size_i * N - len(urls)| < N`. -/
theorem claim_C9 (urls : List String) (P : Nat) (hne : urls ≠ []) (hP : 1 ≤ P) :
    ∃ cs, urlChunks urls P = some cs ∧
      cs.length = min P urls.length ∧
      cs.flatten = urls ∧
      ∀ i (hi : i < cs.length),
        cs.get ⟨i, hi⟩
          = pySlice urls (urls.length * i / min P urls.length)
                         (urls.length * (i + 1) / min P urls.length) ∧
        |((cs.get ⟨i, hi⟩).length : Int) * min P urls.length - urls.length|
          < min P urls.length := by
  have hL : 1 ≤ urls.length := List.length_pos.mpr hne
  have hN : min P urls.length ≠ 0 := by omega
  refine ⟨_, urlChunks_spec urls P hne hP, by simp, ?_, ?_⟩
  · have := join_slices_aux urls (min P urls.length) hN (min P urls.length) 0
      (by omega)
    simpa [List.range_eq_range'] using this
  · intro i hi
    simp only [List.length_map, List.length_range] at hi
    have hget : ((List.range (min P urls.length)).map fun i =>
          pySlice urls (urls.length * i / min P urls.length)
                       (urls.length * (i + 1) / min P urls.length)).get
          ⟨i, by simpa using hi⟩
        = pySlice urls (urls.length * i / min P urls.length)
                       (urls.length * (i + 1) / min P urls.length) := by
      simp [List.get_eq_getElem]
    refine ⟨hget, ?_⟩
    rw [hget]
    set N := min P urls.length with hNdef
    set L := urls.length with hLdef
    have hmono : L * i / N ≤ L * (i + 1) / N :=
      Nat.div_le_div_right (Nat.mul_le_mul_left _ (by omega))
    have hub : L * (i + 1) / N ≤ L := by
      have h2 : L * (i + 1) / N ≤ L * N / N :=
        Nat.div_le_div_right (Nat.mul_le_mul_left _ (by omega))
      rwa [Nat.mul_div_cancel _ (Nat.pos_of_ne_zero hN)] at h2
    have hlen : (pySlice urls (L * i / N) (L * (i + 1) / N)).length
        = L * (i + 1) / N - L * i / N := by
      rw [pySlice, List.length_take, List.length_drop]
      omega
    rw [hlen]
    have h1 : (N : Int) * ((L * i / N : Nat) : Int) + ((L * i % N : Nat) : Int)
        = (L : Int) * i := by
      exact_mod_cast Nat.div_add_mod (L * i) N
    have h2 : (N : Int) * ((L * (i + 1) / N : Nat) : Int)
          + ((L * (i + 1) % N : Nat) : Int) = (L : Int) * ((i : Int) + 1) := by
      exact_mod_cast Nat.div_add_mod (L * (i + 1)) N
    have hr : ((L * i % N : Nat) : Int) < (N : Int) := by
      exact_mod_cast Nat.mod_lt _ (Nat.pos_of_ne_zero hN)
    have hs : ((L * (i + 1) % N : Nat) : Int) < (N : Int) := by
      exact_mod_cast Nat.mod_lt _ (Nat.pos_of_ne_zero hN)
    have hr0 : (0 : Int) ≤ ((L * i % N : Nat) : Int) := Int.natCast_nonneg _
    have hs0 : (0 : Int) ≤ ((L * (i + 1) % N : Nat) : Int) := Int.natCast_nonneg _
    rw [abs_lt, Nat.cast_sub hmono]
    constructor <;> nlinarith [h1, h2, hr, hs, hr0, hs0]

/-- Witness for C9 at a concrete URL list and process count. -/
theorem claim_C9_witness :
    ∃ cs, urlChunks ["a", "b", "c"] 2 = some cs ∧
      cs.length = min 2 (["a", "b", "c"] : List String).length ∧
      cs.flatten = ["a", "b", "c"] ∧
      ∀ i (hi : i < cs.length),
        cs.get ⟨i, hi⟩
          = pySlice ["a", "b", "c"]
              ((["a", "b", "c"] : List String).length * i
                / min 2 (["a", "b", "c"] : List String).length)
              ((["a", "b", "c"] : List String).length * (i + 1)
                / min 2 (["a", "b", "c"] : List String).length) ∧
        |((cs.get ⟨i, hi⟩).length : Int)
            * min 2 (["a", "b", "c"] : List String).length
            - (["a", "b", "c"] : List String).length|
          < min 2 (["a", "b", "c"] : List String).length :=
  claim_C9 ["a", "b", "c"] 2 (by decide) (by decide)

/-- **C10.** For the empty URL list, the batch computation of
`BaseScraper.scrape_all` evaluates `len(urls)*i // n` with
`n = min(num_processes, 0) = 0` and raises ZeroDivisionError, for every
configured process count — so `scrape_all` returns normally only on non-empty
URL lists. -/
theorem claim_C10 (P : Nat) : urlChunks [] P = none := by
  rw [urlChunks]
  simp [batchIndices, pyDiv, List.range_succ, List.mapM.loop]

/-! ### Claim C8: the proxy-switch trigger -/

/-- **C8 (counterexample).** Feeding three consecutive network-classified
errors to a fresh worker with a VPN manager performs exactly one proxy
refresh and resets the consecutive-error count, but the worker's contexts and
page pool are NOT discarded and re-created (`poolGen` stays 0): the claim's
"discards its current execution contexts and pool and creates fresh ones"
does not happen in `_scrape_worker`. -/
theorem claim_C8_counterexample :
    workerRun true ⟨0, 0, 0, 0⟩ [.netError, .netError, .netError]
      = { consecutiveNetworkErrors := 0, refreshes := 1, proxyGen := 1,
          poolGen := 0 } := by
  rfl

/-- **C8 (amended).** In the thread strategy, when a worker with a VPN manager
reaches three consecutive network-classified errors it performs exactly one
proxy refresh (re-rank plus a new proxy descriptor for its worker index,
replacing `task.proxy_config`) and resets its consecutive-error count to
zero, while keeping its existing execution contexts and page pool; and any
non-network-classified error resets the count to zero. -/
theorem claim_C8 (s : WorkerState) (h : s.consecutiveNetworkErrors = 0)
    (hasVpn : Bool) (s2 : WorkerState) :
    workerRun true s [.netError, .netError, .netError]
      = { s with consecutiveNetworkErrors := 0,
                 refreshes := s.refreshes + 1,
                 proxyGen := s.proxyGen + 1 }
    ∧ (workerStep hasVpn s2 .otherError).consecutiveNetworkErrors = 0 := by
  constructor
  · simp [workerRun, workerStep, networkErrorThreshold, h, List.foldl]
  · simp [workerStep]

/-- Witness for C8 at a concrete state. -/
theorem claim_C8_witness :
    workerRun true ⟨0, 5, 2, 7⟩ [.netError, .netError, .netError]
      = { consecutiveNetworkErrors := 0, refreshes := 6, proxyGen := 3,
          poolGen := 7 }
    ∧ (workerStep false ⟨1, 0, 0, 0⟩ .otherError).consecutiveNetworkErrors = 0 :=
  claim_C8 ⟨0, 5, 2, 7⟩ rfl false ⟨1, 0, 0, 0⟩

/-! ### Claim C7: the retry loop -/

theorem mapM_option_forall {α β : Type} (f : α → Option β) (Q : β → Prop) :
    ∀ (xs : List α), (∀ x ∈ xs, ∃ y, f x = some y ∧ Q y) →
      ∃ ys, xs.mapM f = some ys ∧ ys.length = xs.length ∧ ∀ y ∈ ys, Q y
  | [], _ => ⟨[], rfl, rfl, by simp⟩
  | x :: rest, h => by
      obtain ⟨y, hy, hQ⟩ := h x (by simp)
      obtain ⟨ys, hys, hlen, hQs⟩ :=
        mapM_option_forall f Q rest (fun a ha => h a (by simp [ha]))
      refine ⟨y :: ys, ?_, by simp [hlen], ?_⟩
      · rw [List.mapM_cons, hy, hys]
        rfl
      · intro z hz
        rcases List.mem_cons.mp hz with hz | hz
        · exact hz ▸ hQ
        · exact hQs z hz

theorem has404_missing_est :
    has404 (.str "Missing estimation_price for published offer") = false := by
  rw [has404]
  decide

/-- Properties preserved and established by the round-1 flagging on an
    already-errored record. -/
theorem flagRound1_ok (r : Obj)
    (he : ∃ e, getK r "error" = some e ∧ has404 e = false)
    (hu : (getK r "url").isSome = true)
    (hm : ∀ v, getK r "metadata" = some v → v.isDict = true) :
    ∃ r2, flagRound1 r = some r2 ∧ isFailedRec r2 = true ∧
      (getK r2 "url").isSome = true := by
  obtain ⟨e, he1, he2⟩ := he
  have hfail : isFailedRec r = true := by
    simp [isFailedRec, errHas404, he1, he2]
  have hfail2 : isFailedRec (setK r "error"
      (.str "Missing estimation_price for published offer")) = true := by
    simp [isFailedRec, errHas404, getK_setK_self, has404_missing_est]
  have hu2 : (getK (setK r "error"
      (.str "Missing estimation_price for published offer")) "url").isSome
      = true := by
    rw [getK_setK_ne _ _ _ _ (by decide)]
    exact hu
  have hp : ∃ p, isPubFlag r = some p := by
    rw [isPubFlag]
    rcases hmd : getK r "metadata" with _ | v
    · exact ⟨_, rfl⟩
    · have hd := hm v hmd
      rcases v with _ | b | n | s2 | xs | mf
      · simp [Value.isDict] at hd
      · simp [Value.isDict] at hd
      · simp [Value.isDict] at hd
      · simp [Value.isDict] at hd
      · simp [Value.isDict] at hd
      · exact ⟨_, rfl⟩
  obtain ⟨p, hp⟩ := hp
  rw [flagRound1, hp]
  by_cases hc : (p && missingEst r) = true
  · exact ⟨_, by simp [hc], hfail2, hu2⟩
  · exact ⟨r, by simp [hc], hfail, hu⟩

/-- With an all-errors scraper, the flagged result list of any round exists,
    has one record per URL, and consists of failed records carrying their
    urls. -/
theorem roundResults_allfail (scrape : Nat → List Value → List Obj)
    (i : Nat) (us : List Value)
    (Hlen : ∀ j us2, (scrape j us2).length = us2.length)
    (Herr : ∀ j us2 r, r ∈ scrape j us2 →
      ∃ e, getK r "error" = some e ∧ has404 e = false)
    (Hurl : ∀ j us2 r, r ∈ scrape j us2 → (getK r "url").isSome = true)
    (Hmd : ∀ j us2 r, r ∈ scrape j us2 →
      ∀ v, getK r "metadata" = some v → v.isDict = true) :
    ∃ rs1, roundResults scrape i us = some rs1 ∧
      rs1.length = us.length ∧
      ∀ r ∈ rs1, isFailedRec r = true ∧ (getK r "url").isSome = true := by
  rw [roundResults]
  by_cases hi : i = 0
  · obtain ⟨ys, hys, hlen, hQ⟩ := mapM_option_forall flagRound1
      (fun r2 => isFailedRec r2 = true ∧ (getK r2 "url").isSome = true)
      (scrape i us)
      (fun r hr => flagRound1_ok r (Herr i _ r hr) (Hurl i _ r hr)
        (Hmd i _ r hr))
    refine ⟨ys, ?_, ?_, hQ⟩
    · rw [if_pos hi, hys]
    · rw [hlen, Hlen]
  · refine ⟨scrape i us, by rw [if_neg hi], Hlen i _, fun r hr => ⟨?_, Hurl i _ r hr⟩⟩
    obtain ⟨e, h1, h2⟩ := Herr i _ r hr
    simp [isFailedRec, errHas404, h1, h2]

/-- One all-errors round: nothing is added to `successful`, every record lands
    in `failed` with its (non-404) error, and the URL worklist keeps its
    size. -/
theorem runRound_allfail (scrape : Nat → List Value → List Obj) (i : Nat)
    (st : RoundState) (hsucc : st.successful = [])
    (Hlen : ∀ j us, (scrape j us).length = us.length)
    (Herr : ∀ j us r, r ∈ scrape j us →
      ∃ e, getK r "error" = some e ∧ has404 e = false)
    (Hurl : ∀ j us r, r ∈ scrape j us → (getK r "url").isSome = true)
    (Hmd : ∀ j us r, r ∈ scrape j us →
      ∀ v, getK r "metadata" = some v → v.isDict = true) :
    ∃ st2, runRound scrape i st = some st2 ∧ st2.successful = [] ∧
      st2.remaining.length = st.remaining.length ∧
      st2.failed.length = st.remaining.length ∧
      (∀ r ∈ st2.failed, isFailedRec r = true) ∧
      st2.rounds = st.rounds + 1 := by
  obtain ⟨rs1, hrs1, hlen1, hprops⟩ := roundResults_allfail scrape i
    st.remaining Hlen Herr Hurl Hmd
  have hfail_all : rs1.filter (fun r => isFailedRec r) = rs1 :=
    List.filter_eq_self.mpr fun r hr => (hprops r hr).1
  have hsucc_none : rs1.filter (fun r => !isFailedRec r) = [] := by
    rw [List.filter_eq_nil_iff]
    intro r hr
    simp [(hprops r hr).1]
  have h404 : rs1.filter (fun r => !errHas404 r) = rs1 :=
    List.filter_eq_self.mpr fun r hr => by
      have h5 := (hprops r hr).1
      rw [isFailedRec, Bool.and_eq_true] at h5
      simp [h5.2]
  obtain ⟨us2, hus2, hlen2, _⟩ := mapM_option_forall (fun r => getK r "url")
    (fun _ => True) rs1
    (fun r hr => by
      have h6 := (hprops r hr).2
      rcases hgu : getK r "url" with _ | u
      · rw [hgu] at h6
        simp at h6
      · exact ⟨u, hgu, trivial⟩)
  refine ⟨⟨us2, st.successful ++ rs1.filter (fun r => !isFailedRec r),
      rs1.filter (fun r => isFailedRec r), st.rounds + 1⟩, ?_, ?_, ?_, ?_, ?_, rfl⟩
  · rw [runRound, hrs1]
    simp only [Option.bind_eq_bind, Option.some_bind]
    rw [hfail_all, h404, hus2]
    rfl
  · simp [hsucc, hsucc_none]
  · simpa [hlen2, hfail_all] using hlen1
  · rw [hfail_all]
    exact hlen1
  · intro r hr
    rw [hfail_all] at hr
    exact (hprops r hr).1

/-- The all-errors retry loop runs the remaining rounds to `maxA` and ends
    with an all-failed state of full size. -/
theorem retryLoop_allfail (scrape : Nat → List Value → List Obj)
    (maxA L : Nat) (hL : 0 < L)
    (Hlen : ∀ j us, (scrape j us).length = us.length)
    (Herr : ∀ j us r, r ∈ scrape j us →
      ∃ e, getK r "error" = some e ∧ has404 e = false)
    (Hurl : ∀ j us r, r ∈ scrape j us → (getK r "url").isSome = true)
    (Hmd : ∀ j us r, r ∈ scrape j us →
      ∀ v, getK r "metadata" = some v → v.isDict = true) :
    ∀ (m i : Nat) (st : RoundState), maxA ≤ i + m → i < maxA →
      st.successful = [] → st.remaining.length = L → st.rounds = i →
      ∃ st2, retryLoop scrape maxA i st = some st2 ∧ st2.rounds = maxA ∧
        st2.successful = [] ∧ st2.failed.length = L ∧
        ∀ r ∈ st2.failed, isFailedRec r = true
  | 0, i, st, hm, hi, _, _, _ => absurd hm (by omega)
  | m + 1, i, st, hm, hi, hsucc, hrem, hrounds => by
      obtain ⟨st2, h1, h2, h3, h4, h5, h6⟩ :=
        runRound_allfail scrape i st hsucc Hlen Herr Hurl Hmd
      have hne : st.remaining.isEmpty = false := by
        rcases hr : st.remaining with _ | ⟨a, rest⟩
        · rw [hr] at hrem
          simp at hrem
          omega
        · rfl
      rw [retryLoop, if_neg (by omega : ¬maxA ≤ i), hne]
      simp only [Bool.false_eq_true, if_false, h1, Option.bind_eq_bind,
        Option.some_bind]
      by_cases hlast : maxA ≤ i + 1
      · rw [retryLoop, if_pos hlast]
        have hieq : maxA = i + 1 := by omega
        exact ⟨st2, rfl, by omega, h2, by rw [h4, hrem], h5⟩
      · exact retryLoop_allfail scrape maxA L hL Hlen Herr Hurl Hmd m (i + 1)
          st2 (by omega) (by omega) h2 (by rw [h3, hrem]) (by omega)

/-- The loop never executes more than `maxA` rounds, whatever the scraper
    does. -/
theorem retryLoop_rounds_le (scrape : Nat → List Value → List Obj)
    (maxA : Nat) :
    ∀ (m i : Nat) (st st2 : RoundState), maxA ≤ i + m →
      retryLoop scrape maxA i st = some st2 →
      st2.rounds ≤ st.rounds + (maxA - i)
  | 0, i, st, st2, hm, h => by
      rw [retryLoop, if_pos (by omega)] at h
      cases h
      omega
  | m + 1, i, st, st2, hm, h => by
      rw [retryLoop] at h
      by_cases h1 : maxA ≤ i
      · rw [if_pos h1] at h
        cases h
        omega
      · rw [if_neg h1] at h
        by_cases h2 : st.remaining.isEmpty
        · rw [h2] at h
          simp at h
          subst h
          omega
        · rw [eq_false_of_ne_true h2] at h
          simp only [Bool.false_eq_true, if_false, Option.bind_eq_bind] at h
          rcases h3 : runRound scrape i st with _ | st1
          · rw [h3] at h
            simp at h
          · rw [h3] at h
            simp only [Option.some_bind] at h
            have hrnd : st1.rounds = st.rounds + 1 := by
              rw [runRound] at h3
              simp only [Option.bind_eq_bind] at h3
              rcases h4 : roundResults scrape i st.remaining with _ | rs1
              · rw [h4] at h3
                simp at h3
              · rw [h4] at h3
                simp only [Option.some_bind] at h3
                rcases h5 : ((rs1.filter fun r => isFailedRec r).filter
                    fun r => !errHas404 r).mapM (fun r => getK r "url")
                    with _ | us2
                · rw [h5] at h3
                  simp at h3
                · rw [h5] at h3
                  simp only [Option.some_bind, Option.some.injEq] at h3
                  rw [← h3]
            have := retryLoop_rounds_le scrape maxA m (i + 1) st1 st2
              (by omega) h
            omega

/-- **C7.** For every non-empty URL list and `max_attempts ≥ 1`, under the
scraper collaborator contract (one result per URL, each carrying its `url`,
with `metadata` absent or a dict): the retry loop never executes more than
`max_attempts` rounds and returns (rather than raising) `successful +
failed`; and if every round produces only non-404 errors, it stops after
exactly `max_attempts` rounds with `successful` empty and `failed` of the
size of the original URL list, every entry an error record whose (last)
error does not contain "404". -/
theorem claim_C7 (scrape : Nat → List Value → List Obj) (urls : List Value)
    (maxA : Nat) (hne : urls ≠ []) (hmax : 1 ≤ maxA)
    (Hlen : ∀ j us, (scrape j us).length = us.length)
    (Herr : ∀ j us r, r ∈ scrape j us →
      ∃ e, getK r "error" = some e ∧ has404 e = false)
    (Hurl : ∀ j us r, r ∈ scrape j us → (getK r "url").isSome = true)
    (Hmd : ∀ j us r, r ∈ scrape j us →
      ∀ v, getK r "metadata" = some v → v.isDict = true) :
    (∃ res, runScrapper scrape urls maxA = some (res, maxA) ∧
      res.length = urls.length ∧ ∀ r ∈ res, isFailedRec r = true) ∧
    (∀ (scrape2 : Nat → List Value → List Obj) (res : List Obj) (n : Nat),
      runScrapper scrape2 urls maxA = some (res, n) → n ≤ maxA) := by
  constructor
  · obtain ⟨st2, h1, h2, h3, h4, h5⟩ := retryLoop_allfail scrape maxA
      urls.length (List.length_pos.mpr hne) Hlen Herr Hurl Hmd maxA 0
      ⟨urls, [], [], 0⟩ (by omega) (by omega) rfl rfl rfl
    refine ⟨st2.successful ++ st2.failed, ?_, ?_, ?_⟩
    · rw [runScrapper, h1]
      simp [h2]
    · simp [h3, h4]
    · intro r hr
      rw [h3] at hr
      simp only [List.nil_append] at hr
      exact h5 r hr
  · intro scrape2 res n h
    rw [runScrapper] at h
    rcases h1 : retryLoop scrape2 maxA 0 ⟨urls, [], [], 0⟩ with _ | st2
    · rw [h1] at h
      simp at h
    · rw [h1] at h
      simp only [Option.some.injEq, Prod.mk.injEq] at h
      obtain ⟨-, hn⟩ := h
      have hb := retryLoop_rounds_le scrape2 maxA maxA 0 ⟨urls, [], [], 0⟩ st2
        (by omega) h1
      have h0 : (⟨urls, [], [], 0⟩ : RoundState).rounds = 0 := rfl
      rw [h0] at hb
      omega

/-- Witness for C7: a single URL and a scraper that always reports
`ERR_CONNECTION_RESET`. -/
theorem claim_C7_witness :
    (∃ res, runScrapper
        (fun _ us => us.map fun u =>
          [("url", u), ("error", Value.str "ERR_CONNECTION_RESET")])
        [Value.str "u1"] 2 = some (res, 2) ∧
      res.length = ([Value.str "u1"] : List Value).length ∧
      ∀ r ∈ res, isFailedRec r = true) ∧
    (∀ (scrape2 : Nat → List Value → List Obj) (res : List Obj) (n : Nat),
      runScrapper scrape2 [Value.str "u1"] 2 = some (res, n) → n ≤ 2) := by
  refine claim_C7 _ _ 2 (by simp) (by decide) (by simp) ?_ ?_ ?_
  · intro j us r hr
    simp only [List.mem_map] at hr
    obtain ⟨u, _, hu⟩ := hr
    subst hu
    refine ⟨Value.str "ERR_CONNECTION_RESET", rfl, ?_⟩
    rw [has404]
    decide
  · intro j us r hr
    simp only [List.mem_map] at hr
    obtain ⟨u, _, hu⟩ := hr
    subst hu
    rfl
  · intro j us r hr
    simp only [List.mem_map] at hr
    obtain ⟨u, _, hu⟩ := hr
    subst hu
    intro v hv
    simp [getK] at hv

/-! ### Claim C6: merging into an empty target -/

/-- **C6 (counterexample).** The claim requires every inserted record to get
`publication_date == last_active == updated_date`; but for a source item
whose metadata has no `updated_date` key, `merge(target=[], source=S)` stores
the item as-is — no `publication_date` is set at all. -/
theorem claim_C6_counterexample :
    mergeData [] [.dict [("offer_id", .str "1"), ("metadata", .dict [])]]
      = some [.dict [("offer_id", .str "1"), ("metadata", .dict [])]]
    ∧ metaKey (.dict [("offer_id", .str "1"), ("metadata", .dict [])])
        "publication_date" = none := by
  constructor
  · simp [mergeData, buildById, buildStep, sourceFold, sourceStep, findId,
      setId, hashable, newOffer, getK, setK, delK]
  · rfl

/-- **C6 (amended).** For every source list of well-formed dict items with
pairwise-distinct hashable `offer_id`s whose metadata is a dict carrying an
`updated_date` key, `merge(target=[], source=S)` inserts exactly one record
per item in order — so the result's `offer_id`s are exactly those of `S` —
and every inserted record has `publication_date == last_active ==` the source
record's `updated_date`, with the `updated_date` key absent from the stored
metadata. -/
theorem claim_C6 (S : List Value)
    (hS : ∀ item ∈ S, ∃ itf id, item = .dict itf ∧ wfV item = true ∧
      getK itf "offer_id" = some id ∧ hashable id = true ∧
      ∃ mf ud, getK itf "metadata" = some (.dict mf) ∧
        getK mf "updated_date" = some ud)
    (hdist : List.Pairwise (fun a b => ∀ ia ib, offerId a = some ia →
      offerId b = some ib → pyKeyEq ia ib = false) S) :
    mergeData [] S = some (S.map insertedListing) ∧
    (S.map insertedListing).map offerId = S.map offerId ∧
    (∀ item ∈ S, ∀ itf mf ud, item = .dict itf →
      getK itf "metadata" = some (.dict mf) →
      getK mf "updated_date" = some ud →
      metaKey (insertedListing item) "publication_date" = some ud ∧
      metaKey (insertedListing item) "last_active" = some ud ∧
      metaKey (insertedListing item) "updated_date" = none) := by
  have hfold := sourceFold_insert S []
    (fun item hit => by
      obtain ⟨itf, id, h1, _, h3, h4, _⟩ := hS item hit
      exact ⟨itf, id, h1, h3, h4⟩)
    (fun item hit itf id h1 h2 p hp => by simp at hp)
    hdist
  refine ⟨?_, ?_, ?_⟩
  · rw [mergeData]
    simp only [Option.bind_eq_bind]
    rw [buildById]
    simp only [Option.some_bind]
    rw [hfold]
    simp only [List.nil_append, Option.some_bind, Option.some.injEq]
    rw [List.map_map]
    refine List.map_congr_left ?_
    intro item hit
    obtain ⟨itf, id, h1, _, h3, _, _⟩ := hS item hit
    subst h1
    rfl
  · rw [List.map_map]
    refine List.map_congr_left ?_
    intro item hit
    obtain ⟨itf, id, h1, _, h3, h4, _⟩ := hS item hit
    subst h1
    show offerId (.dict (newOffer itf)) = offerId (.dict itf)
    rw [offerId, offerId, newOffer_frame itf _ (by decide)]
  · intro item hit itf mf ud h1 h2 h3
    obtain ⟨itf2, id, h4, hwf, h6, h7, _⟩ := hS item hit
    subst h1
    rw [Value.dict.injEq] at h4
    subst h4
    have hwfF : wfF itf = true := by
      rw [wfV] at hwf
      exact hwf
    show _ ∧ _ ∧ _
    exact newOffer_meta itf mf ud h2 h3 hwfF

/-- Witness for C6 at a concrete two-item source list. -/
theorem claim_C6_witness :
    mergeData []
      [.dict [("offer_id", .str "1"),
              ("metadata", .dict [("updated_date", .str "2024-01-01")])],
       .dict [("offer_id", .str "2"),
              ("metadata", .dict [("updated_date", .str "2024-01-02")])]]
    = some ([.dict [("offer_id", .str "1"),
              ("metadata", .dict [("updated_date", .str "2024-01-01")])],
             .dict [("offer_id", .str "2"),
              ("metadata", .dict [("updated_date", .str "2024-01-02")])]].map
        insertedListing)
    ∧ (([.dict [("offer_id", .str "1"),
              ("metadata", .dict [("updated_date", .str "2024-01-01")])],
         .dict [("offer_id", .str "2"),
              ("metadata", .dict [("updated_date", .str "2024-01-02")])]].map
        insertedListing).map offerId
      = [.dict [("offer_id", .str "1"),
              ("metadata", .dict [("updated_date", .str "2024-01-01")])],
         .dict [("offer_id", .str "2"),
              ("metadata", .dict [("updated_date", .str "2024-01-02")])]].map
        offerId)
    ∧ (∀ item ∈ [.dict [("offer_id", .str "1"),
              ("metadata", .dict [("updated_date", .str "2024-01-01")])],
         .dict [("offer_id", .str "2"),
              ("metadata", .dict [("updated_date", .str "2024-01-02")])]],
        ∀ itf mf ud, item = Value.dict itf →
        getK itf "metadata" = some (.dict mf) →
        getK mf "updated_date" = some ud →
        metaKey (insertedListing item) "publication_date" = some ud ∧
        metaKey (insertedListing item) "last_active" = some ud ∧
        metaKey (insertedListing item) "updated_date" = none) := by
  refine claim_C6 _ ?_ ?_
  · intro item hit
    rcases List.mem_cons.mp hit with h | h
    · subst h
      refine ⟨_, _, rfl, ?_, rfl, rfl, _, _, rfl, rfl⟩
      simp [wfV, wfF, wfL, getK]
    · simp only [List.mem_singleton] at h
      subst h
      refine ⟨_, _, rfl, ?_, rfl, rfl, _, _, rfl, rfl⟩
      simp [wfV, wfF, wfL, getK]
  · refine List.pairwise_cons.mpr ⟨?_, List.pairwise_singleton _ _⟩
    intro b hb ia ib hia hib
    simp only [List.mem_singleton] at hb
    subst hb
    rw [offerId] at hia hib
    simp only [getK, reduceIte, Option.some.injEq] at hia hib
    rw [← hia, ← hib]
    rfl

/-! ### Price-history monotonicity through the whole merge (claim C3) -/

theorem buildStep_fresh (m m1 : IdMap) (t : Value) (id : Value)
    (h : buildStep m t = some m1) (hm : ∀ p ∈ m, pyKeyEq p.1 id = false)
    (ht : ∀ tf idt, t = .dict tf → getK tf "offer_id" = some idt →
      pyKeyEq idt id = false) :
    ∀ p ∈ m1, pyKeyEq p.1 id = false := by
  rcases t with _ | b2 | n2 | s2 | xs | tf
  · simp [buildStep] at h
  · simp [buildStep] at h
  · simp [buildStep] at h
  · simp [buildStep] at h
  · simp [buildStep] at h
  · rw [buildStep] at h
    split at h
    case _ idt hid =>
      split at h
      case _ hha =>
        cases h
        have hidt : pyKeyEq idt id = false := ht tf idt rfl hid
        intro p hp
        rcases hfi : findId m idt with _ | ef
        · rw [setId_of_findId_none m idt tf hfi] at hp
          rcases List.mem_append.mp hp with hp2 | hp2
          · exact hm p hp2
          · simp only [List.mem_singleton] at hp2
            rw [hp2]
            exact hidt
        · obtain ⟨ma, kk, mb, hmeq, _, _, hset⟩ :=
            setId_after_find m idt ef hfi
          rw [hset tf] at hp
          rcases List.mem_append.mp hp with hp2 | hp2
          · have hpm : p ∈ m := by
              rw [hmeq]
              exact List.mem_append.mpr (Or.inl hp2)
            exact hm p hpm
          · rcases List.mem_cons.mp hp2 with hp3 | hp3
            · have hkm : (kk, ef) ∈ m := by
                rw [hmeq]
                simp
              rw [hp3]
              exact hm (kk, ef) hkm
            · have hpm : p ∈ m := by
                rw [hmeq]
                refine List.mem_append.mpr (Or.inr ?_)
                exact List.mem_cons_of_mem _ hp3
              exact hm p hpm
      case _ => simp at h
    case _ => simp at h

theorem buildById_tracked : ∀ (ts : List Value) (m m2 : IdMap),
    buildById ts m = some m2 → List.Pairwise TDist ts →
    ∀ t ∈ ts, ∀ tf id, t = Value.dict tf → getK tf "offer_id" = some id →
    (∀ p ∈ m, pyKeyEq p.1 id = false) → (id, tf) ∈ m2
  | [], m, m2, h, _, t, ht, tf, id, htf, hid, hm => by simp at ht
  | t0 :: rest, m, m2, h, hpw, t, ht, tf, id, htf, hid, hm => by
      rw [buildById] at h
      simp only [Option.bind_eq_bind] at h
      rcases hb : buildStep m t0 with _ | m1
      · rw [hb] at h
        simp at h
      · rw [hb] at h
        simp only [Option.some_bind] at h
        rw [List.pairwise_cons] at hpw
        rcases List.mem_cons.mp ht with ht2 | ht2
        · subst ht2
          subst htf
          simp only [buildStep, hid] at hb
          rcases hha : hashable id
          · rw [hha] at hb
            simp at hb
          · rw [hha] at hb
            simp only [if_true, Option.some.injEq] at hb
            have hfi : findId m id = none := (findId_none m id).mpr hm
            have hmem : (id, tf) ∈ m1 := by
              rw [← hb, setId_of_findId_none m id tf hfi]
              simp
            refine buildById_preserves rest m1 m2 id tf h hmem ?_
            intro t2 ht2 tf2 idt ht2f hidt
            exact hpw.1 t2 ht2 tf tf2 id idt rfl ht2f hid hidt
        · refine buildById_tracked rest m1 m2 h hpw.2 t ht2 tf id htf hid ?_
          refine buildStep_fresh m m1 t0 id hb hm ?_
          intro tf0 idt ht0 hidt0
          exact hpw.1 t ht2 tf0 tf idt id ht0 htf hidt0 hid

theorem sourceStep_invs (m m1 : IdMap) (item : Value)
    (h : sourceStep m item = some m1)
    (hitem : ∀ itf, item = Value.dict itf →
      wfF itf = true ∧ getK itf "price_changes" = none)
    (hk : KeysOk m) (hf : FieldsOk m) :
    (KeysOk m1 ∧ FieldsOk m1) ∧
      ∀ id l, (id, l) ∈ m → ∃ l2, (id, l2) ∈ m1 ∧ pcLen l ≤ pcLen l2 := by
  rcases item with _ | b2 | n2 | s2 | xs | itf
  · simp [sourceStep] at h
  · simp [sourceStep] at h
  · simp [sourceStep] at h
  · rw [sourceStep] at h
    split at h
    · simp at h
    · cases h
      exact ⟨⟨hk, hf⟩, fun id l hl => ⟨l, hl, le_refl _⟩⟩
  · rw [sourceStep] at h
    split at h
    · simp at h
    · cases h
      exact ⟨⟨hk, hf⟩, fun id l hl => ⟨l, hl, le_refl _⟩⟩
  · rw [sourceStep] at h
    split at h
    case _ idS hidS =>
      split at h
      case _ hha =>
        split at h
        case _ ef hfi =>
          simp only [Option.bind_eq_bind] at h
          rcases hd : deepMerge ef itf false with _ | r
          · rw [hd] at h
            simp at h
          · rw [hd] at h
            simp only [Option.some_bind, Option.some.injEq] at h
            obtain ⟨hw, hpc⟩ := hitem itf rfl
            obtain ⟨ma, k0, mb, hmeq, hma, hk0, hset⟩ :=
              setId_after_find m idS ef hfi
            rw [hset r] at h
            subst h
            have hkm : (k0, ef) ∈ m := by
              rw [hmeq]
              simp
            obtain ⟨fid0, hfid0, hfk0, hhk0⟩ := hf (k0, ef) hkm
            have hkeys : (ma ++ (k0, r) :: mb).map Prod.fst =
                m.map Prod.fst := by
              rw [hmeq]
              simp
            refine ⟨⟨?_, ?_⟩, ?_⟩
            · rw [KeysOk, hkeys]
              exact hk
            · intro p hp
              rcases List.mem_append.mp hp with hp2 | hp2
              · have hpm : p ∈ m := by
                  rw [hmeq]
                  exact List.mem_append.mpr (Or.inl hp2)
                exact hf p hpm
              · rcases List.mem_cons.mp hp2 with hp3 | hp3
                · rw [hp3]
                  have hoid := deepMerge_offerId ef itf false r hd idS hidS
                    hha hw
                  rcases hoid with hoid | ⟨hnull, hoid⟩
                  · exact ⟨idS, hoid, pyKeyEq_symm k0 idS hk0, hhk0⟩
                  · rw [hfid0] at hoid
                    exact ⟨fid0, hoid, hfk0, hhk0⟩
                · have hpm : p ∈ m := by
                    rw [hmeq]
                    refine List.mem_append.mpr (Or.inr ?_)
                    exact List.mem_cons_of_mem _ hp3
                  exact hf p hpm
            · intro id l hl
              rw [hmeq] at hl
              rcases List.mem_append.mp hl with hl2 | hl2
              · exact ⟨l, List.mem_append.mpr (Or.inl hl2), le_refl _⟩
              · rcases List.mem_cons.mp hl2 with hl3 | hl3
                · rw [Prod.mk.injEq] at hl3
                  obtain ⟨hidk, hlef⟩ := hl3
                  refine ⟨r, ?_, ?_⟩
                  · rw [hidk]
                    exact List.mem_append.mpr
                      (Or.inr (List.mem_cons_self _ _))
                  · rw [hlef]
                    exact deepMerge_pcLen ef itf false r hd hpc
                · refine ⟨l, ?_, le_refl _⟩
                  refine List.mem_append.mpr (Or.inr ?_)
                  exact List.mem_cons_of_mem _ hl3
        case _ hfi =>
          cases h
          have hfresh := (findId_none m idS).mp hfi
          refine ⟨⟨?_, ?_⟩, ?_⟩
          · rw [KeysOk, List.map_append, List.pairwise_append]
            refine ⟨hk, by simp, ?_⟩
            intro a ha b hb
            simp only [List.map_cons, List.map_nil, List.mem_singleton] at hb
            subst hb
            obtain ⟨p, hp, hpa⟩ := List.mem_map.mp ha
            have hfp := hfresh p hp
            rw [hpa] at hfp
            exact hfp
          · intro p hp
            rcases List.mem_append.mp hp with hp2 | hp2
            · exact hf p hp2
            · simp only [List.mem_singleton] at hp2
              subst hp2
              refine ⟨idS, ?_, pyKeyEq_refl idS hha, hha⟩
              show getK (newOffer itf) "offer_id" = some idS
              rw [newOffer_frame itf "offer_id" (by decide)]
              exact hidS
          · intro id l hl
            exact ⟨l, List.mem_append.mpr (Or.inl hl), le_refl _⟩
      case _ => simp at h
    case _ =>
      cases h
      exact ⟨⟨hk, hf⟩, fun id l hl => ⟨l, hl, le_refl _⟩⟩

theorem sourceFold_invs : ∀ (src : List Value) (m m1 : IdMap),
    sourceFold m src = some m1 →
    (∀ item ∈ src, ∀ itf, item = Value.dict itf →
      wfF itf = true ∧ getK itf "price_changes" = none) →
    KeysOk m → FieldsOk m →
    (KeysOk m1 ∧ FieldsOk m1) ∧
      ∀ id l, (id, l) ∈ m → ∃ l2, (id, l2) ∈ m1 ∧ pcLen l ≤ pcLen l2
  | [], m, m1, h, _, hk, hf => by
      rw [sourceFold] at h
      cases h
      exact ⟨⟨hk, hf⟩, fun id l hl => ⟨l, hl, le_refl _⟩⟩
  | item :: rest, m, m1, h, hsrc, hk, hf => by
      rw [sourceFold] at h
      simp only [Option.bind_eq_bind] at h
      rcases hs : sourceStep m item with _ | m2
      · rw [hs] at h
        simp at h
      · rw [hs] at h
        simp only [Option.some_bind] at h
        obtain ⟨⟨hk2, hf2⟩, htr⟩ := sourceStep_invs m m2 item hs
          (hsrc item (List.mem_cons_self _ _)) hk hf
        obtain ⟨⟨hk1, hf1⟩, htr2⟩ := sourceFold_invs rest m2 m1 h
          (fun i hi => hsrc i (List.mem_cons_of_mem _ hi)) hk2 hf2
        refine ⟨⟨hk1, hf1⟩, ?_⟩
        intro id l hl
        obtain ⟨l2, hl2, hle2⟩ := htr id l hl
        obtain ⟨l3, hl3, hle3⟩ := htr2 id l2 hl2
        exact ⟨l3, hl3, le_trans hle2 hle3⟩

theorem lookup_of_invs : ∀ (m : IdMap) (id : Value) (l : Obj),
    (id, l) ∈ m → KeysOk m → FieldsOk m → hashable id = true →
    lookupListing (m.map fun p => Value.dict p.2) id = some (.dict l)
  | [], id, l, hl, _, _, _ => by simp at hl
  | (k0, l0) :: rest, id, l, hl, hk, hf, hha => by
      obtain ⟨fid0, hfid0, hfk0, hhk0⟩ := hf (k0, l0) (List.mem_cons_self _ _)
      have ho : offerId (Value.dict l0) = some fid0 := hfid0
      simp only [List.map_cons, lookupListing, ho]
      rcases List.mem_cons.mp hl with hl2 | hl2
      · rw [Prod.mk.injEq] at hl2
        obtain ⟨hidk, hll⟩ := hl2
        have ht : pyKeyEq fid0 id = true := by
          rw [hidk]
          exact hfk0
        rw [if_pos ht, hll]
      · rw [KeysOk, List.map_cons, List.pairwise_cons] at hk
        have hkid : pyKeyEq k0 id = false := by
          refine hk.1 id ?_
          exact List.mem_map.mpr ⟨(id, l), hl2, rfl⟩
        have hfalse : pyKeyEq fid0 id = false := by
          rcases hq : pyKeyEq fid0 id
          · rfl
          · have h1 : pyKeyEq k0 fid0 = true := pyKeyEq_symm fid0 k0 hfk0
            have h2 : pyKeyEq k0 id = true := pyKeyEq_trans k0 fid0 id h1 hq
            rw [h2] at hkid
            cases hkid
        have hnc : ¬ (pyKeyEq fid0 id = true) := by simp [hfalse]
        rw [if_neg hnc]
        refine lookup_of_invs rest id l hl2 hk.2 ?_ hha
        intro p hp
        exact hf p (List.mem_cons_of_mem _ hp)

/-- **C3** is refuted as stated: a source record carrying an explicit
    (here empty) top-level `price_changes` list plainly overwrites the
    target listing's history, shrinking it from one entry to zero. -/
theorem claim_C3_counterexample :
    mergeData
        [Value.dict [("offer_id", Value.str "1"),
          ("price_changes", Value.list [Value.str "x"])]]
        [Value.dict [("offer_id", Value.str "1"),
          ("price_changes", Value.list [])]] =
      some [Value.dict [("offer_id", Value.str "1"),
        ("price_changes", Value.list [])]] ∧
    lookupListing [Value.dict [("offer_id", Value.str "1"),
        ("price_changes", Value.list [])]] (Value.str "1") =
      some (Value.dict [("offer_id", Value.str "1"),
        ("price_changes", Value.list [])]) ∧
    pcLenV (Value.dict [("offer_id", Value.str "1"),
      ("price_changes", Value.list [])]) <
      pcLenV (Value.dict [("offer_id", Value.str "1"),
        ("price_changes", Value.list [Value.str "x"])]) := by
  refine ⟨?_, rfl, by decide⟩
  simp [mergeData, buildById, buildStep, sourceFold, sourceStep, findId,
    setId, hashable, deepMerge, mergeLoop, mergeStep, plainFallback,
    plainStep, metaLoop, metaStep, specialPhase, ensureMeta, setMeta,
    specialCases, priceCase, updDate, descUnpubFlag, getK, setK, delK,
    newOffer, isTrueV, isFalseV, Value.truthy, Value.isNumeric,
    Value.toInt, Value.pyStr, Value.isNull, pyKeyEq]

/-- **C3** (corrected): when the target listings carry pairwise-distinct
    offer ids and every source item that is a dict is well-formed and has no
    top-level `price_changes` key, the `price_changes` history of every
    pre-merge target listing is found in the merged output (under its
    offer id) at least as long as before: merging only ever appends price
    changes. Without the no-top-level-`price_changes` restriction the claim
    fails (`claim_C3_counterexample`). -/
theorem claim_C3 (target source r : List Value)
    (hr : mergeData target source = some r)
    (hdist : List.Pairwise TDist target)
    (hsrc : ∀ item ∈ source, ∀ itf, item = Value.dict itf →
      wfF itf = true ∧ getK itf "price_changes" = none)
    (t : Value) (ht : t ∈ target) (tf : Obj) (id : Value)
    (htf : t = Value.dict tf) (hid : getK tf "offer_id" = some id) :
    ∃ l, lookupListing r id = some l ∧ pcLen tf ≤ pcLenV l := by
  rw [mergeData] at hr
  simp only [Option.bind_eq_bind] at hr
  rcases hb : buildById target [] with _ | m0
  · rw [hb] at hr
    simp at hr
  · rw [hb] at hr
    simp only [Option.some_bind] at hr
    rcases hs : sourceFold m0 source with _ | m1
    · rw [hs] at hr
      simp at hr
    · rw [hs] at hr
      simp only [Option.some_bind, Option.some.injEq] at hr
      subst hr
      obtain ⟨tf2, id2, htf2, hid2, hha2⟩ := buildById_ok target [] m0 hb t ht
      rw [htf] at htf2
      rw [Value.dict.injEq] at htf2
      subst htf2
      rw [hid] at hid2
      rw [Option.some.injEq] at hid2
      subst hid2
      have hk0 : KeysOk ([] : IdMap) := List.Pairwise.nil
      have hf0 : FieldsOk ([] : IdMap) := by
        intro p hp
        simp at hp
      obtain ⟨hkm0, hfm0⟩ := buildById_invs target [] m0 hb hk0 hf0
      have htr0 : (id, tf) ∈ m0 := by
        refine buildById_tracked target [] m0 hb hdist t ht tf id htf hid ?_
        intro p hp
        simp at hp
      obtain ⟨⟨hkm1, hfm1⟩, htr⟩ :=
        sourceFold_invs source m0 m1 hs hsrc hkm0 hfm0
      obtain ⟨l2, hl2, hle⟩ := htr id tf htr0
      have hlook := lookup_of_invs m1 id l2 hl2 hkm1 hfm1 hha2
      exact ⟨Value.dict l2, hlook, hle⟩

/-- Witness for C3 at a concrete input (one target listing with one recorded
    price change, empty source). -/
theorem claim_C3_witness :
    ∃ l, lookupListing [Value.dict [("offer_id", Value.str "1"),
          ("price_changes", Value.list [Value.str "x"])]]
        (Value.str "1") = some l ∧
      pcLen [("offer_id", Value.str "1"),
          ("price_changes", Value.list [Value.str "x"])] ≤ pcLenV l :=
  claim_C3
    [Value.dict [("offer_id", Value.str "1"),
      ("price_changes", Value.list [Value.str "x"])]]
    []
    [Value.dict [("offer_id", Value.str "1"),
      ("price_changes", Value.list [Value.str "x"])]]
    rfl
    (List.pairwise_singleton _ _)
    (by
      intro item hi
      simp at hi)
    (Value.dict [("offer_id", Value.str "1"),
      ("price_changes", Value.list [Value.str "x"])])
    (List.mem_singleton.mpr rfl)
    [("offer_id", Value.str "1"),
      ("price_changes", Value.list [Value.str "x"])]
    (Value.str "1")
    rfl
    rfl

/-! ### Idempotence groundwork (claim C2): stability basics -/

theorem selfF_cons (k : String) (v : Value) (rest : Obj)
    (h : selfF ((k, v) :: rest) = true) :
    k ≠ "metadata" ∧ getK rest k = none ∧ selfV v = true ∧
      selfF rest = true := by
  rw [selfF] at h
  simp only [Bool.and_eq_true] at h
  obtain ⟨⟨⟨h1, h2⟩, h3⟩, h4⟩ := h
  refine ⟨?_, ?_, h3, h4⟩
  · intro he
    subst he
    simp at h1
  · rcases hg : getK rest k with _ | w
    · rfl
    · rw [hg] at h2
      simp at h2

theorem topF_cons (k : String) (v : Value) (rest : Obj)
    (h : topF ((k, v) :: rest) = true) :
    getK rest k = none ∧
      (if k = "metadata" then metaOkV v else selfV v) = true ∧
      topF rest = true := by
  rw [topF] at h
  simp only [Bool.and_eq_true] at h
  obtain ⟨⟨h2, h3⟩, h4⟩ := h
  refine ⟨?_, h3, h4⟩
  rcases hg : getK rest k with _ | w
  · rfl
  · rw [hg] at h2
    simp at h2

theorem getK_isSome_of_mem : ∀ (fs : Obj) (k : String) (v : Value),
    (k, v) ∈ fs → (getK fs k).isSome = true
  | [], k, v, h => by simp at h
  | (k2, v2) :: rest, k, v, h => by
      rw [getK]
      by_cases he : k2 = k
      · rw [if_pos he]
        rfl
      · rw [if_neg he]
        rcases List.mem_cons.mp h with h2 | h2
        · rw [Prod.mk.injEq] at h2
          exact absurd h2.1.symm he
        · exact getK_isSome_of_mem rest k v h2

theorem getK_of_mem_selfF : ∀ (fs : Obj) (k : String) (v : Value),
    selfF fs = true → (k, v) ∈ fs → getK fs k = some v
  | [], k, v, _, h => by simp at h
  | (k2, v2) :: rest, k, v, hs, h => by
      obtain ⟨_, hnd, _, hrest⟩ := selfF_cons k2 v2 rest hs
      rcases List.mem_cons.mp h with h2 | h2
      · rw [Prod.mk.injEq] at h2
        obtain ⟨hk, hv⟩ := h2
        subst hk
        subst hv
        rw [getK, if_pos rfl]
      · by_cases he : k2 = k
        · subst he
          have hsome := getK_isSome_of_mem rest k2 v h2
          rw [hnd] at hsome
          cases hsome
        · rw [getK, if_neg he]
          exact getK_of_mem_selfF rest k v hrest h2

theorem getK_of_mem_topF : ∀ (fs : Obj) (k : String) (v : Value),
    topF fs = true → (k, v) ∈ fs → getK fs k = some v
  | [], k, v, _, h => by simp at h
  | (k2, v2) :: rest, k, v, hs, h => by
      obtain ⟨hnd, _, hrest⟩ := topF_cons k2 v2 rest hs
      rcases List.mem_cons.mp h with h2 | h2
      · rw [Prod.mk.injEq] at h2
        obtain ⟨hk, hv⟩ := h2
        subst hk
        subst hv
        rw [getK, if_pos rfl]
      · by_cases he : k2 = k
        · subst he
          have hsome := getK_isSome_of_mem rest k2 v h2
          rw [hnd] at hsome
          cases hsome
        · rw [getK, if_neg he]
          exact getK_of_mem_topF rest k v hrest h2

theorem mem_of_getK : ∀ (fs : Obj) (k : String) (v : Value),
    getK fs k = some v → (k, v) ∈ fs
  | [], k, v, h => by simp [getK] at h
  | (k2, v2) :: rest, k, v, h => by
      rw [getK] at h
      by_cases he : k2 = k
      · rw [if_pos he] at h
        rw [Option.some.injEq] at h
        subst he
        subst h
        exact List.mem_cons_self _ _
      · rw [if_neg he] at h
        exact List.mem_cons_of_mem _ (mem_of_getK rest k v h)

theorem selfF_no_meta : ∀ (fs : Obj), selfF fs = true →
    getK fs "metadata" = none
  | [], _ => rfl
  | (k, v) :: rest, h => by
      obtain ⟨hk, _, _, hrest⟩ := selfF_cons k v rest h
      rw [getK, if_neg hk]
      exact selfF_no_meta rest hrest

theorem updDate_none_of_selfF (nf : Obj) (h : selfF nf = true) :
    updDate nf = none := by
  rw [updDate, selfF_no_meta nf h]

theorem descUnpubFlag_selfF (nf : Obj) (h : selfF nf = true) :
    descUnpubFlag nf = some false := by
  rw [descUnpubFlag, selfF_no_meta nf h]

theorem specialPhase_id_of_updNone (ef nf : Obj) (b : Bool)
    (h : updDate nf = none) : specialPhase ef nf b = some ef := by
  rw [specialPhase, h]

theorem specialPhase_id_of_falsy (ef nf : Obj) (b : Bool) (ud : Value)
    (h : updDate nf = some ud) (h2 : ud.truthy = false) :
    specialPhase ef nf b = some ef := by
  rw [specialPhase, h]
  simp [h2]

theorem pyKeyEq_congr (a b c : Value) (h : pyKeyEq a b = true) :
    pyKeyEq a c = pyKeyEq b c := by
  rcases hbc : pyKeyEq b c with _ | _
  · rcases hac : pyKeyEq a c with _ | _
    · rfl
    · have := pyKeyEq_trans b a c (pyKeyEq_symm a b h) hac
      rw [this] at hbc
      cases hbc
  · exact pyKeyEq_trans a b c h hbc

theorem pyKeyEq_hashable_left (a b : Value) (h : pyKeyEq a b = true) :
    hashable a = true := by
  rcases a with _ | b2 | n2 | s2 | xs2 | fs2 <;>
    rcases b with _ | b3 | n3 | s3 | xs3 | fs3 <;>
    simp_all [pyKeyEq, hashable, Value.isNumeric]

theorem isNull_false_of_isNumeric (v : Value) (h : v.isNumeric = true) :
    v.isNull = false := by
  rcases v <;> simp_all [Value.isNumeric, Value.isNull]

/-! ### Re-merge step equations -/

theorem mergeStep_nondict (ef : Obj) (k : String) (v : Value)
    (df : Option Bool) (hnd : v.isDict = false) :
    mergeStep ef k v df = plainFallback ef k v df := by
  rcases v with _ | b2 | n2 | s2 | xs | mf
  · simp [mergeStep]
  · simp [mergeStep]
  · simp [mergeStep]
  · simp [mergeStep]
  · simp [mergeStep]
  · simp [Value.isDict] at hnd

theorem mergeStep_dict_ne (ef : Obj) (k : String) (mf : Obj)
    (df : Option Bool) (hk : k ≠ "metadata") :
    mergeStep ef k (.dict mf) df = plainFallback ef k (.dict mf) df := by
  simp only [mergeStep]
  rw [if_neg hk]

theorem mergeStep_meta_eq (ef : Obj) (mf : Obj) (df : Option Bool) :
    mergeStep ef "metadata" (.dict mf) df = metaLoop (ensureMeta ef) mf := by
  simp [mergeStep]

theorem plainFallback_nondict (ef : Obj) (k : String) (v : Value)
    (df : Option Bool) (hnd : v.isDict = false) :
    plainFallback ef k v df = plainStep ef k v df := by
  rw [plainFallback.eq_def]
  split
  case _ a ekf vf hekf =>
    simp [Value.isDict] at hnd
  case _ => rfl

theorem plainFallback_dd (ef : Obj) (k : String) (vf : Obj)
    (df : Option Bool) (ekf : Obj) (hekf : getK ef k = some (.dict ekf)) :
    plainFallback ef k (.dict vf) df =
      (deepMerge ekf vf false).bind fun m => some (setK ef k (.dict m)) := by
  rw [plainFallback.eq_def, hekf]
  rfl

theorem plainFallback_nd (ef : Obj) (k : String) (vf : Obj)
    (df : Option Bool) (hekf : ∀ ekf, getK ef k ≠ some (Value.dict ekf)) :
    plainFallback ef k (.dict vf) df = plainStep ef k (.dict vf) df := by
  rw [plainFallback.eq_def]
  split
  case _ x v2 ekf vf2 h1 h2 =>
    exact absurd h1 (hekf ekf)
  case _ => rfl

theorem plainStep_fix (a a2 c : Obj) (k : String) (v : Value)
    (df : Option Bool) (h1 : plainStep a k v df = some a2)
    (hc : getK c k = getK a2 k) :
    plainStep c k v df = some c := by
  rw [plainStep.eq_def] at h1 ⊢
  by_cases ht : k = "timestamp"
  · rw [if_pos ht]
  · rw [if_neg ht] at h1 ⊢
    by_cases hn : v.isNull = true
    · rw [if_pos hn]
    · rw [if_neg hn] at h1 ⊢
      by_cases hd : k = "description"
      · rw [if_pos hd] at h1 ⊢
        rcases df with _ | b
        · cases h1
        · rcases b
          · have h2 : some (setK a k v) = some a2 := h1
            rw [Option.some.injEq] at h2
            subst h2
            have hcv : getK c k = some v := by rw [hc, getK_setK_self]
            show some (setK c k v) = some c
            rw [setK_self_of_getK c k v hcv]
          · rfl
      · rw [if_neg hd] at h1 ⊢
        rw [Option.some.injEq] at h1
        subst h1
        have hcv : getK c k = some v := by rw [hc, getK_setK_self]
        rw [setK_self_of_getK c k v hcv]

theorem plainStep_self (x : Obj) (k : String) (v : Value) (df : Option Bool)
    (hx : getK x k = some v) (hdf : df ≠ none) :
    plainStep x k v df = some x := by
  rw [plainStep.eq_def]
  by_cases ht : k = "timestamp"
  · rw [if_pos ht]
  · rw [if_neg ht]
    by_cases hn : v.isNull = true
    · rw [if_pos hn]
    · rw [if_neg hn]
      by_cases hd : k = "description"
      · rw [if_pos hd]
        rcases df with _ | b
        · exact absurd rfl hdf
        · rcases b
          · show some (setK x k v) = some x
            rw [setK_self_of_getK x k v hx]
          · rfl
      · rw [if_neg hd]
        rw [setK_self_of_getK x k v hx]

/-! ### The re-merge fixpoint: merging the same stable record a second
    time is the identity -/

theorem plainStep_skip_ts (ef : Obj) (k : String) (v : Value)
    (df : Option Bool) (ht : k = "timestamp") :
    plainStep ef k v df = some ef := by
  rw [plainStep.eq_def, if_pos ht]

theorem plainStep_desc_true (ef : Obj) (k : String) (v : Value)
    (ht : k ≠ "timestamp") (hn : v.isNull = false) (hd : k = "description") :
    plainStep ef k v (some true) = some ef := by
  rw [plainStep.eq_def, if_neg ht, hn]
  simp only [Bool.false_eq_true, if_false]
  rw [if_pos hd]

theorem stepFix_plain (v : Value) (a a2 c : Obj) (k : String)
    (df : Option Bool) (hvd : v.isDict = false)
    (h1 : mergeStep a k v df = some a2) (hc : getK c k = getK a2 k) :
    mergeStep c k v df = some c := by
  rw [mergeStep_nondict a k v df hvd, plainFallback_nondict a k v df hvd]
    at h1
  rw [mergeStep_nondict c k v df hvd, plainFallback_nondict c k v df hvd]
  exact plainStep_fix a a2 c k v df h1 hc

theorem stepSelf_plain (v : Value) (x : Obj) (k : String)
    (df : Option Bool) (hvd : v.isDict = false) (hx : getK x k = some v)
    (hdf : df ≠ none) : mergeStep x k v df = some x := by
  rw [mergeStep_nondict x k v df hvd, plainFallback_nondict x k v df hvd]
  exact plainStep_self x k v df hx hdf

mutual

theorem remergeLoop : ∀ (fs : Obj) (a c : Obj) (df : Option Bool),
    selfF fs = true → mergeLoop a fs df = some c → mergeLoop c fs df = some c
  | [], a, c, df, hs, h => by
      rw [mergeLoop] at h
      rw [Option.some.injEq] at h
      subst h
      rw [mergeLoop]
  | (k, v) :: rest, a, c, df, hs, h => by
      obtain ⟨hk, hnd, hv, hrest⟩ := selfF_cons k v rest hs
      rw [mergeLoop] at h
      simp only [Option.bind_eq_bind] at h
      rcases h1 : mergeStep a k v df with _ | a2
      · rw [h1] at h
        simp at h
      · rw [h1] at h
        simp only [Option.some_bind] at h
        have hc : getK c k = getK a2 k := mergeLoop_frame rest a2 df c h k hnd hk
        have h2 : mergeStep c k v df = some c :=
          stepFix v a a2 c k df (fun _ _ => hk) hv h1 hc
        have h3 : mergeLoop c rest df = some c :=
          remergeLoop rest a2 c df hrest h
        rw [mergeLoop]
        simp only [Option.bind_eq_bind, h2, Option.some_bind]
        exact h3
termination_by fs => (sizeOf fs, 0)

theorem selfLoop : ∀ (fs : Obj) (x : Obj) (df : Option Bool),
    selfF fs = true → (∀ p ∈ fs, getK x p.1 = some p.2) → df ≠ none →
    mergeLoop x fs df = some x
  | [], x, df, hs, hx, hdf => by rw [mergeLoop]
  | (k, v) :: rest, x, df, hs, hx, hdf => by
      obtain ⟨hk, hnd, hv, hrest⟩ := selfF_cons k v rest hs
      have h2 : mergeStep x k v df = some x :=
        stepSelf v x k df (fun _ _ => hk) hv
          (hx (k, v) (List.mem_cons_self _ _)) hdf
      have h3 : mergeLoop x rest df = some x :=
        selfLoop rest x df hrest (fun p hp => hx p (List.mem_cons_of_mem _ hp))
          hdf
      rw [mergeLoop]
      simp only [Option.bind_eq_bind, h2, Option.some_bind]
      exact h3
termination_by fs => (sizeOf fs, 0)

theorem stepFix : ∀ (v : Value) (a a2 c : Obj) (k : String)
    (df : Option Bool), (∀ mf, v = Value.dict mf → k ≠ "metadata") →
    selfV v = true → mergeStep a k v df = some a2 →
    getK c k = getK a2 k → mergeStep c k v df = some c
  | .null, a, a2, c, k, df, _, _, h1, hc => stepFix_plain _ a a2 c k df rfl h1 hc
  | .bool b2, a, a2, c, k, df, _, _, h1, hc =>
      stepFix_plain _ a a2 c k df rfl h1 hc
  | .int n2, a, a2, c, k, df, _, _, h1, hc =>
      stepFix_plain _ a a2 c k df rfl h1 hc
  | .str s2, a, a2, c, k, df, _, _, h1, hc =>
      stepFix_plain _ a a2 c k df rfl h1 hc
  | .list xs, a, a2, c, k, df, _, _, h1, hc =>
      stepFix_plain _ a a2 c k df rfl h1 hc
  | .dict vf, a, a2, c, k, df, hkm, hv, h1, hc => by
      have hk : k ≠ "metadata" := hkm vf rfl
      rw [selfV] at hv
      rw [mergeStep_dict_ne a k vf df hk] at h1
      rw [mergeStep_dict_ne c k vf df hk]
      by_cases hgd : ∃ ekf, getK a k = some (Value.dict ekf)
      · obtain ⟨ekf, hekf⟩ := hgd
        rw [plainFallback_dd a k vf df ekf hekf] at h1
        rcases hd : deepMerge ekf vf false with _ | d1
        · rw [hd] at h1
          simp at h1
        · rw [hd] at h1
          simp only [Option.some_bind] at h1
          rw [Option.some.injEq] at h1
          subst h1
          have hcd : getK c k = some (Value.dict d1) := by
            rw [hc, getK_setK_self]
          rw [plainFallback_dd c k vf df d1 hcd]
          rw [remergeDeep vf ekf d1 hv hd]
          simp only [Option.some_bind]
          rw [setK_self_of_getK c k _ hcd]
      · push_neg at hgd
        rw [plainFallback_nd a k vf df hgd] at h1
        exact pfNdFix vf a a2 c k df hv hgd h1 hc
termination_by v => (sizeOf v, 3)

theorem stepSelf : ∀ (v : Value) (x : Obj) (k : String) (df : Option Bool),
    (∀ mf, v = Value.dict mf → k ≠ "metadata") → selfV v = true →
    getK x k = some v → df ≠ none → mergeStep x k v df = some x
  | .null, x, k, df, _, _, hx, hdf => stepSelf_plain _ x k df rfl hx hdf
  | .bool b2, x, k, df, _, _, hx, hdf => stepSelf_plain _ x k df rfl hx hdf
  | .int n2, x, k, df, _, _, hx, hdf => stepSelf_plain _ x k df rfl hx hdf
  | .str s2, x, k, df, _, _, hx, hdf => stepSelf_plain _ x k df rfl hx hdf
  | .list xs, x, k, df, _, _, hx, hdf => stepSelf_plain _ x k df rfl hx hdf
  | .dict vf, x, k, df, hkm, hv, hx, hdf => by
      have hk : k ≠ "metadata" := hkm vf rfl
      rw [selfV] at hv
      rw [mergeStep_dict_ne x k vf df hk]
      rw [plainFallback_dd x k vf df vf hx]
      rw [selfDeep vf hv]
      simp only [Option.some_bind]
      rw [setK_self_of_getK x k _ hx]
termination_by v => (sizeOf v, 3)

theorem pfNdFix (vf : Obj) (a a2 c : Obj) (k : String) (df : Option Bool)
    (hv : selfF vf = true)
    (hga : ∀ ekf, getK a k ≠ some (Value.dict ekf))
    (h1 : plainStep a k (Value.dict vf) df = some a2)
    (hc : getK c k = getK a2 k) :
    plainFallback c k (Value.dict vf) df = some c := by
  rw [plainStep.eq_def] at h1
  by_cases ht : k = "timestamp"
  · rw [if_pos ht] at h1
    rw [Option.some.injEq] at h1
    subst h1
    have hcnd : ∀ ekf, getK c k ≠ some (Value.dict ekf) := by
      rw [hc]
      exact hga
    rw [plainFallback_nd c k vf df hcnd]
    exact plainStep_skip_ts c k (Value.dict vf) df ht
  · rw [if_neg ht] at h1
    have hnn : (Value.dict vf).isNull = false := rfl
    rw [hnn] at h1
    simp only [Bool.false_eq_true, if_false] at h1
    by_cases hdk : k = "description"
    · rw [if_pos hdk] at h1
      rcases df with _ | b
      · cases h1
      · rcases b
        · have h2 : some (setK a k (Value.dict vf)) = some a2 := h1
          rw [Option.some.injEq] at h2
          subst h2
          have hcd : getK c k = some (Value.dict vf) := by
            rw [hc, getK_setK_self]
          rw [plainFallback_dd c k vf (some false) vf hcd]
          rw [selfDeep vf hv]
          simp only [Option.some_bind]
          rw [setK_self_of_getK c k _ hcd]
        · have h2 : some a = some a2 := h1
          rw [Option.some.injEq] at h2
          subst h2
          have hcnd : ∀ ekf, getK c k ≠ some (Value.dict ekf) := by
            rw [hc]
            exact hga
          rw [plainFallback_nd c k vf (some true) hcnd]
          exact plainStep_desc_true c k (Value.dict vf) ht hnn hdk
    · rw [if_neg hdk] at h1
      rw [Option.some.injEq] at h1
      subst h1
      have hcd : getK c k = some (Value.dict vf) := by
        rw [hc, getK_setK_self]
      rw [plainFallback_dd c k vf df vf hcd]
      rw [selfDeep vf hv]
      simp only [Option.some_bind]
      rw [setK_self_of_getK c k _ hcd]

theorem remergeDeep (nf : Obj) (a c : Obj) (hs : selfF nf = true)
    (h : deepMerge a nf false = some c) : deepMerge c nf false = some c := by
  have hupd := updDate_none_of_selfF nf hs
  rw [deepMerge] at h ⊢
  simp only [Option.bind_eq_bind] at h ⊢
  rw [specialPhase_id_of_updNone a nf false hupd] at h
  rw [specialPhase_id_of_updNone c nf false hupd]
  simp only [Option.some_bind] at h ⊢
  exact remergeLoop nf a c (descUnpubFlag nf) hs h
termination_by (sizeOf nf, 1)

theorem selfDeep (nf : Obj) (hs : selfF nf = true) :
    deepMerge nf nf false = some nf := by
  have hupd := updDate_none_of_selfF nf hs
  rw [deepMerge]
  simp only [Option.bind_eq_bind]
  rw [specialPhase_id_of_updNone nf nf false hupd]
  simp only [Option.some_bind]
  refine selfLoop nf nf (descUnpubFlag nf) hs ?_ ?_
  · intro p hp
    exact getK_of_mem_selfF nf p.1 p.2 hs hp
  · rw [descUnpubFlag_selfF nf hs]
    intro hcon
    cases hcon
termination_by (sizeOf nf, 1)

end

/-! ### Metadata-loop characterization for re-merging -/

theorem ensureMeta_id_of_isSome (ef : Obj)
    (h : (getK ef "metadata").isSome = true) : ensureMeta ef = ef := by
  rw [ensureMeta, if_pos h]

theorem ensureMeta_isSome (ef : Obj) :
    (getK (ensureMeta ef) "metadata").isSome = true := by
  rw [ensureMeta]
  split
  case _ h => exact h
  case _ h => rw [getK_setK_self]; rfl

theorem mergeStep_meta_keep (ef : Obj) (k : String) (v : Value)
    (df : Option Bool) (ef1 : Obj) (hk : k ≠ "metadata")
    (h : mergeStep ef k v df = some ef1) :
    getK ef1 "metadata" = getK ef "metadata" := by
  rcases hvd : v.isDict with _ | _
  · rw [mergeStep_nondict ef k v df hvd] at h
    exact plainFallback_frame ef k v df ef1 h "metadata" (Ne.symm hk)
  · rcases v with _ | b2 | n2 | s2 | xs | vf
    · simp [Value.isDict] at hvd
    · simp [Value.isDict] at hvd
    · simp [Value.isDict] at hvd
    · simp [Value.isDict] at hvd
    · simp [Value.isDict] at hvd
    · rw [mergeStep_dict_ne ef k vf df hk] at h
      exact plainFallback_frame ef k (.dict vf) df ef1 h "metadata"
        (Ne.symm hk)

theorem mergeLoop_meta_keep : ∀ (fs : Obj) (ef : Obj) (df : Option Bool)
    (ef1 : Obj), getK fs "metadata" = none → mergeLoop ef fs df = some ef1 →
    getK ef1 "metadata" = getK ef "metadata"
  | [], ef, df, ef1, _, h => by
      rw [mergeLoop] at h
      rw [Option.some.injEq] at h
      subst h
      rfl
  | (k, v) :: rest, ef, df, ef1, hn, h => by
      obtain ⟨hk, hrest⟩ := getK_cons_none "metadata" k v rest hn
      rw [mergeLoop] at h
      simp only [Option.bind_eq_bind] at h
      rcases h1 : mergeStep ef k v df with _ | e2
      · rw [h1] at h
        simp at h
      · rw [h1] at h
        simp only [Option.some_bind] at h
        rw [mergeLoop_meta_keep rest e2 df ef1 hrest h]
        exact mergeStep_meta_keep ef k v df e2 hk h1

theorem metaStep_metaobj (ef : Obj) (mk : String) (mv : Value) (ef1 : Obj)
    (h : metaStep ef mk mv = some ef1) :
    ∃ emf ns, getK ef "metadata" = some (.dict emf) ∧
      ef1 = setK ef "metadata" (.dict (setK emf mk ns)) ∧
      ((∃ sub mvf, mv = Value.dict mvf ∧
          getK emf mk = some (Value.dict sub) ∧
          ∃ d, deepMerge sub mvf false = some d ∧ ns = Value.dict d) ∨
        ns = mv) := by
  rw [metaStep] at h
  split at h
  case _ emf hemf =>
    simp only [Option.bind_eq_bind] at h
    split at h
    case _ x v2 ekf vf heq =>
      rcases hd : deepMerge ekf vf false with _ | d
      · rw [hd] at h
        simp at h
      · rw [hd] at h
        have h2 : some (setK ef "metadata"
            (Value.dict (setK emf mk (Value.dict d)))) = some ef1 := h
        rw [Option.some.injEq] at h2
        exact ⟨emf, Value.dict d, hemf, h2.symm,
          Or.inl ⟨ekf, vf, rfl, heq, d, hd, rfl⟩⟩
    case _ mv2 x1 v1 hno =>
      simp only [Option.some_bind, Option.some.injEq] at h
      exact ⟨emf, mv2, hemf, h.symm, Or.inr rfl⟩
  case _ => simp at h

theorem metaLoop_metaobj_frame : ∀ (mfs : Obj) (ef ef1 : Obj) (k2 : String),
    metaLoop ef mfs = some ef1 → getK mfs k2 = none →
    ∀ xm, getK ef "metadata" = some (.dict xm) →
    ∃ m2, getK ef1 "metadata" = some (.dict m2) ∧ getK m2 k2 = getK xm k2
  | [], ef, ef1, k2, h, _, xm, hxm => by
      rw [metaLoop] at h
      rw [Option.some.injEq] at h
      subst h
      exact ⟨xm, hxm, rfl⟩
  | (mk, mv) :: rest, ef, ef1, k2, h, hn, xm, hxm => by
      obtain ⟨hmk, hrest⟩ := getK_cons_none k2 mk mv rest hn
      rw [metaLoop] at h
      split at h
      · exact metaLoop_metaobj_frame rest ef ef1 k2 h hrest xm hxm
      · simp only [Option.bind_eq_bind] at h
        rcases h1 : metaStep ef mk mv with _ | e2
        · rw [h1] at h
          simp at h
        · rw [h1] at h
          simp only [Option.some_bind] at h
          obtain ⟨emf, ns, hemf, he2, _⟩ := metaStep_metaobj ef mk mv e2 h1
          rw [hxm] at hemf
          rw [Option.some.injEq, Value.dict.injEq] at hemf
          subst hemf
          obtain ⟨m2, hm2, hk2⟩ := metaLoop_metaobj_frame rest e2 ef1 k2 h
            hrest (setK xm mk ns) (by rw [he2, getK_setK_self])
          refine ⟨m2, hm2, ?_⟩
          rw [hk2]
          exact getK_setK_ne xm mk k2 ns (Ne.symm hmk)

theorem metaLoop_isSome : ∀ (mfs : Obj) (x x2 : Obj),
    metaLoop x mfs = some x2 → (getK x "metadata").isSome = true →
    (getK x2 "metadata").isSome = true
  | [], x, x2, h, hx => by
      rw [metaLoop] at h
      rw [Option.some.injEq] at h
      subst h
      exact hx
  | (mk, mv) :: rest, x, x2, h, hx => by
      rw [metaLoop] at h
      split at h
      · exact metaLoop_isSome rest x x2 h hx
      · simp only [Option.bind_eq_bind] at h
        rcases h1 : metaStep x mk mv with _ | x1
        · rw [h1] at h
          simp at h
        · rw [h1] at h
          simp only [Option.some_bind] at h
          obtain ⟨emf, ns, hemf, hx1, _⟩ := metaStep_metaobj x mk mv x1 h1
          refine metaLoop_isSome rest x1 x2 h ?_
          rw [hx1, getK_setK_self]
          rfl

theorem metaLoop_all_upd : ∀ (mfs : Obj) (ef : Obj),
    (∀ p ∈ mfs, p.1 = "updated_date") → metaLoop ef mfs = some ef
  | [], ef, _ => by rw [metaLoop]
  | (mk, mv) :: rest, ef, h => by
      rw [metaLoop, if_pos (h (mk, mv) (List.mem_cons_self _ _))]
      exact metaLoop_all_upd rest ef
        (fun p hp => h p (List.mem_cons_of_mem _ hp))

theorem MAbs_congr (xm m2 : Obj) (mk : String) (mv : Value)
    (he : getK m2 mk = getK xm mk) (h : MAbs xm mk mv) : MAbs m2 mk mv := by
  rcases mv with _ | b2 | n2 | s2 | xs | mvf
  · have h2 : getK xm mk = some Value.null := h
    show getK m2 mk = some Value.null
    rw [he, h2]
  · have h2 : getK xm mk = some (Value.bool b2) := h
    show getK m2 mk = some (Value.bool b2)
    rw [he, h2]
  · have h2 : getK xm mk = some (Value.int n2) := h
    show getK m2 mk = some (Value.int n2)
    rw [he, h2]
  · have h2 : getK xm mk = some (Value.str s2) := h
    show getK m2 mk = some (Value.str s2)
    rw [he, h2]
  · have h2 : getK xm mk = some (Value.list xs) := h
    show getK m2 mk = some (Value.list xs)
    rw [he, h2]
  · obtain ⟨sub, hsub, hfix⟩ := h
    exact ⟨sub, by rw [he]; exact hsub, hfix⟩

theorem metaLoop_establish : ∀ (mfs : Obj) (x x2 : Obj),
    selfF mfs = true → metaLoop x mfs = some x2 →
    ∀ mk mv, (mk, mv) ∈ mfs → mk ≠ "updated_date" →
    ∃ m2, getK x2 "metadata" = some (Value.dict m2) ∧ MAbs m2 mk mv
  | [], x, x2, _, h, mk, mv, hmem, _ => by simp at hmem
  | (mk0, mv0) :: rest, x, x2, hs, h, mk, mv, hmem, hne => by
      obtain ⟨_, hnd, hv0, hrest⟩ := selfF_cons mk0 mv0 rest hs
      rw [metaLoop] at h
      split at h
      case _ hupd =>
        rcases List.mem_cons.mp hmem with h2 | h2
        · rw [Prod.mk.injEq] at h2
          exact absurd (h2.1.trans hupd) hne
        · exact metaLoop_establish rest x x2 hrest h mk mv h2 hne
      case _ hupd =>
        simp only [Option.bind_eq_bind] at h
        rcases h1 : metaStep x mk0 mv0 with _ | x1
        · rw [h1] at h
          simp at h
        · rw [h1] at h
          simp only [Option.some_bind] at h
          rcases List.mem_cons.mp hmem with h2 | h2
          · rw [Prod.mk.injEq] at h2
            obtain ⟨hmk, hmv⟩ := h2
            subst hmk
            subst hmv
            obtain ⟨emf, ns, hemf, hx1, hns⟩ := metaStep_metaobj x mk mv x1 h1
            have hx1m : getK x1 "metadata" =
                some (Value.dict (setK emf mk ns)) := by
              rw [hx1, getK_setK_self]
            obtain ⟨m2, hm2, hk2⟩ := metaLoop_metaobj_frame rest x1 x2 mk h
              hnd (setK emf mk ns) hx1m
            refine ⟨m2, hm2, ?_⟩
            refine MAbs_congr (setK emf mk ns) m2 mk mv (by rw [hk2]) ?_
            rcases hns with ⟨sub, mvf, hmv2, hsub, d, hd, hns2⟩ | hns2
            · subst hmv2
              subst hns2
              refine ⟨d, by rw [getK_setK_self], ?_⟩
              rw [selfV] at hv0
              exact remergeDeep mvf sub d hv0 hd
            · subst hns2
              rcases ns with _ | b2 | n2 | s2 | xs | mvf
              · show getK (setK emf mk Value.null) mk = some Value.null
                rw [getK_setK_self]
              · show getK (setK emf mk (Value.bool b2)) mk =
                  some (Value.bool b2)
                rw [getK_setK_self]
              · show getK (setK emf mk (Value.int n2)) mk =
                  some (Value.int n2)
                rw [getK_setK_self]
              · show getK (setK emf mk (Value.str s2)) mk =
                  some (Value.str s2)
                rw [getK_setK_self]
              · show getK (setK emf mk (Value.list xs)) mk =
                  some (Value.list xs)
                rw [getK_setK_self]
              · rw [selfV] at hv0
                exact ⟨mvf, by rw [getK_setK_self], selfDeep mvf hv0⟩
          · exact metaLoop_establish rest x1 x2 hrest h mk mv h2 hne

theorem metaLoop_fix : ∀ (mfs : Obj) (x : Obj),
    (∀ mk mv, (mk, mv) ∈ mfs → mk ≠ "updated_date" →
      ∃ xm, getK x "metadata" = some (Value.dict xm) ∧ MAbs xm mk mv) →
    metaLoop x mfs = some x
  | [], x, _ => by rw [metaLoop]
  | (mk, mv) :: rest, x, h => by
      by_cases hupd : mk = "updated_date"
      · rw [metaLoop, if_pos hupd]
        exact metaLoop_fix rest x
          (fun mk2 mv2 hm hne => h mk2 mv2 (List.mem_cons_of_mem _ hm) hne)
      · obtain ⟨xm, hxm, habs⟩ := h mk mv (List.mem_cons_self _ _) hupd
        have hstep : metaStep x mk mv = some x := by
          rw [metaStep, hxm]
          simp only [Option.bind_eq_bind]
          rcases mv with _ | b2 | n2 | s2 | xs | mvf
          · have h2 : getK xm mk = some Value.null := habs
            rw [h2]
            simp only [Option.some_bind, Option.some.injEq]
            rw [setK_self_of_getK xm mk _ h2,
              setK_self_of_getK x "metadata" _ hxm]
          · have h2 : getK xm mk = some (Value.bool b2) := habs
            rw [h2]
            simp only [Option.some_bind, Option.some.injEq]
            rw [setK_self_of_getK xm mk _ h2,
              setK_self_of_getK x "metadata" _ hxm]
          · have h2 : getK xm mk = some (Value.int n2) := habs
            rw [h2]
            simp only [Option.some_bind, Option.some.injEq]
            rw [setK_self_of_getK xm mk _ h2,
              setK_self_of_getK x "metadata" _ hxm]
          · have h2 : getK xm mk = some (Value.str s2) := habs
            rw [h2]
            simp only [Option.some_bind, Option.some.injEq]
            rw [setK_self_of_getK xm mk _ h2,
              setK_self_of_getK x "metadata" _ hxm]
          · have h2 : getK xm mk = some (Value.list xs) := habs
            rw [h2]
            simp only [Option.some_bind, Option.some.injEq]
            rw [setK_self_of_getK xm mk _ h2,
              setK_self_of_getK x "metadata" _ hxm]
          · obtain ⟨sub, hsub, hfix⟩ := habs
            rw [hsub]
            simp only [hfix]
            show some (setK x "metadata"
              (Value.dict (setK xm mk (Value.dict sub)))) = some x
            rw [setK_self_of_getK xm mk _ hsub,
              setK_self_of_getK x "metadata" _ hxm]
        rw [metaLoop, if_neg hupd]
        simp only [Option.bind_eq_bind, hstep, Option.some_bind]
        exact metaLoop_fix rest x
          (fun mk2 mv2 hm hne => h mk2 mv2 (List.mem_cons_of_mem _ hm) hne)

/-! ### Top-level loop lemmas for re-merging -/

theorem topF_val : ∀ (fs : Obj) (k : String) (v : Value),
    topF fs = true → (k, v) ∈ fs →
    (if k = "metadata" then metaOkV v else selfV v) = true
  | [], k, v, _, hm => by simp at hm
  | (k0, v0) :: rest, k, v, hs, hm => by
      obtain ⟨hnd, hval, hrest⟩ := topF_cons k0 v0 rest hs
      rcases List.mem_cons.mp hm with h2 | h2
      · rw [Prod.mk.injEq] at h2
        obtain ⟨hk, hv⟩ := h2
        subst hk
        subst hv
        exact hval
      · exact topF_val rest k v hrest h2

theorem selfF_val : ∀ (fs : Obj) (k : String) (v : Value),
    selfF fs = true → (k, v) ∈ fs → selfV v = true
  | [], k, v, _, hm => by simp at hm
  | (k0, v0) :: rest, k, v, hs, hm => by
      obtain ⟨_, _, hval, hrest⟩ := selfF_cons k0 v0 rest hs
      rcases List.mem_cons.mp hm with h2 | h2
      · rw [Prod.mk.injEq] at h2
        obtain ⟨hk, hv⟩ := h2
        subst hv
        exact hval
      · exact selfF_val rest k v hrest h2

theorem isTrueV_char (o : Option Value) (h : isTrueV o = true) :
    o = some (Value.bool true) := by
  rcases o with _ | v
  · simp [isTrueV] at h
  · rcases v with _ | b | n | s2 | xs | fs
    · simp [isTrueV] at h
    · rcases b
      · simp [isTrueV] at h
      · rfl
    · simp [isTrueV] at h
    · simp [isTrueV] at h
    · simp [isTrueV] at h
    · simp [isTrueV] at h

theorem MAbs_nondict (m2 : Obj) (mk : String) (mv : Value)
    (hd : mv.isDict = false) (h : MAbs m2 mk mv) :
    getK m2 mk = some mv := by
  rcases mv with _ | b2 | n2 | s2 | xs | mvf
  · exact h
  · exact h
  · exact h
  · exact h
  · exact h
  · simp [Value.isDict] at hd

theorem metaOkV_dict (mf : Obj) (h : metaOkV (.dict mf) = true) :
    getK mf "last_active" = none ∧ getK mf "publication_date" = none ∧
      getK mf "unpublished_date" = none ∧ selfF mf = true := by
  rw [metaOkV] at h
  simp only [Bool.and_eq_true] at h
  obtain ⟨⟨⟨h1, h2⟩, h3⟩, h4⟩ := h
  refine ⟨?_, ?_, ?_, h4⟩
  · rcases hg : getK mf "last_active" with _ | w
    · rfl
    · rw [hg] at h1
      simp at h1
  · rcases hg : getK mf "publication_date" with _ | w
    · rfl
    · rw [hg] at h2
      simp at h2
  · rcases hg : getK mf "unpublished_date" with _ | w
    · rfl
    · rw [hg] at h3
      simp at h3

theorem mergeLoop_metaTrack : ∀ (fs : Obj) (cur l : Obj) (df : Option Bool)
    (m : Obj) (k2 : String),
    mergeLoop cur fs df = some l → getK cur "metadata" = some (.dict m) →
    (∀ p ∈ fs, p.1 = "metadata" →
      ∃ mfv, p.2 = Value.dict mfv ∧ getK mfv k2 = none) →
    ∃ ml, getK l "metadata" = some (.dict ml) ∧ getK ml k2 = getK m k2
  | [], cur, l, df, m, k2, h, hm, _ => by
      rw [mergeLoop] at h
      rw [Option.some.injEq] at h
      subst h
      exact ⟨m, hm, rfl⟩
  | (k, v) :: rest, cur, l, df, m, k2, h, hm, hmeta => by
      rw [mergeLoop] at h
      simp only [Option.bind_eq_bind] at h
      rcases h1 : mergeStep cur k v df with _ | c2
      · rw [h1] at h
        simp at h
      · rw [h1] at h
        simp only [Option.some_bind] at h
        by_cases hk : k = "metadata"
        · subst hk
          obtain ⟨mfv, hveq, hk2none⟩ :=
            hmeta ("metadata", v) (List.mem_cons_self _ _) rfl
          have hveq2 : v = Value.dict mfv := hveq
          rw [hveq2] at h1
          rw [mergeStep_meta_eq] at h1
          rw [ensureMeta_id_of_isSome cur (by rw [hm]; rfl)] at h1
          obtain ⟨m2, hm2, hk2eq⟩ :=
            metaLoop_metaobj_frame mfv cur c2 k2 h1 hk2none m hm
          obtain ⟨ml, hml, hmlk⟩ := mergeLoop_metaTrack rest c2 l df m2 k2 h
            hm2 (fun p hp hp1 => hmeta p (List.mem_cons_of_mem _ hp) hp1)
          exact ⟨ml, hml, by rw [hmlk, hk2eq]⟩
        · have hkeep := mergeStep_meta_keep cur k v df c2 hk h1
          rw [hm] at hkeep
          exact mergeLoop_metaTrack rest c2 l df m k2 h hkeep
            (fun p hp hp1 => hmeta p (List.mem_cons_of_mem _ hp) hp1)

theorem mergeLoop_metaWrite : ∀ (fs : Obj) (cur l : Obj) (df : Option Bool)
    (nmf : Obj) (mk : String) (mv : Value),
    mergeLoop cur fs df = some l →
    getK fs "metadata" = some (Value.dict nmf) → topF fs = true →
    selfF nmf = true → (mk, mv) ∈ nmf → mk ≠ "updated_date" →
    mv.isDict = false →
    ∃ ml, getK l "metadata" = some (Value.dict ml) ∧ getK ml mk = some mv
  | [], cur, l, df, nmf, mk, mv, _, hg, _, _, _, _, _ => by simp [getK] at hg
  | (k0, v0) :: rest, cur, l, df, nmf, mk, mv, h, hg, hs, hnmf, hmem, hne,
      hdict => by
      obtain ⟨hnd, hval, hrest⟩ := topF_cons k0 v0 rest hs
      rw [mergeLoop] at h
      simp only [Option.bind_eq_bind] at h
      rcases h1 : mergeStep cur k0 v0 df with _ | c2
      · rw [h1] at h
        simp at h
      · rw [h1] at h
        simp only [Option.some_bind] at h
        by_cases hk : k0 = "metadata"
        · subst hk
          rw [getK, if_pos rfl, Option.some.injEq] at hg
          subst hg
          rw [mergeStep_meta_eq] at h1
          obtain ⟨m2, hm2, habs⟩ := metaLoop_establish nmf (ensureMeta cur)
            c2 hnmf h1 mk mv hmem hne
          have hm2k := MAbs_nondict m2 mk mv hdict habs
          have hkeep := mergeLoop_meta_keep rest c2 df l hnd h
          rw [hm2] at hkeep
          exact ⟨m2, hkeep, hm2k⟩
        · rw [getK, if_neg hk] at hg
          exact mergeLoop_metaWrite rest c2 l df nmf mk mv h hg hrest hnmf
            hmem hne hdict

theorem mergeLoop_write : ∀ (fs : Obj) (a c : Obj) (df : Option Bool)
    (k : String) (v : Value),
    mergeLoop a fs df = some c → getK fs k = some v → topF fs = true →
    k ≠ "timestamp" → k ≠ "description" → k ≠ "metadata" →
    v.isDict = false → v.isNull = false → getK c k = some v
  | [], a, c, df, k, v, _, hg, _, _, _, _, _, _ => by simp [getK] at hg
  | (k0, v0) :: rest, a, c, df, k, v, h, hg, hs, hts, hdc, hmd, hvd, hvn => by
      obtain ⟨hnd, hval, hrest⟩ := topF_cons k0 v0 rest hs
      rw [mergeLoop] at h
      simp only [Option.bind_eq_bind] at h
      rcases h1 : mergeStep a k0 v0 df with _ | a2
      · rw [h1] at h
        simp at h
      · rw [h1] at h
        simp only [Option.some_bind] at h
        by_cases he : k0 = k
        · subst he
          rw [getK, if_pos rfl, Option.some.injEq] at hg
          subst hg
          rw [mergeStep_nondict a k0 v0 df hvd,
            plainFallback_nondict a k0 v0 df hvd] at h1
          rw [plainStep.eq_def, if_neg hts, hvn] at h1
          simp only [Bool.false_eq_true, if_false] at h1
          rw [if_neg hdc, Option.some.injEq] at h1
          subst h1
          have h2 := mergeLoop_frame rest (setK a k0 v0) df c h k0 hnd hmd
          rw [h2, getK_setK_self]
        · rw [getK, if_neg he] at hg
          exact mergeLoop_write rest a2 c df k v h hg hrest hts hdc hmd hvd
            hvn

theorem remergeLoopTop : ∀ (fs : Obj) (a c : Obj) (df : Option Bool),
    topF fs = true → mergeLoop a fs df = some c → mergeLoop c fs df = some c
  | [], a, c, df, _, h => by
      rw [mergeLoop] at h
      rw [Option.some.injEq] at h
      subst h
      rw [mergeLoop]
  | (k, v) :: rest, a, c, df, hs, h => by
      obtain ⟨hnd, hval, hrest⟩ := topF_cons k v rest hs
      rw [mergeLoop] at h
      simp only [Option.bind_eq_bind] at h
      rcases h1 : mergeStep a k v df with _ | a2
      · rw [h1] at h
        simp at h
      · rw [h1] at h
        simp only [Option.some_bind] at h
        by_cases hk : k = "metadata"
        · subst hk
          rw [if_pos rfl] at hval
          rcases v with _ | b2 | n2 | s2 | xs | mf
          · simp [metaOkV] at hval
          · simp [metaOkV] at hval
          · simp [metaOkV] at hval
          · simp [metaOkV] at hval
          · simp [metaOkV] at hval
          · obtain ⟨_, _, _, hmfs⟩ := metaOkV_dict mf hval
            rw [mergeStep_meta_eq] at h1
            have hsome2 : (getK a2 "metadata").isSome = true :=
              metaLoop_isSome mf (ensureMeta a) a2 h1 (ensureMeta_isSome a)
            have hcmeta : getK c "metadata" = getK a2 "metadata" :=
              mergeLoop_meta_keep rest a2 df c hnd h
            have hsomec : (getK c "metadata").isSome = true := by
              rw [hcmeta]
              exact hsome2
            have h2 : mergeStep c "metadata" (Value.dict mf) df = some c := by
              rw [mergeStep_meta_eq, ensureMeta_id_of_isSome c hsomec]
              refine metaLoop_fix mf c ?_
              intro mk mv hm hne
              obtain ⟨m2, hm2, habs⟩ := metaLoop_establish mf (ensureMeta a)
                a2 hmfs h1 mk mv hm hne
              refine ⟨m2, ?_, habs⟩
              rw [hcmeta]
              exact hm2
            have h3 : mergeLoop c rest df = some c :=
              remergeLoopTop rest a2 c df hrest h
            rw [mergeLoop]
            simp only [Option.bind_eq_bind, h2, Option.some_bind]
            exact h3
        · rw [if_neg hk] at hval
          have hc : getK c k = getK a2 k :=
            mergeLoop_frame rest a2 df c h k hnd hk
          have h2 : mergeStep c k v df = some c :=
            stepFix v a a2 c k df (fun _ _ => hk) hval h1 hc
          have h3 : mergeLoop c rest df = some c :=
            remergeLoopTop rest a2 c df hrest h
          rw [mergeLoop]
          simp only [Option.bind_eq_bind, h2, Option.some_bind]
          exact h3

theorem selfLoopTop : ∀ (fs : Obj) (x : Obj) (df : Option Bool),
    topF fs = true →
    (∀ k v, (k, v) ∈ fs → k ≠ "metadata" → getK x k = some v) →
    (∀ k v, (k, v) ∈ fs → k = "metadata" → mergeStep x k v df = some x) →
    df ≠ none → mergeLoop x fs df = some x
  | [], x, df, _, _, _, _ => by rw [mergeLoop]
  | (k, v) :: rest, x, df, hs, hx, hmeta, hdf => by
      obtain ⟨hnd, hval, hrest⟩ := topF_cons k v rest hs
      have h2 : mergeStep x k v df = some x := by
        by_cases hk : k = "metadata"
        · exact hmeta k v (List.mem_cons_self _ _) hk
        · rw [if_neg hk] at hval
          exact stepSelf v x k df (fun _ _ => hk) hval
            (hx k v (List.mem_cons_self _ _) hk) hdf
      have h3 : mergeLoop x rest df = some x :=
        selfLoopTop rest x df hrest
          (fun k2 v2 hm hne => hx k2 v2 (List.mem_cons_of_mem _ hm) hne)
          (fun k2 v2 hm he => hmeta k2 v2 (List.mem_cons_of_mem _ hm) he) hdf
      rw [mergeLoop]
      simp only [Option.bind_eq_bind, h2, Option.some_bind]
      exact h3

/-! ### Per-item re-merge fixpoints -/

theorem updDate_some (itf : Obj) (ud : Value) (h : updDate itf = some ud) :
    ∃ nmf, getK itf "metadata" = some (.dict nmf) ∧
      getK nmf "updated_date" = some ud := by
  rw [updDate] at h
  split at h
  case _ nmf hnmf => exact ⟨nmf, hnmf, h⟩
  case _ => cases h

theorem metaOkV_dict_only (v : Value) (h : metaOkV v = true) :
    ∃ mf, v = Value.dict mf := by
  rcases v with _ | b2 | n2 | s2 | xs | mf
  · simp [metaOkV] at h
  · simp [metaOkV] at h
  · simp [metaOkV] at h
  · simp [metaOkV] at h
  · simp [metaOkV] at h
  · exact ⟨mf, rfl⟩

theorem descUnpubFlag_some (itf : Obj) (htop : topF itf = true) :
    descUnpubFlag itf ≠ none := by
  rcases hg : getK itf "metadata" with _ | w
  · rw [descUnpubFlag, hg]
    simp
  · have hval := topF_val itf "metadata" w htop (mem_of_getK itf "metadata" w hg)
    rw [if_pos rfl] at hval
    obtain ⟨mf, hmf⟩ := metaOkV_dict_only w hval
    subst hmf
    rw [descUnpubFlag, hg]
    simp

theorem priceCase_self (ef nf : Obj) (ud : Value)
    (hyp : ∀ np, getK nf "offer_price" = some np → np.isNumeric = true →
      getK ef "offer_price" = some np) :
    priceCase ef nf ud = some ef := by
  rw [priceCase.eq_def]
  split
  case _ x1 x2 np ep h1 h2 =>
    rcases hn : np.isNumeric with _ | _
    · simp only [hn, Bool.false_and, Bool.false_eq_true, if_false]
    · have h3 := hyp np h1 hn
      rw [h2] at h3
      rw [Option.some.injEq] at h3
      subst h3
      simp only [bne_self_eq_false, Bool.and_false, Bool.false_eq_true,
        if_false]
  case _ x1 x2 h3 => rfl

theorem specialCases_false_eq (ef nf : Obj) (ud : Value) (nmf : Obj)
    (hg : getK nf "metadata" = some (.dict nmf)) :
    specialCases ef nf ud false =
      (if isTrueV (getK nmf "is_unpublished") then
        (match getK ef "metadata" with
         | some (.dict mf) =>
             if isFalseV (getK mf "is_unpublished") then
               setMeta ef "unpublished_date" ud
             else priceCase ef nf ud
         | _ => none)
      else priceCase ef nf ud) := by
  rw [specialCases]
  simp only [Bool.false_eq_true, if_false, hg]

theorem MAbs_of_getK (xm : Obj) (mk : String) (mv : Value)
    (hget : getK xm mk = some mv) (hv : selfV mv = true) : MAbs xm mk mv := by
  rcases mv with _ | b2 | n2 | s2 | xs | mvf
  · exact hget
  · exact hget
  · exact hget
  · exact hget
  · exact hget
  · rw [selfV] at hv
    exact ⟨mvf, hget, selfDeep mvf hv⟩

theorem newOffer_id_of_noMeta (itf : Obj)
    (h : getK itf "metadata" = none) : newOffer itf = itf := by
  simp only [newOffer, h]

theorem newOffer_id_of_noUpd (itf mf : Obj)
    (hg : getK itf "metadata" = some (.dict mf))
    (hud : getK mf "updated_date" = none) : newOffer itf = itf := by
  simp only [newOffer, hg, hud]

theorem remergeTop (itf ef l : Obj) (hb : itemB itf = true)
    (h : deepMerge ef itf false = some l) : deepMerge l itf false = some l := by
  rw [itemB, Bool.and_eq_true] at hb
  obtain ⟨hwf, htop⟩ := hb
  rw [deepMerge] at h ⊢
  simp only [Option.bind_eq_bind] at h ⊢
  rcases hsp : specialPhase ef itf false with _ | e1
  · rw [hsp] at h
    simp at h
  · rw [hsp] at h
    simp only [Option.some_bind] at h
    have hloop2 := remergeLoopTop itf e1 l (descUnpubFlag itf) htop h
    have hsp2 : specialPhase l itf false = some l := by
      rcases hupd : updDate itf with _ | ud
      · exact specialPhase_id_of_updNone l itf false hupd
      · rcases htr : ud.truthy with _ | _
        · exact specialPhase_id_of_falsy l itf false ud hupd htr
        · obtain ⟨nmf, hgm, hnud⟩ := updDate_some itf ud hupd
          have hmval := topF_val itf "metadata" (Value.dict nmf) htop
            (mem_of_getK itf "metadata" _ hgm)
          rw [if_pos rfl] at hmval
          obtain ⟨hla, hpub, hunp, hnmfs⟩ := metaOkV_dict nmf hmval
          simp only [specialPhase, hupd, htr, reduceIte,
            Option.bind_eq_bind] at hsp
          rcases hsc : specialCases (ensureMeta ef) itf ud false with _ | e0
          · rw [hsc] at hsp
            simp at hsp
          · rw [hsc] at hsp
            simp only [Option.some_bind] at hsp
            rw [setMeta] at hsp
            split at hsp
            case _ mf0 hmf0 =>
              rw [Option.some.injEq] at hsp
              have he1m : getK e1 "metadata" =
                  some (Value.dict (setK mf0 "last_active" ud)) := by
                rw [← hsp, getK_setK_self]
              have hmhyp : ∀ p ∈ itf, p.1 = "metadata" →
                  ∃ mfv, p.2 = Value.dict mfv ∧
                    getK mfv "last_active" = none := by
                intro p hp hp1
                have hgp := getK_of_mem_topF itf p.1 p.2 htop hp
                rw [hp1, hgm] at hgp
                rw [Option.some.injEq] at hgp
                exact ⟨nmf, hgp.symm, hla⟩
              obtain ⟨ml, hml, hmlla⟩ := mergeLoop_metaTrack itf e1 l
                (descUnpubFlag itf) (setK mf0 "last_active" ud) "last_active"
                h he1m hmhyp
              have hmlud : getK ml "last_active" = some ud := by
                rw [hmlla, getK_setK_self]
              have hpc2 : priceCase l itf ud = some l := by
                refine priceCase_self l itf ud ?_
                intro np hnp hnum
                refine mergeLoop_write itf e1 l (descUnpubFlag itf)
                  "offer_price" np h hnp htop (by decide) (by decide)
                  (by decide) ?_ (isNull_false_of_isNumeric np hnum)
                rcases np <;> simp_all [Value.isNumeric, Value.isDict]
              have hsc2 : specialCases l itf ud false = some l := by
                rw [specialCases_false_eq l itf ud nmf hgm]
                rcases hunpb : isTrueV (getK nmf "is_unpublished") with _ | _
                · simp only [Bool.false_eq_true, if_false]
                  exact hpc2
                · rw [if_pos rfl]
                  have hiu := isTrueV_char _ hunpb
                  obtain ⟨ml2, hml2, hml2iu⟩ := mergeLoop_metaWrite itf e1 l
                    (descUnpubFlag itf) nmf "is_unpublished"
                    (Value.bool true) h hgm htop hnmfs
                    (mem_of_getK nmf "is_unpublished" _ hiu) (by decide) rfl
                  rw [hml] at hml2
                  rw [Option.some.injEq, Value.dict.injEq] at hml2
                  subst hml2
                  rw [hml]
                  show (if isFalseV (getK ml "is_unpublished") then
                      setMeta l "unpublished_date" ud
                    else priceCase l itf ud) = some l
                  rw [hml2iu]
                  rw [if_neg (by decide)]
                  exact hpc2
              simp only [specialPhase, hupd, htr, reduceIte,
                Option.bind_eq_bind]
              rw [ensureMeta_id_of_isSome l (by rw [hml]; rfl)]
              rw [hsc2]
              simp only [Option.some_bind]
              rw [setMeta, hml]
              show some (setK l "metadata"
                (Value.dict (setK ml "last_active" ud))) = some l
              rw [setK_self_of_getK ml "last_active" ud hmlud]
              rw [setK_self_of_getK l "metadata" _ hml]
            case _ => simp at hsp
    rw [hsp2]
    simp only [Option.some_bind]
    exact hloop2

theorem newOfferFix (itf : Obj) (hb : itemB itf = true) :
    deepMerge (newOffer itf) itf false = some (newOffer itf) := by
  rw [itemB, Bool.and_eq_true] at hb
  obtain ⟨hwf, htop⟩ := hb
  have hdf := descUnpubFlag_some itf htop
  rcases hgm : getK itf "metadata" with _ | w
  · have hno : newOffer itf = itf := newOffer_id_of_noMeta itf hgm
    rw [hno]
    have hupd : updDate itf = none := by rw [updDate, hgm]
    rw [deepMerge]
    simp only [Option.bind_eq_bind]
    rw [specialPhase_id_of_updNone itf itf false hupd]
    simp only [Option.some_bind]
    refine selfLoopTop itf itf (descUnpubFlag itf) htop ?_ ?_ hdf
    · intro k v hm _
      exact getK_of_mem_topF itf k v htop hm
    · intro k v hm he
      subst he
      have hcon := getK_of_mem_topF itf "metadata" v htop hm
      rw [hgm] at hcon
      cases hcon
  · have hval := topF_val itf "metadata" w htop
      (mem_of_getK itf "metadata" w hgm)
    rw [if_pos rfl] at hval
    obtain ⟨mf0, hw⟩ := metaOkV_dict_only w hval
    subst hw
    obtain ⟨hla, hpub, hunp, hmfs⟩ := metaOkV_dict mf0 hval
    rcases hud : getK mf0 "updated_date" with _ | D
    · have hno : newOffer itf = itf := newOffer_id_of_noUpd itf mf0 hgm hud
      rw [hno]
      have hupd : updDate itf = none := by
        simp only [updDate, hgm]
        exact hud
      rw [deepMerge]
      simp only [Option.bind_eq_bind]
      rw [specialPhase_id_of_updNone itf itf false hupd]
      simp only [Option.some_bind]
      refine selfLoopTop itf itf (descUnpubFlag itf) htop ?_ ?_ hdf
      · intro k v hm _
        exact getK_of_mem_topF itf k v htop hm
      · intro k v hm he
        subst he
        have hveq := getK_of_mem_topF itf "metadata" v htop hm
        rw [hgm] at hveq
        rw [Option.some.injEq] at hveq
        subst hveq
        rw [mergeStep_meta_eq, ensureMeta_id_of_isSome itf (by rw [hgm]; rfl)]
        refine metaLoop_fix mf0 itf ?_
        intro mk mv hm2 hne2
        exact ⟨mf0, hgm, MAbs_of_getK mf0 mk mv
          (getK_of_mem_selfF mf0 mk mv hmfs hm2)
          (selfF_val mf0 mk mv hmfs hm2)⟩
    · have hne := newOffer_eq itf mf0 D hgm hud
      generalize hMLd : delK (setK (setK mf0 "publication_date" D)
        "last_active" D) "updated_date" = ml0 at hne
      have hml0 : getK (newOffer itf) "metadata" =
          some (Value.dict ml0) := by
        rw [hne, getK_setK_self]
      have hl0k : ∀ k2, k2 ≠ "metadata" →
          getK (newOffer itf) k2 = getK itf k2 := by
        intro k2 hk2
        rw [hne]
        exact getK_setK_ne itf "metadata" k2 _ hk2
      have hml0la : getK ml0 "last_active" = some D := by
        rw [← hMLd, getK_delK_ne _ "updated_date" _ (by decide),
          getK_setK_self]
      have hml0mk : ∀ mk mv, (mk, mv) ∈ mf0 → mk ≠ "updated_date" →
          getK ml0 mk = some mv := by
        intro mk mv hm hne2
        have hget := getK_of_mem_selfF mf0 mk mv hmfs hm
        have hkpub : mk ≠ "publication_date" := by
          intro he
          rw [he, hpub] at hget
          cases hget
        have hkla : mk ≠ "last_active" := by
          intro he
          rw [he, hla] at hget
          cases hget
        rw [← hMLd, getK_delK_ne _ "updated_date" _ hne2,
          getK_setK_ne _ "last_active" _ _ hkla,
          getK_setK_ne _ "publication_date" _ _ hkpub]
        exact hget
      have hupdD : updDate itf = some D := by
        simp only [updDate, hgm]
        exact hud
      rw [deepMerge]
      simp only [Option.bind_eq_bind]
      have hsp : specialPhase (newOffer itf) itf false =
          some (newOffer itf) := by
        rcases htr : D.truthy with _ | _
        · exact specialPhase_id_of_falsy _ itf false D hupdD htr
        · simp only [specialPhase, hupdD, htr, reduceIte,
            Option.bind_eq_bind]
          rw [ensureMeta_id_of_isSome _ (by rw [hml0]; rfl)]
          have hsc : specialCases (newOffer itf) itf D false =
              some (newOffer itf) := by
            rw [specialCases_false_eq (newOffer itf) itf D mf0 hgm]
            have hpc2 : priceCase (newOffer itf) itf D =
                some (newOffer itf) := by
              refine priceCase_self _ itf D ?_
              intro np hnp _
              rw [hl0k "offer_price" (by decide)]
              exact hnp
            rcases hunpb : isTrueV (getK mf0 "is_unpublished") with _ | _
            · simp only [Bool.false_eq_true, if_false]
              exact hpc2
            · rw [if_pos rfl]
              have hiu := isTrueV_char _ hunpb
              have hml0iu : getK ml0 "is_unpublished" =
                  some (Value.bool true) := by
                rw [← hMLd, getK_delK_ne _ "updated_date" _ (by decide),
                  getK_setK_ne _ "last_active" _ _ (by decide),
                  getK_setK_ne _ "publication_date" _ _ (by decide)]
                exact hiu
              rw [hml0]
              show (if isFalseV (getK ml0 "is_unpublished") then
                  setMeta (newOffer itf) "unpublished_date" D
                else priceCase (newOffer itf) itf D) = some (newOffer itf)
              rw [hml0iu]
              rw [if_neg (by decide)]
              exact hpc2
          rw [hsc]
          simp only [Option.some_bind]
          rw [setMeta, hml0]
          show some (setK (newOffer itf) "metadata"
            (Value.dict (setK ml0 "last_active" D))) = some (newOffer itf)
          rw [setK_self_of_getK ml0 "last_active" D hml0la]
          rw [setK_self_of_getK (newOffer itf) "metadata" _ hml0]
      rw [hsp]
      simp only [Option.some_bind]
      refine selfLoopTop itf (newOffer itf) (descUnpubFlag itf) htop ?_ ?_ hdf
      · intro k v hm hk
        rw [hl0k k hk]
        exact getK_of_mem_topF itf k v htop hm
      · intro k v hm he
        subst he
        have hveq := getK_of_mem_topF itf "metadata" v htop hm
        rw [hgm] at hveq
        rw [Option.some.injEq] at hveq
        subst hveq
        rw [mergeStep_meta_eq, ensureMeta_id_of_isSome _ (by rw [hml0]; rfl)]
        refine metaLoop_fix mf0 (newOffer itf) ?_
        intro mk mv hm2 hne2
        exact ⟨ml0, hml0, MAbs_of_getK ml0 mk mv (hml0mk mk mv hm2 hne2)
          (selfF_val mf0 mk mv hmfs hm2)⟩

/-! ### Idempotence at the id-map level -/

theorem pyKeyEq_comm (a b : Value) : pyKeyEq a b = pyKeyEq b a := by
  rcases hab : pyKeyEq a b with _ | _
  · rcases hba : pyKeyEq b a with _ | _
    · rfl
    · rw [pyKeyEq_symm b a hba] at hab
      cases hab
  · rw [pyKeyEq_symm a b hab]

theorem sourceStep_keys (m m1 : IdMap) (item : Value)
    (h : sourceStep m item = some m1) (hk : KeysOk m) : KeysOk m1 := by
  rcases item with _ | b2 | n2 | s2 | xs | itf
  · simp [sourceStep] at h
  · simp [sourceStep] at h
  · simp [sourceStep] at h
  · rw [sourceStep] at h
    split at h
    · simp at h
    · cases h
      exact hk
  · rw [sourceStep] at h
    split at h
    · simp at h
    · cases h
      exact hk
  · rw [sourceStep] at h
    split at h
    case _ idS hidS =>
      split at h
      case _ hha =>
        split at h
        case _ ef hfi =>
          simp only [Option.bind_eq_bind] at h
          rcases hd : deepMerge ef itf false with _ | r
          · rw [hd] at h
            simp at h
          · rw [hd] at h
            simp only [Option.some_bind, Option.some.injEq] at h
            obtain ⟨ma, k0, mb, hmeq, hma, hk0, hset⟩ :=
              setId_after_find m idS ef hfi
            rw [hset r] at h
            subst h
            have hkeys : (ma ++ (k0, r) :: mb).map Prod.fst =
                m.map Prod.fst := by
              rw [hmeq]
              simp
            rw [KeysOk, hkeys]
            exact hk
        case _ hfi =>
          cases h
          have hfresh := (findId_none m idS).mp hfi
          rw [KeysOk, List.map_append, List.pairwise_append]
          refine ⟨hk, by simp, ?_⟩
          intro a ha b hb
          simp only [List.map_cons, List.map_nil, List.mem_singleton] at hb
          subst hb
          obtain ⟨p, hp, hpa⟩ := List.mem_map.mp ha
          have hfp := hfresh p hp
          rw [hpa] at hfp
          exact hfp
      case _ => simp at h
    case _ =>
      cases h
      exact hk

theorem sourceStep_fieldsOk (m m1 : IdMap) (item : Value)
    (h : sourceStep m item = some m1)
    (hitem : ∀ itf, item = Value.dict itf → wfF itf = true)
    (_hk : KeysOk m) (hf : FieldsOk m) : FieldsOk m1 := by
  rcases item with _ | b2 | n2 | s2 | xs | itf
  · simp [sourceStep] at h
  · simp [sourceStep] at h
  · simp [sourceStep] at h
  · rw [sourceStep] at h
    split at h
    · simp at h
    · cases h
      exact hf
  · rw [sourceStep] at h
    split at h
    · simp at h
    · cases h
      exact hf
  · rw [sourceStep] at h
    split at h
    case _ idS hidS =>
      split at h
      case _ hha =>
        split at h
        case _ ef hfi =>
          simp only [Option.bind_eq_bind] at h
          rcases hd : deepMerge ef itf false with _ | r
          · rw [hd] at h
            simp at h
          · rw [hd] at h
            simp only [Option.some_bind, Option.some.injEq] at h
            have hw := hitem itf rfl
            obtain ⟨ma, k0, mb, hmeq, hma, hk0, hset⟩ :=
              setId_after_find m idS ef hfi
            rw [hset r] at h
            subst h
            have hkm : (k0, ef) ∈ m := by
              rw [hmeq]
              simp
            obtain ⟨fid0, hfid0, hfk0, hhk0⟩ := hf (k0, ef) hkm
            intro p hp
            rcases List.mem_append.mp hp with hp2 | hp2
            · have hpm : p ∈ m := by
                rw [hmeq]
                exact List.mem_append.mpr (Or.inl hp2)
              exact hf p hpm
            · rcases List.mem_cons.mp hp2 with hp3 | hp3
              · rw [hp3]
                have hoid := deepMerge_offerId ef itf false r hd idS hidS
                  hha hw
                rcases hoid with hoid | ⟨hnull, hoid⟩
                · exact ⟨idS, hoid, pyKeyEq_symm k0 idS hk0, hhk0⟩
                · rw [hfid0] at hoid
                  exact ⟨fid0, hoid, hfk0, hhk0⟩
              · have hpm : p ∈ m := by
                  rw [hmeq]
                  refine List.mem_append.mpr (Or.inr ?_)
                  exact List.mem_cons_of_mem _ hp3
                exact hf p hpm
        case _ hfi =>
          cases h
          intro p hp
          rcases List.mem_append.mp hp with hp2 | hp2
          · exact hf p hp2
          · simp only [List.mem_singleton] at hp2
            subst hp2
            refine ⟨idS, ?_, pyKeyEq_refl idS hha, hha⟩
            show getK (newOffer itf) "offer_id" = some idS
            rw [newOffer_frame itf "offer_id" (by decide)]
            exact hidS
      case _ => simp at h
    case _ =>
      cases h
      exact hf

theorem sourceFold_kf : ∀ (src : List Value) (m m1 : IdMap),
    sourceFold m src = some m1 →
    (∀ item ∈ src, ∀ itf, item = Value.dict itf → wfF itf = true) →
    KeysOk m → FieldsOk m → KeysOk m1 ∧ FieldsOk m1
  | [], m, m1, h, _, hk, hf => by
      rw [sourceFold] at h
      cases h
      exact ⟨hk, hf⟩
  | item :: rest, m, m1, h, hsrc, hk, hf => by
      rw [sourceFold] at h
      simp only [Option.bind_eq_bind] at h
      rcases hs : sourceStep m item with _ | m2
      · rw [hs] at h
        simp at h
      · rw [hs] at h
        simp only [Option.some_bind] at h
        have hk2 := sourceStep_keys m m2 item hs hk
        have hf2 := sourceStep_fieldsOk m m2 item hs
          (hsrc item (List.mem_cons_self _ _)) hk hf
        exact sourceFold_kf rest m2 m1 h
          (fun i hi => hsrc i (List.mem_cons_of_mem _ hi)) hk2 hf2

theorem sourceStep_preserves (m m1 : IdMap) (item : Value) (k0 : Value)
    (l0 : Obj) (h : sourceStep m item = some m1) (hp : (k0, l0) ∈ m)
    (hfr : ∀ itf idS, item = Value.dict itf →
      getK itf "offer_id" = some idS → pyKeyEq k0 idS = false) :
    (k0, l0) ∈ m1 := by
  rcases item with _ | b2 | n2 | s2 | xs | itf
  · simp [sourceStep] at h
  · simp [sourceStep] at h
  · simp [sourceStep] at h
  · rw [sourceStep] at h
    split at h
    · simp at h
    · cases h
      exact hp
  · rw [sourceStep] at h
    split at h
    · simp at h
    · cases h
      exact hp
  · rw [sourceStep] at h
    split at h
    case _ idS hidS =>
      split at h
      case _ hha =>
        split at h
        case _ ef hfi =>
          simp only [Option.bind_eq_bind] at h
          rcases hd : deepMerge ef itf false with _ | r
          · rw [hd] at h
            simp at h
          · rw [hd] at h
            simp only [Option.some_bind, Option.some.injEq] at h
            obtain ⟨ma, kk, mb, hmeq, hma, hkk, hset⟩ :=
              setId_after_find m idS ef hfi
            rw [hset r] at h
            subst h
            rw [hmeq] at hp
            rcases List.mem_append.mp hp with hp2 | hp2
            · exact List.mem_append.mpr (Or.inl hp2)
            · rcases List.mem_cons.mp hp2 with hp3 | hp3
              · rw [Prod.mk.injEq] at hp3
                have hk0kk : k0 = kk := hp3.1
                rw [hk0kk] at hfr
                rw [hfr itf idS rfl hidS] at hkk
                cases hkk
              · refine List.mem_append.mpr (Or.inr ?_)
                exact List.mem_cons_of_mem _ hp3
        case _ hfi =>
          cases h
          exact List.mem_append.mpr (Or.inl hp)
      case _ => simp at h
    case _ =>
      cases h
      exact hp

theorem sourceFold_preserves : ∀ (src : List Value) (m m1 : IdMap)
    (k0 : Value) (l0 : Obj), sourceFold m src = some m1 → (k0, l0) ∈ m →
    (∀ item ∈ src, ∀ itf idS, item = Value.dict itf →
      getK itf "offer_id" = some idS → pyKeyEq k0 idS = false) →
    (k0, l0) ∈ m1
  | [], m, m1, k0, l0, h, hp, _ => by
      rw [sourceFold] at h
      cases h
      exact hp
  | item :: rest, m, m1, k0, l0, h, hp, hfr => by
      rw [sourceFold] at h
      simp only [Option.bind_eq_bind] at h
      rcases hs : sourceStep m item with _ | m2
      · rw [hs] at h
        simp at h
      · rw [hs] at h
        simp only [Option.some_bind] at h
        refine sourceFold_preserves rest m2 m1 k0 l0 h ?_
          (fun i hi => hfr i (List.mem_cons_of_mem _ hi))
        exact sourceStep_preserves m m2 item k0 l0 hs hp
          (hfr item (List.mem_cons_self _ _))

theorem sourceFold_absorbed : ∀ (src : List Value) (m m1 : IdMap),
    sourceFold m src = some m1 → KeysOk m → List.Pairwise TDist src →
    (∀ item ∈ src, ∀ itf, item = Value.dict itf → itemB itf = true) →
    ∀ item ∈ src, ∀ itf idS, item = Value.dict itf →
      getK itf "offer_id" = some idS →
      ∃ k0 l, (k0, l) ∈ m1 ∧ pyKeyEq k0 idS = true ∧
        deepMerge l itf false = some l
  | [], m, m1, h, _, _, _, item, hit, itf, idS, he, _ => by simp at hit
  | item0 :: rest, m, m1, h, hk, hpw, hitems, item, hit, itf, idS, he, hid =>
      by
      rw [sourceFold] at h
      simp only [Option.bind_eq_bind] at h
      rcases hs : sourceStep m item0 with _ | m2
      · rw [hs] at h
        simp at h
      · rw [hs] at h
        simp only [Option.some_bind] at h
        rw [List.pairwise_cons] at hpw
        have hk2 := sourceStep_keys m m2 item0 hs hk
        rcases List.mem_cons.mp hit with hit2 | hit2
        · subst hit2
          subst he
          rw [sourceStep] at hs
          rw [hid] at hs
          split at hs
          case _ idS2 hidS2 =>
            -- after rw [hid] the scrutinee is literal `some idS`, so idS2 = idS
            rw [Option.some.injEq] at hidS2
            subst hidS2
            split at hs
            case _ hha =>
              have hfr2 : ∀ i ∈ rest, ∀ itf2 idL, i = Value.dict itf2 →
                  getK itf2 "offer_id" = some idL →
                  pyKeyEq idS idL = false :=
                fun i hi itf2 idL hie hidL =>
                  hpw.1 i hi itf itf2 idS idL rfl hie hid hidL
              split at hs
              case _ ef hfi =>
                simp only [Option.bind_eq_bind] at hs
                rcases hd : deepMerge ef itf false with _ | r
                · rw [hd] at hs
                  simp at hs
                · rw [hd] at hs
                  simp only [Option.some_bind, Option.some.injEq] at hs
                  obtain ⟨ma, kk, mb, hmeq, hma, hkk, hset⟩ :=
                    setId_after_find m idS ef hfi
                  rw [hset r] at hs
                  subst hs
                  have hfix := remergeTop itf ef r
                    (hitems (Value.dict itf) (List.mem_cons_self _ _) itf rfl)
                    hd
                  refine ⟨kk, r, ?_, hkk, hfix⟩
                  refine sourceFold_preserves rest (ma ++ (kk, r) :: mb) m1
                    kk r h
                    (List.mem_append.mpr (Or.inr (List.mem_cons_self _ _)))
                    ?_
                  intro i hi itf2 idL hie hidL
                  rcases hq : pyKeyEq kk idL with _ | _
                  · rfl
                  · have h1 := pyKeyEq_congr kk idS idL hkk
                    rw [hq, hfr2 i hi itf2 idL hie hidL] at h1
                    cases h1
              case _ hfi =>
                cases hs
                have hfix := newOfferFix itf
                  (hitems (Value.dict itf) (List.mem_cons_self _ _) itf rfl)
                refine ⟨idS, newOffer itf, ?_, pyKeyEq_refl idS hha, hfix⟩
                refine sourceFold_preserves rest
                  (m ++ [(idS, newOffer itf)]) m1 idS (newOffer itf) h
                  (List.mem_append.mpr (Or.inr (List.mem_cons_self _ _))) ?_
                exact hfr2
            case _ => simp at hs
          case _ hnone => cases hnone
        · exact sourceFold_absorbed rest m2 m1 h hk2 hpw.2
            (fun i hi => hitems i (List.mem_cons_of_mem _ hi)) item hit2
            itf idS he hid

theorem sourceFold_item_ok : ∀ (src : List Value) (m m1 : IdMap),
    sourceFold m src = some m1 → ∀ item ∈ src,
    (∀ s, item = .str s → strHas s "offer_id" = false) ∧
      (∀ xs, item = .list xs → listHasStr xs "offer_id" = false) ∧
      item ≠ .null ∧ (∀ b, item ≠ .bool b) ∧ (∀ n, item ≠ .int n) ∧
      (∀ itf idS, item = .dict itf → getK itf "offer_id" = some idS →
        hashable idS = true)
  | [], m, m1, _, item, hit => by simp at hit
  | item0 :: rest, m, m1, h, item, hit => by
      rw [sourceFold] at h
      simp only [Option.bind_eq_bind] at h
      rcases hs : sourceStep m item0 with _ | m2
      · rw [hs] at h
        simp at h
      · rw [hs] at h
        simp only [Option.some_bind] at h
        rcases List.mem_cons.mp hit with hit2 | hit2
        · subst hit2
          refine ⟨?_, ?_, ?_, ?_, ?_, ?_⟩
          · intro s he
            subst he
            rw [sourceStep] at hs
            rcases hq : strHas s "offer_id" with _ | _
            · rfl
            · rw [hq] at hs
              simp at hs
          · intro xs he
            subst he
            rw [sourceStep] at hs
            rcases hq : listHasStr xs "offer_id" with _ | _
            · rfl
            · rw [hq] at hs
              simp at hs
          · intro he
            subst he
            simp [sourceStep] at hs
          · intro b he
            subst he
            simp [sourceStep] at hs
          · intro n he
            subst he
            simp [sourceStep] at hs
          · intro itf idS he hid
            subst he
            rw [sourceStep] at hs
            rw [hid] at hs
            split at hs
            case _ idS2 hidS2 =>
              rw [Option.some.injEq] at hidS2
              subst hidS2
              split at hs
              case _ hha => exact hha
              case _ => simp at hs
            case _ hnone => cases hnone
        · exact sourceFold_item_ok rest m2 m1 h item hit2

theorem setId_self_of_found (m : IdMap) (id : Value) (l : Obj)
    (h : findId m id = some l) : setId m id l = m := by
  obtain ⟨ma, k0, mb, hmeq, _, _, hset⟩ := setId_after_find m id l h
  rw [hset l, hmeq]

theorem sourceStep_ident (m : IdMap) (item : Value)
    (hstr : ∀ s, item = .str s → strHas s "offer_id" = false)
    (hlst : ∀ xs, item = .list xs → listHasStr xs "offer_id" = false)
    (hnn : item ≠ .null) (hnb : ∀ b, item ≠ .bool b)
    (hni : ∀ n, item ≠ .int n)
    (hdict : ∀ itf, item = .dict itf →
      getK itf "offer_id" = none ∨
      ∃ idS l, getK itf "offer_id" = some idS ∧ hashable idS = true ∧
        findId m idS = some l ∧ deepMerge l itf false = some l) :
    sourceStep m item = some m := by
  rcases item with _ | b2 | n2 | s2 | xs | itf
  · exact absurd rfl hnn
  · exact absurd rfl (hnb b2)
  · exact absurd rfl (hni n2)
  · rw [sourceStep, hstr s2 rfl]
    simp
  · rw [sourceStep, hlst xs rfl]
    simp
  · rcases hdict itf rfl with hnone | ⟨idS, l, hid, hha, hfind, hfix⟩
    · rw [sourceStep, hnone]
    · rw [sourceStep, hid]
      simp only [hha, if_true, hfind, Option.bind_eq_bind, hfix,
        Option.some_bind, Option.some.injEq]
      exact setId_self_of_found m idS l hfind

theorem sourceFold_ident : ∀ (src : List Value) (m : IdMap),
    (∀ item ∈ src, sourceStep m item = some m) → sourceFold m src = some m
  | [], m, _ => by rw [sourceFold]
  | item :: rest, m, h => by
      rw [sourceFold]
      simp only [Option.bind_eq_bind, h item (List.mem_cons_self _ _),
        Option.some_bind]
      exact sourceFold_ident rest m
        (fun i hi => h i (List.mem_cons_of_mem _ hi))

theorem buildById_rebuild : ∀ (m acc : IdMap), FieldsOk m → KeysOk m →
    (∀ p ∈ m, ∀ q ∈ acc, ∀ fid, getK p.2 "offer_id" = some fid →
      pyKeyEq q.1 fid = false) →
    buildById (m.map fun p => Value.dict p.2) acc =
      some (acc ++ m.map reKey)
  | [], acc, _, _, _ => by
      rw [List.map_nil, buildById, List.map_nil, List.append_nil]
  | (k0, l0) :: rest, acc, hf, hk, hfr => by
      obtain ⟨fid0, hfid0, hfk0, hhk0⟩ := hf (k0, l0) (List.mem_cons_self _ _)
      rw [KeysOk, List.map_cons, List.pairwise_cons] at hk
      rw [List.map_cons, buildById]
      simp only [Option.bind_eq_bind]
      have hfind : findId acc fid0 = none := by
        refine (findId_none acc fid0).mpr ?_
        intro q hq
        exact hfr (k0, l0) (List.mem_cons_self _ _) q hq fid0 hfid0
      have hstep : buildStep acc (Value.dict l0) =
          some (acc ++ [(fid0, l0)]) := by
        rw [buildStep, hfid0]
        show (if hashable fid0 = true then some (setId acc fid0 l0)
          else none) = some (acc ++ [(fid0, l0)])
        rw [if_pos (pyKeyEq_hashable_left fid0 k0 hfk0)]
        rw [setId_of_findId_none acc fid0 l0 hfind]
      rw [hstep]
      simp only [Option.some_bind]
      have hrk : reKey (k0, l0) = (fid0, l0) := by
        show ((getK l0 "offer_id").getD Value.null, l0) = (fid0, l0)
        rw [hfid0]
        rfl
      have hfr2 : ∀ p ∈ rest, ∀ q ∈ acc ++ [(fid0, l0)], ∀ fid,
          getK p.2 "offer_id" = some fid → pyKeyEq q.1 fid = false := by
        intro p hp q hq fid hfid
        rcases List.mem_append.mp hq with hq2 | hq2
        · exact hfr p (List.mem_cons_of_mem _ hp) q hq2 fid hfid
        · simp only [List.mem_singleton] at hq2
          subst hq2
          show pyKeyEq fid0 fid = false
          obtain ⟨fidp, hfidp, hfkp, _⟩ := hf p (List.mem_cons_of_mem _ hp)
          rw [hfid] at hfidp
          rw [Option.some.injEq] at hfidp
          subst hfidp
          have hkp : pyKeyEq k0 p.1 = false := by
            refine hk.1 p.1 ?_
            exact List.mem_map.mpr ⟨p, hp, rfl⟩
          rcases hq3 : pyKeyEq fid0 fid with _ | _
          · rfl
          · have e1 : pyKeyEq k0 fid = true :=
              pyKeyEq_trans k0 fid0 fid (pyKeyEq_symm fid0 k0 hfk0) hq3
            have e2 : pyKeyEq k0 p.1 = true :=
              pyKeyEq_trans k0 fid p.1 e1 hfkp
            rw [e2] at hkp
            cases hkp
      have hrec := buildById_rebuild rest (acc ++ [(fid0, l0)])
        (fun p hp => hf p (List.mem_cons_of_mem _ hp))
        (by rw [KeysOk]; exact hk.2) hfr2
      rw [hrec, List.map_cons, hrk]
      rw [List.append_assoc]
      rfl

theorem findId_reKey : ∀ (m : IdMap) (id : Value), FieldsOk m →
    findId (m.map reKey) id = findId m id
  | [], id, _ => rfl
  | (k0, l0) :: rest, id, hf => by
      obtain ⟨fid0, hfid0, hfk0, _⟩ := hf (k0, l0) (List.mem_cons_self _ _)
      have hrk : reKey (k0, l0) = (fid0, l0) := by
        show ((getK l0 "offer_id").getD Value.null, l0) = (fid0, l0)
        rw [hfid0]
        rfl
      rw [List.map_cons, hrk, findId, findId]
      have hcond : pyKeyEq fid0 id = pyKeyEq k0 id :=
        pyKeyEq_congr fid0 k0 id hfk0
      rw [hcond]
      rcases hq : pyKeyEq k0 id with _ | _
      · simp only [Bool.false_eq_true, if_false]
        exact findId_reKey rest id
          (fun p hp => hf p (List.mem_cons_of_mem _ hp))
      · simp only [if_true]

/-! ### Claim C2: idempotence of the merge -/

/-- **C2** is refuted as stated: a source batch that mentions the same
    offer id twice with alternating prices appends two price-change entries
    on every merge, so merging the identical batch a second time grows
    `price_changes` from 2 to 4 entries. -/
theorem claim_C2_counterexample :
    ∃ r r2,
      mergeData
          [Value.dict [("offer_id", Value.str "1"),
            ("offer_price", Value.int 1000), ("metadata", Value.dict [])]]
          [Value.dict [("offer_id", Value.str "1"),
            ("offer_price", Value.int 1200),
            ("metadata", Value.dict [("updated_date", Value.str "D")])],
           Value.dict [("offer_id", Value.str "1"),
            ("offer_price", Value.int 1000),
            ("metadata", Value.dict [("updated_date", Value.str "D")])]] =
        some r ∧
      mergeData r
          [Value.dict [("offer_id", Value.str "1"),
            ("offer_price", Value.int 1200),
            ("metadata", Value.dict [("updated_date", Value.str "D")])],
           Value.dict [("offer_id", Value.str "1"),
            ("offer_price", Value.int 1000),
            ("metadata", Value.dict [("updated_date", Value.str "D")])]] =
        some r2 ∧
      (∃ l, lookupListing r (Value.str "1") = some l ∧ pcLenV l = 2) ∧
      (∃ l2, lookupListing r2 (Value.str "1") = some l2 ∧ pcLenV l2 = 4) := by
  refine ⟨[Value.dict
      [("offer_id", Value.str "1"), ("offer_price", Value.int 1000),
       ("metadata", Value.dict [("last_active", Value.str "D")]),
       ("price_changes", Value.list
         [Value.dict [("change", Value.str "200"),
            ("current_price", Value.str "1200"),
            ("previous_price", Value.str "1000"),
            ("date", Value.str "D")],
          Value.dict [("change", Value.str "-200"),
            ("current_price", Value.str "1000"),
            ("previous_price", Value.str "1200"),
            ("date", Value.str "D")]])]],
    [Value.dict
      [("offer_id", Value.str "1"), ("offer_price", Value.int 1000),
       ("metadata", Value.dict [("last_active", Value.str "D")]),
       ("price_changes", Value.list
         [Value.dict [("change", Value.str "200"),
            ("current_price", Value.str "1200"),
            ("previous_price", Value.str "1000"),
            ("date", Value.str "D")],
          Value.dict [("change", Value.str "-200"),
            ("current_price", Value.str "1000"),
            ("previous_price", Value.str "1200"),
            ("date", Value.str "D")],
          Value.dict [("change", Value.str "200"),
            ("current_price", Value.str "1200"),
            ("previous_price", Value.str "1000"),
            ("date", Value.str "D")],
          Value.dict [("change", Value.str "-200"),
            ("current_price", Value.str "1000"),
            ("previous_price", Value.str "1200"),
            ("date", Value.str "D")]])]],
    ?_, ?_, ⟨_, rfl, rfl⟩, ⟨_, rfl, rfl⟩⟩
  · simp [mergeData, buildById, buildStep, sourceFold, sourceStep, findId,
      setId, hashable, deepMerge, mergeLoop, mergeStep, plainFallback,
      plainStep, metaLoop, metaStep, specialPhase, ensureMeta, setMeta,
      specialCases, priceCase, updDate, descUnpubFlag, getK, setK, delK,
      newOffer, isTrueV, isFalseV, Value.truthy, Value.isNumeric,
      Value.toInt, Value.pyStr, Value.isNull, pyKeyEq]
    decide
  · simp [mergeData, buildById, buildStep, sourceFold, sourceStep, findId,
      setId, hashable, deepMerge, mergeLoop, mergeStep, plainFallback,
      plainStep, metaLoop, metaStep, specialPhase, ensureMeta, setMeta,
      specialCases, priceCase, updDate, descUnpubFlag, getK, setK, delK,
      newOffer, isTrueV, isFalseV, Value.truthy, Value.isNumeric,
      Value.toInt, Value.pyStr, Value.isNull, pyKeyEq]
    decide

/-- **C2** (corrected): the merge is idempotent on source batches whose
    items carry pairwise-distinct offer ids and are benign (`itemB`):
    well-formed, with pairwise-distinct keys at every dict level, no
    `metadata` key strictly below the item's top level, and a metadata dict
    free of the keys the merge itself writes (`last_active`,
    `publication_date`, `unpublished_date`). For such batches, merging the
    same source into the already-merged result returns the result
    unchanged: no price-change entry is appended twice and no unpublish
    transition is recorded twice. Without the distinct-id restriction the
    claim fails (`claim_C2_counterexample`). -/
theorem claim_C2 (target source r : List Value)
    (hr : mergeData target source = some r)
    (hdist : List.Pairwise TDist source)
    (hsrc : ∀ item ∈ source, ∀ itf, item = Value.dict itf →
      itemB itf = true) :
    mergeData r source = some r := by
  rw [mergeData] at hr
  simp only [Option.bind_eq_bind] at hr
  rcases hb : buildById target [] with _ | m0
  · rw [hb] at hr
    simp at hr
  · rw [hb] at hr
    simp only [Option.some_bind] at hr
    rcases hs : sourceFold m0 source with _ | m1
    · rw [hs] at hr
      simp at hr
    · rw [hs] at hr
      simp only [Option.some_bind, Option.some.injEq] at hr
      subst hr
      have hk0 : KeysOk ([] : IdMap) := List.Pairwise.nil
      have hf0 : FieldsOk ([] : IdMap) := by
        intro p hp
        simp at hp
      obtain ⟨hkm0, hfm0⟩ := buildById_invs target [] m0 hb hk0 hf0
      have hwf : ∀ item ∈ source, ∀ itf, item = Value.dict itf →
          wfF itf = true := by
        intro item hi itf he
        have h2 := hsrc item hi itf he
        rw [itemB, Bool.and_eq_true] at h2
        exact h2.1
      obtain ⟨hkm1, hfm1⟩ := sourceFold_kf source m0 m1 hs hwf hkm0 hfm0
      have habs := sourceFold_absorbed source m0 m1 hs hkm0 hdist hsrc
      have hok := sourceFold_item_ok source m0 m1 hs
      have hrebuild := buildById_rebuild m1 [] hfm1 hkm1
        (by intro p hp q hq; simp at hq)
      rw [List.nil_append] at hrebuild
      rw [mergeData]
      simp only [Option.bind_eq_bind]
      rw [hrebuild]
      simp only [Option.some_bind]
      have hfold2 : sourceFold (m1.map reKey) source =
          some (m1.map reKey) := by
        refine sourceFold_ident source (m1.map reKey) ?_
        intro item hi
        obtain ⟨hstr, hlst, hnn, hnb, hni, hhash⟩ := hok item hi
        refine sourceStep_ident (m1.map reKey) item hstr hlst hnn hnb hni ?_
        intro itf he
        rcases hid : getK itf "offer_id" with _ | idS
        · exact Or.inl rfl
        · obtain ⟨k0, l, hmem, hk0eq, hfix⟩ := habs item hi itf idS he hid
          refine Or.inr ⟨idS, l, rfl, hhash itf idS he hid, ?_, hfix⟩
          rw [findId_reKey m1 idS hfm1]
          exact findId_of_pairwise m1 idS k0 l hkm1 hmem hk0eq
      rw [hfold2]
      simp only [Option.some_bind, Option.some.injEq]
      rw [List.map_map]
      rfl

/-- Witness for C2 at a concrete input: one fresh well-behaved source item
    merged into an empty target, then re-merged. -/
theorem claim_C2_witness :
    mergeData
        [Value.dict [("offer_id", Value.str "1"),
          ("offer_price", Value.int 1000),
          ("metadata", Value.dict [("publication_date", Value.str "D"),
            ("last_active", Value.str "D")])]]
        [Value.dict [("offer_id", Value.str "1"),
          ("offer_price", Value.int 1000),
          ("metadata", Value.dict [("updated_date", Value.str "D")])]] =
      some [Value.dict [("offer_id", Value.str "1"),
        ("offer_price", Value.int 1000),
        ("metadata", Value.dict [("publication_date", Value.str "D"),
          ("last_active", Value.str "D")])]] :=
  claim_C2 []
    [Value.dict [("offer_id", Value.str "1"),
      ("offer_price", Value.int 1000),
      ("metadata", Value.dict [("updated_date", Value.str "D")])]]
    [Value.dict [("offer_id", Value.str "1"),
      ("offer_price", Value.int 1000),
      ("metadata", Value.dict [("publication_date", Value.str "D"),
        ("last_active", Value.str "D")])]]
    rfl
    (List.pairwise_singleton _ _)
    (by
      intro item hi itf he
      rw [List.mem_singleton] at hi
      subst hi
      rw [Value.dict.injEq] at he
      subst he
      rw [itemB]
      simp [wfF, wfV, wfL, topF, metaOkV, selfF, selfV, getK])

end Cian
